import Mathlib

/-!
Verification development for keras_retinanet/layers/filter_detections.py.

The file embeds the two filtering functions (the dynamic-shape
filter_detections and the static-shape filter_detections_tpu) and the
batched layer FilterDetections.call as executable Lean functions over
rational-valued boxes and scores.  Tensor operations that can raise at
run time (gather with out-of-range indices, top_k with an invalid k,
concatenation of an empty list of tensors, argmax over an empty class
axis) are modelled in the Option monad: none models a raised error.
Scores in the static-shape variant live in WithBot Q, whose bottom
element models the -infinity score of the appended dummy (ghost) row.
Statements in Python execute eagerly and in order, so every tensor
expression of the source is evaluated here in source order, including
the pre-exclude pass whose result the source then discards.
-/

set_option linter.unusedVariables false

/-- Extended score type of the static-shape variant: bottom models -infinity. -/
abbrev EScore := WithBot ℚ

/-- Axis-aligned box with coordinates (x1, y1, x2, y2), as in the source. -/
structure Box where
  x1 : ℚ
  y1 : ℚ
  x2 : ℚ
  y2 : ℚ
  deriving DecidableEq, Repr

/-- Modelled from the spec: GeometryOps area, clamped at zero for degenerate boxes
(the backend geometry helpers of this repository are not under src/). -/
def boxArea (b : Box) : ℚ := max 0 (b.x2 - b.x1) * max 0 (b.y2 - b.y1)

/-- Modelled from the spec: GeometryOps intersection area of two boxes. -/
def interArea (a b : Box) : ℚ :=
  max 0 (min a.x2 b.x2 - max a.x1 b.x1) * max 0 (min a.y2 b.y2 - max a.y1 b.y1)

/-- Modelled from the spec: GeometryOps IoU, defined as 0 when the union area is 0. -/
def iou (a b : Box) : ℚ :=
  let i := interArea a b
  let u := boxArea a + boxArea b - i
  if u ≤ 0 then 0 else i / u

/-- Configuration of the filtering call.  max_detections is a Python int and may
be negative, hence it is an integer here. -/
structure FDConfig where
  class_specific_filter : Bool
  nms : Bool
  score_threshold : ℚ
  max_detections : ℤ
  nms_threshold : ℚ
  deriving DecidableEq, Repr

/-- The all-minus-one sentinel box used when padding the dynamic-path output. -/
def sentinelBox : Box := ⟨-1, -1, -1, -1⟩

/-- The zero box appended as the dummy (ghost) row by the static-shape variant. -/
def zeroBox : Box := ⟨0, 0, 0, 0⟩

/-- First element of the list attaining the maximal key (ties keep the earlier
element).  Shared kernel of the embeddings of top_k, argmax and NMS. -/
def argmaxKey {β : Type} {α : Type} [LinearOrder α] (key : β → α) : List β → Option β
  | [] => none
  | p :: rest =>
    match argmaxKey key rest with
    | none => some p
    | some q => if key p < key q then some q else some p

/-- Modelled from the spec: TopKSelector, section 4.5 -- repeatedly emit the
remaining (position, score) pair with the highest score, ties broken by the
lowest position; this embeds the documented semantics of tf.nn.top_k used by
backend.top_k, which is not under src/. -/
def topkAux {α : Type} [LinearOrder α] [DecidableEq α] : ℕ → List (ℕ × α) → List (ℕ × α)
  | 0, _ => []
  | k + 1, ps =>
    match argmaxKey Prod.snd ps with
    | none => []
    | some p => p :: topkAux k (ps.erase p)

/-- Embedding of tf.nn.top_k (sorted), returning (values, indices); it raises
when k is negative or exceeds the length of the input. -/
def tf_top_k {α : Type} [LinearOrder α] [DecidableEq α] (xs : List α) (k : ℤ) :
    Option (List α × List ℕ) :=
  if k < 0 ∨ (xs.length : ℤ) < k then none
  else
    let sel := topkAux k.toNat xs.enum
    some (sel.map Prod.snd, sel.map Prod.fst)

/-- Modelled from the spec: GreedyNMSSuppressor, section 4.3 -- repeatedly pick
the remaining candidate (position, box, score) with the highest score (ties by
lowest position), emit it, drop every remaining candidate whose IoU with it
exceeds the threshold, stop after max_output_size picks; this embeds
backend.non_max_suppression, which is not under src/. -/
def nmsSel {α : Type} [LinearOrder α] (iou_thr : ℚ) : ℕ → List (ℕ × Box × α) → List (ℕ × Box × α)
  | 0, _ => []
  | k + 1, cands =>
    match argmaxKey (fun c => c.2.2) cands with
    | none => []
    | some c => c :: nmsSel iou_thr k
        (cands.filter (fun d => d.1 != c.1 && decide (iou c.2.1 d.2.1 ≤ iou_thr)))

/-- Modelled from the spec: the padded NMS of the static-shape variant (section
4.7) -- candidates are the positions whose score strictly exceeds the score
threshold, greedy suppression as in section 4.3, and the index list is padded
to max_output_size; returns (padded indices, number of valid results).  Embeds
backend.non_max_suppression_padded, which is not under src/.  It raises when
boxes and scores disagree in length. -/
def non_max_suppression_padded (boxesA : List Box) (scores : List EScore)
    (max_output_size : ℕ) (iou_thr : ℚ) (score_thr : ℚ) : Option (List ℕ × ℕ) :=
  if boxesA.length ≠ scores.length then none
  else
    let cands := (List.range scores.length).filterMap (fun i =>
      if (score_thr : EScore) < scores.getD i ⊥ then
        some (i, boxesA.getD i zeroBox, scores.getD i ⊥)
      else none)
    let sel := nmsSel iou_thr max_output_size cands
    some (sel.map (fun c => c.1) ++ List.replicate (max_output_size - sel.length) 0, sel.length)

/-- Index list computed by the inner _sort_by_scores helper of
filter_detections_tpu (source lines 137-152): either padded NMS with invalid
slots rewritten to the dummy index, or top_k with sub-threshold slots rewritten
to the dummy index. -/
def sbs_indices (cfg : FDConfig) (scores : List EScore) (boxesA : List Box)
    (output_size : ℤ) (use_nms : Bool) : Option (List ℕ) :=
  let dummy_index := scores.length - 1
  if use_nms then
    match non_max_suppression_padded boxesA scores output_size.toNat
        cfg.nms_threshold cfg.score_threshold with
    | none => none
    | some (indices_padded, n_valid) =>
      some ((List.range cfg.max_detections.toNat).map (fun t =>
        if t < n_valid then indices_padded.getD t 0 else dummy_index))
  else
    match tf_top_k scores output_size with
    | none => none
    | some (topk_scores, ip) =>
      some ((topk_scores.zip ip).map (fun si =>
        if (cfg.score_threshold : EScore) < si.1 then si.2 else dummy_index))

/-- The _sort_by_scores helper of filter_detections_tpu (source lines 137-154):
computes the (rewritten) index list and gathers scores, boxes and labels at it.
The gather on boxes can raise when an index is out of range. -/
def _sort_by_scores (cfg : FDConfig) (scores : List EScore) (boxesA : List Box)
    (labelsA : List ℤ) (output_size : ℤ) (use_nms : Bool) :
    Option (List EScore × List Box × List ℤ) := do
  let ip ← sbs_indices cfg scores boxesA output_size use_nms
  let gboxes ← ip.mapM (fun i => boxesA[i]?)
  pure (ip.map (fun i => scores.getD i ⊥), gboxes, ip.map (fun i => labelsA.getD i (-1)))

/-- The _pre_exclude helper (source lines 156-159): top-(2 x max_detections)
prune by raw score, skipping NMS. -/
def _pre_exclude (cfg : FDConfig) (e : List EScore × List Box × List ℤ) :
    Option (List EScore × List Box × List ℤ) :=
  _sort_by_scores cfg e.1 e.2.1 e.2.2 (cfg.max_detections * 2) false

/-- The _sort_by_1st_arg_using_topk helper (source lines 161-163). -/
def _sort_by_1st_arg_using_topk (cfg : FDConfig) (e : List EScore × List Box × List ℤ) :
    Option (List EScore × List Box × List ℤ) :=
  _sort_by_scores cfg e.1 e.2.1 e.2.2 cfg.max_detections false

/-- The _sort_by_1st_arg_using_nms helper (source lines 165-167). -/
def _sort_by_1st_arg_using_nms (cfg : FDConfig) (e : List EScore × List Box × List ℤ) :
    Option (List EScore × List Box × List ℤ) :=
  _sort_by_scores cfg e.1 e.2.1 e.2.2 cfg.max_detections true

/-- First index of the row attaining its maximum (tf.argmax over the class
axis); defaults to 0 on an empty row, which the callers rule out. -/
def rowArgmax (r : List ℚ) : ℕ :=
  match argmaxKey Prod.snd r.enum with
  | none => 0
  | some p => p.1

/-- Maximum of a row of plain scores (tf reduce_max over a nonempty class axis);
defaults to 0 on an empty row, which the callers rule out. -/
def rowMax (r : List ℚ) : ℚ :=
  match r with
  | [] => 0
  | a :: t => t.foldl max a

/-- Zip three lists into a list of triples. -/
def zip3 {α β γ : Type} (a : List α) (b : List β) (c : List γ) : List (α × β × γ) :=
  a.zip (b.zip c)

/-- Per-image output of the static-shape variant: boxes, scores, labels only
(the side-channel outputs are commented out in the source). -/
structure TPUOut where
  boxes : List Box
  scores : List EScore
  labels : List ℤ
  deriving DecidableEq, Repr

/-- The dummy-row-extended score matrix of the static-shape variant (source
lines 131-133): the classification rows followed by one all-bottom row. -/
def scores_with_dummy (C : ℕ) (classification : List (List ℚ)) : List (List EScore) :=
  classification.map (fun r => r.map (fun q => (q : EScore))) ++ [List.replicate C ⊥]

/-- Class-specific scores_adapt (source line 171): the transpose of the
dummy-extended score matrix, one row per class. -/
def scores_adapt_specific (C : ℕ) (classification : List (List ℚ)) : List (List EScore) :=
  (List.range C).map (fun c => (scores_with_dummy C classification).map (fun r => r.getD c ⊥))

/-- Class-specific labels (source line 172): row c is the class id c repeated
once per anchor. -/
def labels_specific (C n_anchor : ℕ) : List (List ℤ) :=
  (List.range C).map (fun c : ℕ => List.replicate n_anchor ((c : ℤ)))

/-- Class-agnostic scores_adapt (source line 175): one row holding the per-row
maximum of the dummy-extended score matrix. -/
def scores_adapt_agnostic (C : ℕ) (classification : List (List ℚ)) : List (List EScore) :=
  [(scores_with_dummy C classification).map (fun r => r.foldr max ⊥)]

/-- Class-agnostic labels (source line 176): one row holding the argmax class
of every anchor. -/
def labels_agnostic (classification : List (List ℚ)) : List (List ℤ) :=
  [classification.map (fun r => ((rowArgmax r : ℤ)))]

/-- The static-shape filter_detections_tpu (source lines 113-202).  C is the
static class count shape(classification)[1]; classification rows are expected
to have length C.  Evaluation order follows the source: the pre-exclude map
runs first (its result res is immediately shadowed, the source passes elems to
the second map as well), then the main NMS/top-k map, then for the
class-specific mode the final merge by top_k. -/
def filter_detections_tpu (cfg : FDConfig) (boxes : List Box) (C : ℕ)
    (classification : List (List ℚ)) : Option TPUOut := do
  let n_anchor := classification.length
  let boxes_with_dummy := boxes ++ [zeroBox]
  let (scores_adapt, labels) ←
    if cfg.class_specific_filter then
      pure (scores_adapt_specific C classification, labels_specific C n_anchor)
    else
      if C = 0 then none
      else
        pure (scores_adapt_agnostic C classification, labels_agnostic classification)
  let dim0_size := scores_adapt.length
  let labels_adapt := labels.map (fun l => l ++ [(-1 : ℤ)])
  let boxes_adapt := List.replicate dim0_size boxes_with_dummy
  let elems := zip3 scores_adapt boxes_adapt labels_adapt
  let res ← elems.mapM (fun e => _pre_exclude cfg e)
  let res ← elems.mapM (fun e =>
    if cfg.nms then _sort_by_1st_arg_using_nms cfg e else _sort_by_1st_arg_using_topk cfg e)
  let scores_flat := (res.map (fun r => r.1)).flatten
  let boxes_flat := (res.map (fun r => r.2.1)).flatten
  let labels_flat := (res.map (fun r => r.2.2)).flatten
  let (scores_res, boxes_res, labels_res) ←
    if cfg.class_specific_filter then
      _sort_by_1st_arg_using_topk cfg (scores_flat, boxes_flat, labels_flat)
    else
      pure (scores_flat, boxes_flat, labels_flat)
  pure ⟨boxes_res, scores_res, labels_res⟩

/-- A side-channel tensor of the dynamic path: w is its static trailing width
(shape[1:] flattened to one dimension), data its per-anchor rows. -/
structure OtherT where
  w : ℕ
  data : List (List ℚ)
  deriving DecidableEq, Repr

/-- Per-image output of the dynamic-shape filter_detections. -/
structure FDOut where
  boxes : List Box
  scores : List ℚ
  labels : List ℤ
  others : List (List (List ℚ))
  deriving DecidableEq, Repr

/-- The inner _filter_detections helper of the dynamic path (source lines
51-67): threshold by score, optionally run NMS on the surviving boxes, and
return the surviving (anchor index, label) pairs. -/
def _filter_detections (cfg : FDConfig) (boxes : List Box) (scores : List ℚ)
    (labels : List ℤ) : Option (List (ℕ × ℤ)) := do
  let indices := (List.range scores.length).filter
    (fun i => decide (cfg.score_threshold < scores.getD i 0))
  let indices ←
    if cfg.nms then do
      let filtered_boxes ← indices.mapM (fun i => boxes[i]?)
      let filtered_scores := indices.map (fun i => scores.getD i 0)
      let sel := nmsSel cfg.nms_threshold cfg.max_detections.toNat
        (zip3 indices filtered_boxes filtered_scores)
      pure (sel.map (fun c => c.1))
    else pure indices
  pure (indices.map (fun i => (i, labels.getD i (-1))))

/-- The per-class / class-agnostic aggregation of the dynamic path (source
lines 69-82).  In the class-specific mode the per-class index tensors are
concatenated, which raises when the list of tensors is empty (C = 0); in the
class-agnostic mode max and argmax over the class axis raise when C = 0. -/
def fdMerged (cfg : FDConfig) (boxes : List Box) (C : ℕ)
    (classification : List (List ℚ)) : Option (List (ℕ × ℤ)) :=
  if cfg.class_specific_filter then do
    let all ← (List.range C).mapM (fun (c : ℕ) =>
      _filter_detections cfg boxes (classification.map (fun r => r.getD c 0))
        (List.replicate classification.length ((c : ℤ))))
    if all.isEmpty then none else pure all.flatten
  else
    if C = 0 then none
    else
      _filter_detections cfg boxes (classification.map rowMax)
        (classification.map (fun r => ((rowArgmax r : ℤ))))

/-- The dynamic-shape filter_detections (source lines 21-110): aggregation,
gather of the per-candidate scores, top-k with k = min(max_detections, number
of candidates), gather of boxes, labels and side channels at the selected
anchors, and sentinel padding to exactly max_detections rows. -/
def filter_detections (cfg : FDConfig) (boxes : List Box) (C : ℕ)
    (classification : List (List ℚ)) (other : List OtherT) : Option FDOut := do
  let indices ← fdMerged cfg boxes C classification
  let scores ← indices.mapM (fun p => do
    let r ← classification[p.1]?
    r[p.2.toNat]?)
  let labels := indices.map (fun p => p.2)
  let tk ← tf_top_k scores (min cfg.max_detections ((scores.length : ℤ)))
  let scores_top := tk.1
  let top_indices := tk.2
  let gindices := top_indices.map (fun t => (indices.map (fun p => p.1)).getD t 0)
  let boxes_sel ← gindices.mapM (fun i => boxes[i]?)
  let labels_sel := top_indices.map (fun t => labels.getD t (-1))
  let other_sel ← other.mapM (fun o => gindices.mapM (fun i => o.data[i]?))
  let pad_size := (cfg.max_detections - (scores_top.length : ℤ)).toNat
  pure { boxes := boxes_sel ++ List.replicate pad_size sentinelBox
       , scores := scores_top ++ List.replicate pad_size (-1)
       , labels := labels_sel ++ List.replicate pad_size (-1)
       , others := (other.zip other_sel).map
           (fun po => po.2 ++ List.replicate pad_size (List.replicate po.1.w (-1))) }

/-- The batched FilterDetections.call (source lines 237-272): maps
filter_detections_tpu over the batch.  The side-channel inputs are unpacked
into other_b but never passed on (the source passes None and returns only
boxes, scores and labels per image). -/
def FilterDetections_call (cfg : FDConfig) (C : ℕ) (boxes_b : List (List Box))
    (classification_b : List (List (List ℚ)))
    (other_b : List (List (List (List ℚ)))) : Option (List TPUOut) :=
  if boxes_b.length ≠ classification_b.length then none
  else (boxes_b.zip classification_b).mapM
    (fun bc => filter_detections_tpu cfg bc.1 C bc.2)

/-- Well-formedness of a classification tensor: every row has the static class
count C. -/
def ClsWF (C : ℕ) (classification : List (List ℚ)) : Prop :=
  ∀ r ∈ classification, r.length = C

instance (C : ℕ) (classification : List (List ℚ)) : Decidable (ClsWF C classification) :=
  inferInstanceAs (Decidable (∀ r ∈ classification, r.length = C))

/-- Value gathered by classification[p.1][p.2] for a merged candidate p (the
gather_nd of source line 87, written with list lookups). -/
def gatherScore (cls : List (List ℚ)) (p : ℕ × ℤ) : ℚ :=
  (cls.getD p.1 []).getD p.2.toNat 0


/-! Helper lemmas about mapM in the Option monad. -/

theorem mapM_some_cons {α β : Type} {f : α → Option β} {a : α} {xs : List α} {ys : List β} :
    (a :: xs).mapM f = some ys ↔ ∃ b t, f a = some b ∧ xs.mapM f = some t ∧ ys = b :: t := by
  simp only [List.mapM_cons, Option.pure_def, Option.bind_eq_bind]
  cases hfa : f a with
  | none => simp
  | some b =>
    cases hxs : xs.mapM f with
    | none => simp
    | some t => simp [eq_comm]

theorem mapM_some_forall2 {α β : Type} {f : α → Option β} :
    ∀ {xs : List α} {ys : List β}, xs.mapM f = some ys →
      List.Forall₂ (fun a b => f a = some b) xs ys := by
  intro xs
  induction xs with
  | nil =>
    intro ys h
    simp only [List.mapM_nil, Option.pure_def, Option.some.injEq] at h
    subst h
    exact List.Forall₂.nil
  | cons a t ih =>
    intro ys h
    rcases mapM_some_cons.mp h with ⟨b, t2, hfa, ht, hy⟩
    subst hy
    exact List.Forall₂.cons hfa (ih ht)

theorem mapM_some_length {α β : Type} {f : α → Option β} {xs : List α} {ys : List β}
    (h : xs.mapM f = some ys) : ys.length = xs.length :=
  (mapM_some_forall2 h).length_eq.symm

theorem mapM_of_forall_some {α β : Type} {f : α → Option β} {g : α → β} :
    ∀ {xs : List α}, (∀ a ∈ xs, f a = some (g a)) → xs.mapM f = some (xs.map g) := by
  intro xs
  induction xs with
  | nil => intro _; rfl
  | cons a t ih =>
    intro h
    rw [List.mapM_cons, h a (List.mem_cons_self a t),
      ih (fun x hx => h x (List.mem_cons_of_mem a hx))]
    rfl

theorem mapM_some_exists {α β : Type} {f : α → Option β} :
    ∀ {xs : List α}, (∀ a ∈ xs, ∃ b, f a = some b) → ∃ ys, xs.mapM f = some ys := by
  intro xs
  induction xs with
  | nil => intro _; exact ⟨[], rfl⟩
  | cons a t ih =>
    intro h
    rcases h a (List.mem_cons_self a t) with ⟨b, hb⟩
    rcases ih (fun x hx => h x (List.mem_cons_of_mem a hx)) with ⟨ys, hys⟩
    exact ⟨b :: ys, by rw [List.mapM_cons, hb, hys]; rfl⟩

theorem forall2_getElem {α β : Type} {R : α → β → Prop} {xs : List α} {ys : List β}
    (h : List.Forall₂ R xs ys) :
    ∀ {n : ℕ} {a : α} {b : β}, xs[n]? = some a → ys[n]? = some b → R a b := by
  induction h with
  | nil => intro n a b ha _; simp at ha
  | cons hR htail ih =>
    intro n a b ha hb
    cases n with
    | zero =>
      simp only [List.getElem?_cons_zero, Option.some.injEq] at ha hb
      subst ha; subst hb; exact hR
    | succ m =>
      simp only [List.getElem?_cons_succ] at ha hb
      exact ih ha hb

/-! Helper lemmas about argmaxKey. -/

theorem argmaxKey_cons_none {β α : Type} [LinearOrder α] {key : β → α} {a : β} {rest : List β}
    (h : argmaxKey key rest = none) : argmaxKey key (a :: rest) = some a := by
  unfold argmaxKey
  rw [h]

theorem argmaxKey_cons_some {β α : Type} [LinearOrder α] {key : β → α} {a q : β} {rest : List β}
    (h : argmaxKey key rest = some q) :
    argmaxKey key (a :: rest) = if key a < key q then some q else some a := by
  unfold argmaxKey
  rw [h]

theorem argmaxKey_eq_none {β α : Type} [LinearOrder α] {key : β → α} {l : List β} :
    argmaxKey key l = none ↔ l = [] := by
  cases l with
  | nil => simp [argmaxKey]
  | cons p rest =>
    simp only [List.cons_ne_nil, iff_false]
    cases hrest : argmaxKey key rest with
    | none => simp [argmaxKey_cons_none hrest]
    | some q =>
      rw [argmaxKey_cons_some hrest]
      by_cases h : key p < key q <;> simp [h]

theorem argmaxKey_mem {β α : Type} [LinearOrder α] {key : β → α} :
    ∀ {l : List β} {p : β}, argmaxKey key l = some p → p ∈ l := by
  intro l
  induction l with
  | nil => intro p h; simp [argmaxKey] at h
  | cons a rest ih =>
    intro p h
    cases hrest : argmaxKey key rest with
    | none =>
      rw [argmaxKey_cons_none hrest] at h
      cases h
      exact List.mem_cons_self a rest
    | some q =>
      rw [argmaxKey_cons_some hrest] at h
      by_cases hlt : key a < key q
      · rw [if_pos hlt] at h
        cases h
        exact List.mem_cons_of_mem a (ih hrest)
      · rw [if_neg hlt] at h
        cases h
        exact List.mem_cons_self a rest

theorem argmaxKey_le {β α : Type} [LinearOrder α] {key : β → α} :
    ∀ {l : List β} {p : β}, argmaxKey key l = some p → ∀ q ∈ l, key q ≤ key p := by
  intro l
  induction l with
  | nil => intro p h; simp [argmaxKey] at h
  | cons a rest ih =>
    intro p h q hq
    cases hrest : argmaxKey key rest with
    | none =>
      rw [argmaxKey_cons_none hrest] at h
      cases h
      rcases List.mem_cons.mp hq with hqa | hqr
      · subst hqa; exact le_refl _
      · rw [argmaxKey_eq_none.mp hrest] at hqr
        exact absurd hqr (List.not_mem_nil q)
    | some m =>
      rw [argmaxKey_cons_some hrest] at h
      rcases List.mem_cons.mp hq with hqa | hqr
      · subst hqa
        by_cases hlt : key q < key m
        · rw [if_pos hlt] at h; cases h; exact le_of_lt hlt
        · rw [if_neg hlt] at h; cases h; exact le_refl _
      · have hm := ih hrest q hqr
        by_cases hlt : key a < key m
        · rw [if_pos hlt] at h; cases h; exact hm
        · rw [if_neg hlt] at h; cases h
          exact le_trans hm (le_of_not_lt hlt)

theorem argmaxKey_first {β α : Type} [LinearOrder α] {key : β → α} :
    ∀ {l : List β} {p : β}, argmaxKey key l = some p →
      ∃ l1 l2, l = l1 ++ p :: l2 ∧ ∀ q ∈ l1, key q < key p := by
  intro l
  induction l with
  | nil => intro p h; simp [argmaxKey] at h
  | cons a rest ih =>
    intro p h
    cases hrest : argmaxKey key rest with
    | none =>
      rw [argmaxKey_cons_none hrest] at h
      cases h
      exact ⟨[], rest, rfl, by simp⟩
    | some m =>
      rw [argmaxKey_cons_some hrest] at h
      by_cases hlt : key a < key m
      · rw [if_pos hlt] at h
        cases h
        rcases ih hrest with ⟨l1, l2, hsplit, hl1⟩
        refine ⟨a :: l1, l2, by rw [hsplit]; rfl, ?_⟩
        intro q hq
        rcases List.mem_cons.mp hq with hqa | hql1
        · subst hqa; exact hlt
        · exact hl1 q hql1
      · rw [if_neg hlt] at h
        cases h
        exact ⟨[], rest, rfl, by simp⟩

/-! Helper lemmas about topkAux. -/

theorem topkAux_succ_none {α : Type} [LinearOrder α] [DecidableEq α] {ps : List (ℕ × α)} {k : ℕ}
    (h : argmaxKey Prod.snd ps = none) : topkAux (k + 1) ps = [] := by
  unfold topkAux
  rw [h]

theorem topkAux_succ_some {α : Type} [LinearOrder α] [DecidableEq α] {ps : List (ℕ × α)} {k : ℕ}
    {p : ℕ × α} (h : argmaxKey Prod.snd ps = some p) :
    topkAux (k + 1) ps = p :: topkAux k (ps.erase p) := by
  conv_lhs => unfold topkAux
  rw [h]

theorem topkAux_subset {α : Type} [LinearOrder α] [DecidableEq α] :
    ∀ {k : ℕ} {ps : List (ℕ × α)} {q : ℕ × α}, q ∈ topkAux k ps → q ∈ ps := by
  intro k
  induction k with
  | zero => intro ps q h; simp [topkAux] at h
  | succ k ih =>
    intro ps q h
    cases hmax : argmaxKey Prod.snd ps with
    | none => rw [topkAux_succ_none hmax] at h; exact absurd h (List.not_mem_nil q)
    | some p =>
      rw [topkAux_succ_some hmax] at h
      rcases List.mem_cons.mp h with hq | hq
      · subst hq; exact argmaxKey_mem hmax
      · exact List.erase_subset _ _ (ih hq)

theorem topkAux_length {α : Type} [LinearOrder α] [DecidableEq α] :
    ∀ {k : ℕ} {ps : List (ℕ × α)}, (topkAux k ps).length = min k ps.length := by
  intro k
  induction k with
  | zero => intro ps; simp [topkAux]
  | succ k ih =>
    intro ps
    cases hmax : argmaxKey Prod.snd ps with
    | none =>
      rw [topkAux_succ_none hmax, argmaxKey_eq_none.mp hmax]
      simp
    | some p =>
      rw [topkAux_succ_some hmax]
      have hmem := argmaxKey_mem hmax
      have hpos : 0 < ps.length := List.length_pos.mpr (List.ne_nil_of_mem hmem)
      have herase : (ps.erase p).length = ps.length - 1 := List.length_erase_of_mem hmem
      simp only [List.length_cons, ih, herase]
      omega

theorem topkAux_sorted {α : Type} [LinearOrder α] [DecidableEq α] :
    ∀ {k : ℕ} {ps : List (ℕ × α)},
      (topkAux k ps).Pairwise (fun p q => q.2 ≤ p.2) := by
  intro k
  induction k with
  | zero => intro ps; simp [topkAux]
  | succ k ih =>
    intro ps
    cases hmax : argmaxKey Prod.snd ps with
    | none => rw [topkAux_succ_none hmax]; exact List.Pairwise.nil
    | some p =>
      rw [topkAux_succ_some hmax]
      refine List.Pairwise.cons ?_ ih
      intro q hq
      exact argmaxKey_le hmax q (List.erase_subset _ _ (topkAux_subset hq))

theorem topkAux_le_of_not_mem {α : Type} [LinearOrder α] [DecidableEq α] :
    ∀ {k : ℕ} {ps : List (ℕ × α)} {q : ℕ × α}, q ∈ ps → q ∉ topkAux k ps →
      ∀ p ∈ topkAux k ps, q.2 ≤ p.2 := by
  intro k
  induction k with
  | zero => intro ps q _ _ p hp; simp [topkAux] at hp
  | succ k ih =>
    intro ps q hq hnot p hp
    cases hmax : argmaxKey Prod.snd ps with
    | none => rw [topkAux_succ_none hmax] at hp; exact absurd hp (List.not_mem_nil p)
    | some c =>
      rw [topkAux_succ_some hmax] at hp hnot
      have hqc : q ≠ c := by
        intro hqc
        exact hnot (hqc ▸ List.mem_cons_self c _)
      rcases List.mem_cons.mp hp with hpc | hpr
      · subst hpc; exact argmaxKey_le hmax q hq
      · exact ih ((List.mem_erase_of_ne hqc).mpr hq)
          (fun hmem => hnot (List.mem_cons_of_mem c hmem)) p hpr

theorem topkAux_fst_nodup {α : Type} [LinearOrder α] [DecidableEq α] :
    ∀ {k : ℕ} {ps : List (ℕ × α)}, (ps.map Prod.fst).Nodup →
      ((topkAux k ps).map Prod.fst).Nodup := by
  intro k
  induction k with
  | zero => intro ps _; simp [topkAux]
  | succ k ih =>
    intro ps hps
    cases hmax : argmaxKey Prod.snd ps with
    | none => rw [topkAux_succ_none hmax]; simp
    | some p =>
      rw [topkAux_succ_some hmax]
      have hps_nodup : ps.Nodup := List.Nodup.of_map Prod.fst hps
      have hpair : ps.Pairwise (fun a b => a.1 ≠ b.1) := (List.pairwise_map).mp hps
      have herase_nodup : ((ps.erase p).map Prod.fst).Nodup :=
        List.Pairwise.sublist (List.Sublist.map Prod.fst (List.erase_sublist p ps)) hps
      simp only [List.map_cons, List.nodup_cons]
      refine ⟨?_, ih herase_nodup⟩
      intro hmem
      rcases List.mem_map.mp hmem with ⟨q, hq_sel, hq_fst⟩
      have hq_erase : q ∈ ps.erase p := topkAux_subset hq_sel
      have hq_ne : q ≠ p := ((List.Nodup.mem_erase_iff hps_nodup).mp hq_erase).1
      have hq_ps : q ∈ ps := List.erase_subset _ _ hq_erase
      have hsym : Symmetric (fun a b : ℕ × α => a.1 ≠ b.1) := fun a b h => h.symm
      have : q.1 ≠ p.1 := hpair.forall hsym hq_ps (argmaxKey_mem hmax) hq_ne
      exact this hq_fst

theorem argmaxKey_tie {α : Type} [LinearOrder α] {ps : List (ℕ × α)} {p : ℕ × α}
    (hps : ps.Pairwise (fun a b => a.1 < b.1)) (hmax : argmaxKey Prod.snd ps = some p) :
    ∀ q ∈ ps, q ≠ p → q.2 < p.2 ∨ (q.2 = p.2 ∧ p.1 < q.1) := by
  intro q hq hne
  rcases argmaxKey_first hmax with ⟨l1, l2, hsplit, hl1⟩
  subst hsplit
  rcases List.mem_append.mp hq with h1 | h2
  · exact Or.inl (hl1 q h1)
  · rcases List.mem_cons.mp h2 with hqp | hql2
    · exact absurd hqp hne
    · have hle : q.2 ≤ p.2 := argmaxKey_le hmax q hq
      rcases lt_or_eq_of_le hle with hlt | heq
      · exact Or.inl hlt
      · refine Or.inr ⟨heq, ?_⟩
        have := (List.pairwise_append.mp hps).2.1
        exact (List.pairwise_cons.mp this).1 q hql2

theorem pairwise_fst_lt_nodup {α : Type} {ps : List (ℕ × α)}
    (hps : ps.Pairwise (fun a b => a.1 < b.1)) : ps.Nodup :=
  hps.imp (fun hab => by
    intro hEq
    rw [hEq] at hab
    exact lt_irrefl _ hab)

theorem topkAux_strict {α : Type} [LinearOrder α] [DecidableEq α] :
    ∀ {k : ℕ} {ps : List (ℕ × α)}, ps.Pairwise (fun a b => a.1 < b.1) →
      (topkAux k ps).Pairwise (fun p q => q.2 < p.2 ∨ (q.2 = p.2 ∧ p.1 < q.1)) := by
  intro k
  induction k with
  | zero => intro ps _; simp [topkAux]
  | succ k ih =>
    intro ps hps
    cases hmax : argmaxKey Prod.snd ps with
    | none => rw [topkAux_succ_none hmax]; exact List.Pairwise.nil
    | some p =>
      rw [topkAux_succ_some hmax]
      have hpair_erase : (ps.erase p).Pairwise (fun a b => a.1 < b.1) :=
        List.Pairwise.sublist (List.erase_sublist p ps) hps
      refine List.Pairwise.cons ?_ (ih hpair_erase)
      intro q hq
      have hq_erase : q ∈ ps.erase p := topkAux_subset hq
      have hq_ne : q ≠ p := ((List.Nodup.mem_erase_iff (pairwise_fst_lt_nodup hps)).mp hq_erase).1
      exact argmaxKey_tie hps hmax q (List.erase_subset _ _ hq_erase) hq_ne

theorem topkAux_dominate_tie {α : Type} [LinearOrder α] [DecidableEq α] :
    ∀ {k : ℕ} {ps : List (ℕ × α)} {q : ℕ × α}, ps.Pairwise (fun a b => a.1 < b.1) →
      q ∈ ps → q ∉ topkAux k ps →
      ∀ p ∈ topkAux k ps, q.2 < p.2 ∨ (q.2 = p.2 ∧ p.1 < q.1) := by
  intro k
  induction k with
  | zero => intro ps q _ _ _ p hp; simp [topkAux] at hp
  | succ k ih =>
    intro ps q hps hq hnot p hp
    cases hmax : argmaxKey Prod.snd ps with
    | none => rw [topkAux_succ_none hmax] at hp; exact absurd hp (List.not_mem_nil p)
    | some c =>
      rw [topkAux_succ_some hmax] at hp hnot
      have hqc : q ≠ c := by
        intro hqc
        exact hnot (hqc ▸ List.mem_cons_self c _)
      rcases List.mem_cons.mp hp with hpc | hpr
      · subst hpc; exact argmaxKey_tie hps hmax q hq hqc
      · exact ih (List.Pairwise.sublist (List.erase_sublist c ps) hps)
          ((List.mem_erase_of_ne hqc).mpr hq)
          (fun hmem => hnot (List.mem_cons_of_mem c hmem)) p hpr

/-! Helper lemmas about IoU and greedy NMS. -/

theorem interArea_comm (a b : Box) : interArea a b = interArea b a := by
  unfold interArea
  rw [min_comm a.x2 b.x2, max_comm a.x1 b.x1, min_comm a.y2 b.y2, max_comm a.y1 b.y1]

theorem iou_comm (a b : Box) : iou a b = iou b a := by
  unfold iou
  rw [interArea_comm, add_comm (boxArea a) (boxArea b)]

theorem nmsSel_succ_none {α : Type} [LinearOrder α] {thr : ℚ} {k : ℕ} {cands : List (ℕ × Box × α)}
    (h : argmaxKey (fun c => c.2.2) cands = none) : nmsSel thr (k + 1) cands = [] := by
  conv_lhs => unfold nmsSel
  rw [h]

theorem nmsSel_succ_some {α : Type} [LinearOrder α] {thr : ℚ} {k : ℕ} {cands : List (ℕ × Box × α)}
    {c : ℕ × Box × α} (h : argmaxKey (fun c => c.2.2) cands = some c) :
    nmsSel thr (k + 1) cands =
      c :: nmsSel thr k (cands.filter (fun d => d.1 != c.1 && decide (iou c.2.1 d.2.1 ≤ thr))) := by
  conv_lhs => unfold nmsSel
  rw [h]

theorem nmsSel_subset {α : Type} [LinearOrder α] {thr : ℚ} :
    ∀ {k : ℕ} {cands : List (ℕ × Box × α)} {d : ℕ × Box × α},
      d ∈ nmsSel thr k cands → d ∈ cands := by
  intro k
  induction k with
  | zero => intro cands d h; simp [nmsSel] at h
  | succ k ih =>
    intro cands d h
    cases hmax : argmaxKey (fun c => c.2.2) cands with
    | none => rw [nmsSel_succ_none hmax] at h; exact absurd h (List.not_mem_nil d)
    | some c =>
      rw [nmsSel_succ_some hmax] at h
      rcases List.mem_cons.mp h with hd | hd
      · subst hd; exact argmaxKey_mem hmax
      · exact List.mem_of_mem_filter (ih hd)

theorem nmsSel_length_le {α : Type} [LinearOrder α] {thr : ℚ} :
    ∀ {k : ℕ} {cands : List (ℕ × Box × α)}, (nmsSel thr k cands).length ≤ k := by
  intro k
  induction k with
  | zero => intro cands; simp [nmsSel]
  | succ k ih =>
    intro cands
    cases hmax : argmaxKey (fun c => c.2.2) cands with
    | none => rw [nmsSel_succ_none hmax]; simp
    | some c =>
      rw [nmsSel_succ_some hmax]
      simpa using Nat.succ_le_succ ih

theorem nmsSel_pairwise_iou {α : Type} [LinearOrder α] {thr : ℚ} :
    ∀ {k : ℕ} {cands : List (ℕ × Box × α)},
      (nmsSel thr k cands).Pairwise (fun c d => iou c.2.1 d.2.1 ≤ thr) := by
  intro k
  induction k with
  | zero => intro cands; simp [nmsSel]
  | succ k ih =>
    intro cands
    cases hmax : argmaxKey (fun c => c.2.2) cands with
    | none => rw [nmsSel_succ_none hmax]; exact List.Pairwise.nil
    | some c =>
      rw [nmsSel_succ_some hmax]
      refine List.Pairwise.cons ?_ ih
      intro d hd
      have := (List.mem_filter.mp (nmsSel_subset hd)).2
      rcases Bool.and_eq_true_iff.mp this with ⟨_, hiou⟩
      exact of_decide_eq_true hiou

theorem nmsSel_sorted {α : Type} [LinearOrder α] {thr : ℚ} :
    ∀ {k : ℕ} {cands : List (ℕ × Box × α)},
      (nmsSel thr k cands).Pairwise (fun c d => d.2.2 ≤ c.2.2) := by
  intro k
  induction k with
  | zero => intro cands; simp [nmsSel]
  | succ k ih =>
    intro cands
    cases hmax : argmaxKey (fun c => c.2.2) cands with
    | none => rw [nmsSel_succ_none hmax]; exact List.Pairwise.nil
    | some c =>
      rw [nmsSel_succ_some hmax]
      refine List.Pairwise.cons ?_ ih
      intro d hd
      exact argmaxKey_le hmax d (List.mem_of_mem_filter (nmsSel_subset hd))

theorem nmsSel_fst_nodup {α : Type} [LinearOrder α] {thr : ℚ} :
    ∀ {k : ℕ} {cands : List (ℕ × Box × α)},
      ((nmsSel thr k cands).map Prod.fst).Nodup := by
  intro k
  induction k with
  | zero => intro cands; simp [nmsSel]
  | succ k ih =>
    intro cands
    cases hmax : argmaxKey (fun c => c.2.2) cands with
    | none => rw [nmsSel_succ_none hmax]; simp
    | some c =>
      rw [nmsSel_succ_some hmax]
      simp only [List.map_cons, List.nodup_cons]
      refine ⟨?_, ih⟩
      intro hmem
      rcases List.mem_map.mp hmem with ⟨d, hd_sel, hd_fst⟩
      have := (List.mem_filter.mp (nmsSel_subset hd_sel)).2
      rcases Bool.and_eq_true_iff.mp this with ⟨hne, _⟩
      exact (bne_iff_ne.mp hne) hd_fst

/-! Miscellaneous list helpers. -/

theorem nodup_subset_length {α : Type} [DecidableEq α] {l1 l2 : List α}
    (h1 : l1.Nodup) (h2 : l1 ⊆ l2) : l1.length ≤ l2.length := by
  have hc : l1.toFinset.card = l1.length := List.toFinset_card_of_nodup h1
  have hsub : l1.toFinset ⊆ l2.toFinset := fun x hx =>
    List.mem_toFinset.mpr (h2 (List.mem_toFinset.mp hx))
  have := Finset.card_le_card hsub
  have := List.toFinset_card_le l2
  omega

theorem replicate_getD_lt {α : Type} {n i : ℕ} {a d : α} (h : i < n) :
    (List.replicate n a).getD i d = a := by
  rw [List.getD_eq_getElem?_getD, List.getElem?_replicate]
  simp [h]

theorem replicate_getD_ge {α : Type} {n i : ℕ} {a d : α} (h : n ≤ i) :
    (List.replicate n a).getD i d = d := by
  rw [List.getD_eq_getElem?_getD, List.getElem?_replicate]
  simp [Nat.not_lt.mpr h]

theorem desc_split {α : Type} [LinearOrder α] (thr : α) :
    ∀ {sel : List (ℕ × α)}, sel.Pairwise (fun p q => q.2 ≤ p.2) →
      ∃ s1 s2, sel = s1 ++ s2 ∧ (∀ p ∈ s1, thr < p.2) ∧ (∀ p ∈ s2, ¬ thr < p.2) := by
  intro sel
  induction sel with
  | nil => intro _; exact ⟨[], [], rfl, by simp, by simp⟩
  | cons h t ih =>
    intro hpw
    rcases List.pairwise_cons.mp hpw with ⟨hrel, ht⟩
    by_cases hh : thr < h.2
    · rcases ih ht with ⟨s1, s2, hsplit, h1, h2⟩
      refine ⟨h :: s1, s2, by rw [hsplit]; rfl, ?_, h2⟩
      intro p hp
      rcases List.mem_cons.mp hp with hp | hp
      · subst hp; exact hh
      · exact h1 p hp
    · refine ⟨[], h :: t, rfl, by simp, ?_⟩
      intro p hp
      rcases List.mem_cons.mp hp with hp | hp
      · subst hp; exact hh
      · intro hthr
        exact hh (lt_of_lt_of_le hthr (hrel p hp))

theorem flatten_length_uniform {α : Type} {L : ℕ} :
    ∀ {rows : List (List α)}, (∀ r ∈ rows, r.length = L) →
      rows.flatten.length = rows.length * L := by
  intro rows
  induction rows with
  | nil => intro _; simp
  | cons r t ih =>
    intro h
    simp only [List.flatten_cons, List.length_append, List.length_cons]
    rw [h r (List.mem_cons_self r t), ih (fun x hx => h x (List.mem_cons_of_mem r hx))]
    ring

theorem flatten_getD_uniform {α : Type} {L : ℕ} {d : α} :
    ∀ {rows : List (List α)}, (∀ r ∈ rows, r.length = L) →
      ∀ {c j : ℕ}, j < L → c < rows.length →
      rows.flatten.getD (c * L + j) d = (rows.getD c []).getD j d := by
  intro rows
  induction rows with
  | nil => intro _ c j _ hc; simp at hc
  | cons r t ih =>
    intro h c j hj hc
    cases c with
    | zero =>
      simp only [List.flatten_cons, Nat.zero_mul, Nat.zero_add, List.getD_cons_zero]
      exact List.getD_append r t.flatten d j (by rw [h r (List.mem_cons_self r t)]; exact hj)
    | succ c =>
      simp only [List.flatten_cons, List.getD_cons_succ]
      have hr : r.length = L := h r (List.mem_cons_self r t)
      have hidx : r.length ≤ (c + 1) * L + j := by
        rw [hr]
        calc L ≤ (c + 1) * L := Nat.le_mul_of_pos_left L (Nat.succ_pos c)
        _ ≤ (c + 1) * L + j := Nat.le_add_right _ _
      rw [List.getD_append_right r t.flatten d _ hidx]
      have : (c + 1) * L + j - r.length = c * L + j := by
        rw [hr]
        ring_nf
        omega
      rw [this]
      exact ih (fun x hx => h x (List.mem_cons_of_mem r hx)) hj (Nat.lt_of_succ_lt_succ hc)

/-! Facts about enum and tf_top_k. -/

theorem enum_pairwise_fst {α : Type} (xs : List α) :
    xs.enum.Pairwise (fun a b => a.1 < b.1) := by
  have h : (xs.enum.map Prod.fst).Pairwise (fun a b => a < b) := by
    rw [List.enum_map_fst]
    exact List.pairwise_lt_range xs.length
  exact (List.pairwise_map).mp h

theorem enum_fst_nodup {α : Type} (xs : List α) : (xs.enum.map Prod.fst).Nodup := by
  rw [List.enum_map_fst]
  exact List.nodup_range xs.length

theorem enum_nodup {α : Type} (xs : List α) : xs.enum.Nodup :=
  List.Nodup.of_map Prod.fst (enum_fst_nodup xs)

theorem mem_enum_getD {α : Type} {d : α} {xs : List α} {p : ℕ × α} (h : p ∈ xs.enum) :
    p.1 < xs.length ∧ xs.getD p.1 d = p.2 := by
  have hg : xs[p.1]? = some p.2 := List.mem_enum_iff_getElem?.mp h
  constructor
  · exact (List.getElem?_eq_some.mp hg).1
  · rw [List.getD_eq_getElem?_getD, hg]
    rfl

theorem tf_top_k_some {α : Type} [LinearOrder α] [DecidableEq α] {xs : List α} {k : ℤ}
    {vals : List α} {poss : List ℕ} (h : tf_top_k xs k = some (vals, poss)) :
    0 ≤ k ∧ k ≤ (xs.length : ℤ) ∧
    vals = (topkAux k.toNat xs.enum).map Prod.snd ∧
    poss = (topkAux k.toNat xs.enum).map Prod.fst := by
  unfold tf_top_k at h
  by_cases hg : k < 0 ∨ (xs.length : ℤ) < k
  · rw [if_pos hg] at h; cases h
  · rw [if_neg hg] at h
    push_neg at hg
    simp only [Option.some.injEq, Prod.mk.injEq] at h
    exact ⟨hg.1, hg.2, h.1.symm, h.2.symm⟩

theorem topkAux_length_of_le {α : Type} [LinearOrder α] [DecidableEq α] {k : ℕ}
    {ps : List (ℕ × α)} (h : k ≤ ps.length) : (topkAux k ps).length = k := by
  rw [topkAux_length]
  omega

/-- Structural description of the index list produced by the top-k branch of
_sort_by_scores: a Nodup block of above-threshold positions, sorted by score
descending, followed by copies of the dummy index; when at least output_size
scores beat the threshold, the valid block fills the whole list. -/
theorem sbs_indices_topk_spec {cfg : FDConfig} {scores : List EScore} {boxesA : List Box}
    {osz : ℤ} {ip : List ℕ}
    (h : sbs_indices cfg scores boxesA osz false = some ip) :
    0 ≤ osz ∧ osz ≤ (scores.length : ℤ) ∧ ip.length = osz.toNat ∧
    ∃ valid : List ℕ,
      ip = valid ++ List.replicate (osz.toNat - valid.length) (scores.length - 1) ∧
      valid.length ≤ osz.toNat ∧ valid.Nodup ∧
      (∀ i ∈ valid, i < scores.length ∧ (cfg.score_threshold : EScore) < scores.getD i ⊥) ∧
      (valid.map (fun i => scores.getD i ⊥)).Pairwise (fun a b => b ≤ a) ∧
      (osz.toNat ≤ scores.countP (fun s => decide ((cfg.score_threshold : EScore) < s)) →
        valid.length = osz.toNat) := by
  unfold sbs_indices at h
  simp only [Bool.false_eq_true, if_false] at h
  cases htk : tf_top_k scores osz with
  | none => rw [htk] at h; cases h
  | some tp =>
    obtain ⟨tks, tip⟩ := tp
    rw [htk] at h
    simp only [Option.some.injEq] at h
    obtain ⟨h0, hk, htks, htip⟩ := tf_top_k_some htk
    have hoszlen : osz.toNat ≤ scores.length := by omega
    have henlen : scores.enum.length = scores.length := List.enum_length
    set thr : EScore := (cfg.score_threshold : EScore) with hthr
    set sel := topkAux osz.toNat scores.enum with hseldef
    have hsellen : sel.length = osz.toNat :=
      topkAux_length_of_le (by rw [henlen]; exact hoszlen)
    have hzip : tks.zip tip = sel.map (fun p => (p.2, p.1)) := by
      rw [htks, htip, List.zip_map']
    have hip : ip = sel.map (fun p => if thr < p.2 then p.1 else scores.length - 1) := by
      rw [← h, hzip, List.map_map]
      rfl
    have hsorted : sel.Pairwise (fun p q => q.2 ≤ p.2) := topkAux_sorted
    have hfstnodup : (sel.map Prod.fst).Nodup := topkAux_fst_nodup (enum_fst_nodup scores)
    rcases desc_split thr hsorted with ⟨s1, s2, hsplit, hs1, hs2⟩
    have hlensum : s1.length + s2.length = osz.toNat := by
      rw [← hsellen, hsplit, List.length_append]
    refine ⟨h0, hk, by rw [hip, List.length_map, hsellen], s1.map Prod.fst, ?_, ?_, ?_, ?_, ?_, ?_⟩
    · rw [hip, hsplit, List.map_append]
      congr 1
      · exact List.map_congr_left (fun p hp => if_pos (hs1 p hp))
      · rw [List.map_congr_left (fun p hp => if_neg (hs2 p hp)), List.map_const']
        congr 1
        rw [List.length_map]
        omega
    · rw [List.length_map]; omega
    · have hsub : (s1.map Prod.fst).Sublist (sel.map Prod.fst) :=
        List.Sublist.map Prod.fst (hsplit ▸ List.sublist_append_left s1 s2)
      exact hfstnodup.sublist hsub
    · intro i hi
      rcases List.mem_map.mp hi with ⟨p, hp, hpi⟩
      have hpsel : p ∈ sel := hsplit ▸ List.mem_append_left s2 hp
      have hpen : p ∈ scores.enum := topkAux_subset hpsel
      rcases mem_enum_getD (d := (⊥ : EScore)) hpen with ⟨hlt, hget⟩
      subst hpi
      exact ⟨hlt, by rw [hget]; exact hs1 p hp⟩
    · have hs1pw : s1.Pairwise (fun p q => q.2 ≤ p.2) :=
        hsorted.sublist (hsplit ▸ List.sublist_append_left s1 s2)
      have : (s1.map Prod.fst).map (fun i => scores.getD i ⊥) = s1.map Prod.snd := by
        rw [List.map_map]
        refine List.map_congr_left (fun p hp => ?_)
        have hpen : p ∈ scores.enum :=
          topkAux_subset (hsplit ▸ List.mem_append_left s2 hp)
        exact (mem_enum_getD hpen).2
      rw [this]
      exact (List.pairwise_map).mpr (hs1pw.imp (fun hpq => hpq))
    · intro hcnt
      rw [List.length_map]
      cases hs2e : s2 with
      | nil =>
        rw [hs2e, List.length_nil] at hlensum
        omega
      | cons q t =>
        exfalso
        have hq2 : q ∈ s2 := hs2e ▸ List.mem_cons_self q t
        have hqsel : q ∈ sel := hsplit ▸ List.mem_append_right s1 hq2
        have hqthr : ¬ thr < q.2 := hs2 q hq2
        set A := scores.enum.filter (fun p => decide (thr < p.2)) with hA
        have hAlen : A.length = scores.countP (fun s => decide (thr < s)) := by
          rw [hA, ← List.countP_eq_length_filter]
          conv_rhs => rw [← List.enum_map_snd scores]
          rw [List.countP_map]
          rfl
        have hAsub : A ⊆ sel.erase q := by
          intro a ha
          rcases List.mem_filter.mp ha with ⟨haen, hathr⟩
          have hathr2 : thr < a.2 := of_decide_eq_true hathr
          have hasel : a ∈ sel := by
            by_contra hnot
            have := topkAux_le_of_not_mem haen hnot q hqsel
            exact hqthr (lt_of_lt_of_le hathr2 this)
          have hane : a ≠ q := by
            intro haq
            rw [haq] at hathr2
            exact hqthr hathr2
          exact (List.mem_erase_of_ne hane).mpr hasel
        have hAnodup : A.Nodup := (enum_nodup scores).filter _
        have hAle : A.length ≤ (sel.erase q).length := nodup_subset_length hAnodup hAsub
        have herase : (sel.erase q).length = sel.length - 1 := List.length_erase_of_mem hqsel
        have hposlen : 1 ≤ sel.length := List.length_pos.mpr (List.ne_nil_of_mem hqsel)
        rw [herase, hsellen] at hAle
        rw [hsellen] at hposlen
        have hcnt2 : osz.toNat ≤ A.length := le_trans hcnt (le_of_eq hAlen.symm)
        omega

/-- Membership characterisation of the candidate list built by
non_max_suppression_padded. -/
theorem nmsp_cands_mem {boxesA : List Box} {scores : List EScore} {score_thr : ℚ}
    {c : ℕ × Box × EScore}
    (hc : c ∈ (List.range scores.length).filterMap (fun i =>
      if (score_thr : EScore) < scores.getD i ⊥ then
        some (i, boxesA.getD i zeroBox, scores.getD i ⊥)
      else none)) :
    c.1 < scores.length ∧ (score_thr : EScore) < scores.getD c.1 ⊥ ∧
    c.2.1 = boxesA.getD c.1 zeroBox ∧ c.2.2 = scores.getD c.1 ⊥ := by
  rcases List.mem_filterMap.mp hc with ⟨i, hi, hif⟩
  by_cases hthr : (score_thr : EScore) < scores.getD i ⊥
  · rw [if_pos hthr] at hif
    cases hif
    exact ⟨List.mem_range.mp hi, hthr, rfl, rfl⟩
  · rw [if_neg hthr] at hif
    cases hif

theorem map_getD_range {α : Type} :
    ∀ (l : List α) (d : α), (List.range l.length).map (fun t => l.getD t d) = l := by
  intro l
  induction l with
  | nil => intro d; simp
  | cons a t ih =>
    intro d
    rw [List.length_cons, List.range_succ_eq_map, List.map_cons, List.map_map]
    have : ((fun t2 => (a :: t).getD t2 d) ∘ Nat.succ) = fun t2 => t.getD t2 d := by
      funext t2
      simp [Function.comp, List.getD_cons_succ]
    rw [this, ih d]
    rfl

theorem range_map_prefix_pad {α : Type} (vals : List α) (d dflt : α) (md : ℕ)
    (h : vals.length ≤ md) :
    (List.range md).map (fun t => if t < vals.length then vals.getD t dflt else d) =
      vals ++ List.replicate (md - vals.length) d := by
  conv_lhs => rw [show md = vals.length + (md - vals.length) by omega]
  rw [List.range_add, List.map_append, List.map_map]
  congr 1
  · have : ∀ t ∈ List.range vals.length,
        (if t < vals.length then vals.getD t dflt else d) = vals.getD t dflt := by
      intro t ht
      exact if_pos (List.mem_range.mp ht)
    rw [List.map_congr_left this, map_getD_range]
  · have : ∀ s ∈ List.range (md - vals.length),
        ((fun t => if t < vals.length then vals.getD t dflt else d) ∘
          (fun x => vals.length + x)) s = d := by
      intro s hs
      simp only [Function.comp]
      exact if_neg (by omega)
    rw [List.map_congr_left this, List.map_const', List.length_range]

/-- Structural description of the index list produced by the NMS branch of
_sort_by_scores at its only call pattern (output_size = max_detections): the
positions selected by padded NMS in emission order, followed by copies of the
dummy index. -/
theorem sbs_indices_nms_spec {cfg : FDConfig} {scores : List EScore} {boxesA : List Box}
    {ip : List ℕ}
    (h : sbs_indices cfg scores boxesA cfg.max_detections true = some ip) :
    boxesA.length = scores.length ∧
    ip.length = cfg.max_detections.toNat ∧
    ∃ valid : List ℕ,
      ip = valid ++ List.replicate (cfg.max_detections.toNat - valid.length) (scores.length - 1) ∧
      valid.length ≤ cfg.max_detections.toNat ∧ valid.Nodup ∧
      (∀ i ∈ valid, i < scores.length ∧ (cfg.score_threshold : EScore) < scores.getD i ⊥) ∧
      (valid.map (fun i => scores.getD i ⊥)).Pairwise (fun a b => b ≤ a) ∧
      valid.Pairwise (fun i j =>
        iou (boxesA.getD i zeroBox) (boxesA.getD j zeroBox) ≤ cfg.nms_threshold) := by
  unfold sbs_indices at h
  simp only [if_true] at h
  unfold non_max_suppression_padded at h
  by_cases hlen : boxesA.length ≠ scores.length
  · rw [if_pos hlen] at h; cases h
  · rw [if_neg hlen] at h
    push_neg at hlen
    simp only [Option.some.injEq] at h
    set thr : EScore := (cfg.score_threshold : EScore) with hthr
    set cands := (List.range scores.length).filterMap (fun i =>
      if thr < scores.getD i ⊥ then
        some (i, boxesA.getD i zeroBox, scores.getD i ⊥)
      else none) with hcands
    set md := cfg.max_detections.toNat with hmd
    set sel := nmsSel cfg.nms_threshold md cands with hsel
    set vmap := sel.map (fun c => c.1) with hvmap
    have hnv : sel.length ≤ md := nmsSel_length_le
    have hvlen : vmap.length = sel.length := List.length_map _ _
    have hip := h.symm
    have hfsimp : (List.range md).map (fun t =>
        if t < sel.length then (vmap ++ List.replicate (md - sel.length) 0).getD t 0
        else scores.length - 1) =
        (List.range md).map (fun t =>
          if t < vmap.length then vmap.getD t 0 else scores.length - 1) := by
      refine List.map_congr_left (fun t ht => ?_)
      by_cases h2 : t < sel.length
      · rw [if_pos h2, if_pos (by omega), List.getD_append _ _ _ _ (by omega)]
      · rw [if_neg h2, if_neg (by omega)]
    have hip2 : ip = vmap ++ List.replicate (md - vmap.length) (scores.length - 1) := by
      rw [hip, hfsimp, range_map_prefix_pad vmap (scores.length - 1) 0 md (by omega)]
    refine ⟨hlen, by rw [hip, List.length_map, List.length_range], vmap,
      by rw [hvlen] at hip2 ⊢; exact hip2, by omega, nmsSel_fst_nodup, ?_, ?_, ?_⟩
    · intro i hi
      rcases List.mem_map.mp hi with ⟨c, hc, hci⟩
      have hcc := nmsp_cands_mem (nmsSel_subset hc)
      subst hci
      exact ⟨hcc.1, hcc.2.1⟩
    · have hpw : sel.Pairwise (fun c d => d.2.2 ≤ c.2.2) := nmsSel_sorted
      have heq : vmap.map (fun i => scores.getD i ⊥) = sel.map (fun c => c.2.2) := by
        rw [hvmap, List.map_map]
        refine List.map_congr_left (fun c hc => ?_)
        exact ((nmsp_cands_mem (nmsSel_subset hc)).2.2.2).symm
      rw [heq]
      exact (List.pairwise_map).mpr (hpw.imp (fun hcd => hcd))
    · have hpw : sel.Pairwise (fun c d => iou c.2.1 d.2.1 ≤ cfg.nms_threshold) :=
        nmsSel_pairwise_iou
      have hpw2 : sel.Pairwise (fun c d =>
          iou (boxesA.getD c.1 zeroBox) (boxesA.getD d.1 zeroBox) ≤ cfg.nms_threshold) := by
        refine hpw.imp_of_mem (fun {c d} hc hd hcd => ?_)
        have hcc := nmsp_cands_mem (nmsSel_subset hc)
        have hdd := nmsp_cands_mem (nmsSel_subset hd)
        rw [← hcc.2.2.1, ← hdd.2.2.1]
        exact hcd
      exact (List.pairwise_map).mpr hpw2

theorem forall2_get_eq_map {α : Type} {d : α} {l : List α} :
    ∀ {xs : List ℕ} {ys : List α},
      List.Forall₂ (fun i b => l[i]? = some b) xs ys →
      ys = xs.map (fun i => l.getD i d) ∧ ∀ i ∈ xs, i < l.length := by
  intro xs
  induction xs with
  | nil =>
    intro ys h
    cases h
    exact ⟨rfl, by simp⟩
  | cons i t ih =>
    intro ys h
    cases h with
    | cons hib htail =>
      rcases ih htail with ⟨heq, hbound⟩
      constructor
      · rw [List.map_cons, ← heq]
        congr 1
        rw [List.getD_eq_getElem?_getD, hib]
        rfl
      · intro j hj
        rcases List.mem_cons.mp hj with hj | hj
        · subst hj
          exact (List.getElem?_eq_some.mp hib).1
        · exact hbound j hj

/-- The three outputs of _sort_by_scores are the gathers of scores, boxes and
labels at its index list. -/
theorem _sort_by_scores_spec {cfg : FDConfig} {scores : List EScore} {boxesA : List Box}
    {labelsA : List ℤ} {osz : ℤ} {use_nms : Bool} {out : List EScore × List Box × List ℤ}
    (h : _sort_by_scores cfg scores boxesA labelsA osz use_nms = some out) :
    ∃ ip, sbs_indices cfg scores boxesA osz use_nms = some ip ∧
      out.1 = ip.map (fun i => scores.getD i ⊥) ∧
      out.2.2 = ip.map (fun i => labelsA.getD i (-1)) ∧
      (∀ i ∈ ip, i < boxesA.length) ∧
      out.2.1 = ip.map (fun i => boxesA.getD i zeroBox) := by
  unfold _sort_by_scores at h
  rcases Option.bind_eq_some.mp h with ⟨ip, hip, h2⟩
  rcases Option.bind_eq_some.mp h2 with ⟨gb, hgb, h3⟩
  simp only [Option.pure_def, Option.some.injEq] at h3
  rcases forall2_get_eq_map (d := zeroBox) (mapM_some_forall2 hgb) with ⟨hgbeq, hbound⟩
  exact ⟨ip, hip, by rw [← h3], by rw [← h3], hbound, by rw [← h3]; exact hgbeq⟩

/-- Row-level description of a main-pass _sort_by_scores call of the
static-shape variant: the outputs are a block of genuinely selected anchors
(below n, above threshold, scores descending, distinct) gathered from the
inputs, followed by ghost slots holding the values of the dummy row. -/
theorem sbs_row_spec {cfg : FDConfig} {scoresR : List EScore} {bwdR : List Box}
    {labelsR : List ℤ} {useN : Bool} {out : List EScore × List Box × List ℤ} {n : ℕ}
    (hslen : scoresR.length = n + 1)
    (hdummyS : scoresR.getD n ⊥ = ⊥)
    (hdummyB : bwdR.getD n zeroBox = zeroBox)
    (hdummyL : labelsR.getD n (-1) = -1)
    (h : _sort_by_scores cfg scoresR bwdR labelsR cfg.max_detections useN = some out) :
    ∃ valid : List ℕ,
      valid.length ≤ cfg.max_detections.toNat ∧ valid.Nodup ∧
      (∀ i ∈ valid, i < n ∧ (cfg.score_threshold : EScore) < scoresR.getD i ⊥) ∧
      out.1 = valid.map (fun i => scoresR.getD i ⊥) ++
        List.replicate (cfg.max_detections.toNat - valid.length) ⊥ ∧
      out.2.1 = valid.map (fun i => bwdR.getD i zeroBox) ++
        List.replicate (cfg.max_detections.toNat - valid.length) zeroBox ∧
      out.2.2 = valid.map (fun i => labelsR.getD i (-1)) ++
        List.replicate (cfg.max_detections.toNat - valid.length) (-1) ∧
      (valid.map (fun i => scoresR.getD i ⊥)).Pairwise (fun a b => b ≤ a) ∧
      (useN = true → valid.Pairwise (fun i j =>
        iou (bwdR.getD i zeroBox) (bwdR.getD j zeroBox) ≤ cfg.nms_threshold)) ∧
      (useN = false → cfg.max_detections.toNat ≤
          scoresR.countP (fun s => decide ((cfg.score_threshold : EScore) < s)) →
        valid.length = cfg.max_detections.toNat) := by
  rcases _sort_by_scores_spec h with ⟨ip, hip, hs, hl, hbound, hb⟩
  have hdix : scoresR.length - 1 = n := by omega
  cases useN with
  | true =>
    rcases sbs_indices_nms_spec hip with ⟨hblen, hiplen, valid, hdecomp, hvle, hnodup, hmem, hdesc, hiou⟩
    rw [hdix] at hdecomp
    have hmem2 : ∀ i ∈ valid, i < n ∧ (cfg.score_threshold : EScore) < scoresR.getD i ⊥ := by
      intro i hi
      rcases hmem i hi with ⟨hilt, hithr⟩
      refine ⟨?_, hithr⟩
      rcases Nat.lt_succ_iff_lt_or_eq.mp (by omega : i < n + 1) with h2 | h2
      · exact h2
      · exfalso
        rw [h2, hdummyS] at hithr
        exact absurd hithr (by simp)
    refine ⟨valid, hvle, hnodup, hmem2, ?_, ?_, ?_, ?_, fun _ => hiou, fun hfalse => absurd hfalse (by simp)⟩
    · rw [hs, hdecomp, List.map_append, List.map_replicate, hdummyS]
    · rw [hb, hdecomp, List.map_append, List.map_replicate, hdummyB]
    · rw [hl, hdecomp, List.map_append, List.map_replicate, hdummyL]
    · exact hdesc
  | false =>
    rcases sbs_indices_topk_spec hip with ⟨h0, hk, hiplen, valid, hdecomp, hvle, hnodup, hmem, hdesc, hcount⟩
    rw [hdix] at hdecomp
    have hmem2 : ∀ i ∈ valid, i < n ∧ (cfg.score_threshold : EScore) < scoresR.getD i ⊥ := by
      intro i hi
      rcases hmem i hi with ⟨hilt, hithr⟩
      refine ⟨?_, hithr⟩
      rcases Nat.lt_succ_iff_lt_or_eq.mp (by omega : i < n + 1) with h2 | h2
      · exact h2
      · exfalso
        rw [h2, hdummyS] at hithr
        exact absurd hithr (by simp)
    refine ⟨valid, hvle, hnodup, hmem2, ?_, ?_, ?_, ?_, fun htrue => absurd htrue (by simp), fun _ => hcount⟩
    · rw [hs, hdecomp, List.map_append, List.map_replicate, hdummyS]
    · rw [hb, hdecomp, List.map_append, List.map_replicate, hdummyB]
    · rw [hl, hdecomp, List.map_append, List.map_replicate, hdummyL]
    · exact hdesc

/-! Facts about the adapt-stage definitions of the static-shape variant. -/

theorem getD_map_lt {α β : Type} (f : α → β) {l : List α} {j : ℕ} (h : j < l.length)
    (d0 : α) (d : β) : (l.map f).getD j d = f (l.getD j d0) := by
  rw [List.getD_eq_getElem?_getD, List.getElem?_map, List.getElem?_eq_getElem h]
  simp only [Option.map_some', Option.getD_some]
  exact congrArg f (List.getD_eq_getElem _ _ h).symm

theorem zip3_maps {α β γ δ : Type} (R : List α) (f : α → β) (b0 : γ) (g : α → δ) :
    zip3 (R.map f) (List.replicate (R.map f).length b0) (R.map g) =
      R.map (fun x => (f x, b0, g x)) := by
  rw [List.length_map]
  unfold zip3
  conv_lhs => rw [show List.replicate R.length b0 = R.map (fun _ => b0) from
    (List.map_const' R b0).symm]
  rw [List.zip_map', List.zip_map']

theorem main_pass_eq (cfg : FDConfig) (e : List EScore × List Box × List ℤ) :
    (if cfg.nms = true then _sort_by_1st_arg_using_nms cfg e
      else _sort_by_1st_arg_using_topk cfg e) =
      _sort_by_scores cfg e.1 e.2.1 e.2.2 cfg.max_detections cfg.nms := by
  cases hn : cfg.nms <;> rfl

theorem swd_length (C : ℕ) (cls : List (List ℚ)) :
    (scores_with_dummy C cls).length = cls.length + 1 := by
  unfold scores_with_dummy
  rw [List.length_append, List.length_map]
  rfl

theorem colS_length (C : ℕ) (cls : List (List ℚ)) (c : ℕ) :
    ((scores_with_dummy C cls).map (fun r => r.getD c ⊥)).length = cls.length + 1 := by
  rw [List.length_map, swd_length]

theorem colS_dummy (C : ℕ) (cls : List (List ℚ)) (c : ℕ) :
    ((scores_with_dummy C cls).map (fun r => r.getD c ⊥)).getD cls.length ⊥ = ⊥ := by
  have hswd : (scores_with_dummy C cls)[cls.length]? = some (List.replicate C ⊥) := by
    unfold scores_with_dummy
    rw [List.getElem?_append_right (by rw [List.length_map])]
    rw [List.length_map, Nat.sub_self]
    rfl
  rw [List.getD_eq_getElem?_getD, List.getElem?_map, hswd]
  simp only [Option.map_some', Option.getD_some]
  by_cases hc : c < C
  · exact replicate_getD_lt hc
  · exact replicate_getD_ge (by omega)

theorem labR_getD_lt {n c i : ℕ} (hi : i < n) :
    (List.replicate n ((c : ℤ)) ++ [(-1 : ℤ)]).getD i (-1) = (c : ℤ) := by
  rw [List.getD_append _ _ _ _ (by rw [List.length_replicate]; exact hi)]
  exact replicate_getD_lt hi

theorem labR_getD_dummy {n c : ℕ} :
    (List.replicate n ((c : ℤ)) ++ [(-1 : ℤ)]).getD n (-1) = -1 := by
  rw [List.getD_append_right _ _ _ _ (by rw [List.length_replicate])]
  rw [List.length_replicate, Nat.sub_self]
  rfl

theorem bwd_getD_dummy {boxes : List Box} {n : ℕ} (h : boxes.length = n) :
    (boxes ++ [zeroBox]).getD n zeroBox = zeroBox := by
  rw [List.getD_append_right _ _ _ _ (by omega)]
  rw [h, Nat.sub_self]
  rfl

theorem countP_row {thr : EScore} {vals : List EScore} {pad : ℕ}
    (hv : ∀ s ∈ vals, thr < s) :
    (vals ++ List.replicate pad (⊥ : EScore)).countP (fun s => decide (thr < s)) =
      vals.length := by
  rw [List.countP_append]
  have h1 : vals.countP (fun s => decide (thr < s)) = vals.length :=
    List.countP_eq_length.mpr (fun a ha => decide_eq_true (hv a ha))
  have h2 : (List.replicate pad (⊥ : EScore)).countP (fun s => decide (thr < s)) = 0 := by
    refine List.countP_eq_zero.mpr (fun a ha => ?_)
    rw [List.eq_of_mem_replicate ha]
    simp
  omega
theorem getD_mem {α : Type} {l : List α} {n : ℕ} {d : α} (h : n < l.length) :
    l.getD n d ∈ l := by
  rw [List.getD_eq_getElem _ _ h]
  exact List.getElem_mem h

theorem nodup_getD_inj {α : Type} {l : List α} {d : α} {i j : ℕ} (hnd : l.Nodup)
    (hi : i < l.length) (hj : j < l.length) (h : l.getD i d = l.getD j d) : i = j := by
  rw [List.getD_eq_getElem _ _ hi, List.getD_eq_getElem _ _ hj] at h
  exact (List.Nodup.getElem_inj_iff hnd).mp h

theorem tpu_specific_spec {cfg : FDConfig} {boxes : List Box} {C : ℕ} {cls : List (List ℚ)}
    {out : TPUOut}
    (hcs : cfg.class_specific_filter = true)
    (hWF : boxes.length = cls.length)
    (h : filter_detections_tpu cfg boxes C cls = some out) :
    out.boxes.length = cfg.max_detections.toNat ∧
    out.scores.length = cfg.max_detections.toNat ∧
    out.labels.length = cfg.max_detections.toNat ∧
    (∀ r, r < cfg.max_detections.toNat →
      (out.labels.getD r (-1) = -1 →
        out.scores.getD r ⊥ = ⊥ ∧ out.boxes.getD r zeroBox = zeroBox) ∧
      (out.labels.getD r (-1) = -1 ∨
        (cfg.score_threshold : EScore) < out.scores.getD r ⊥)) ∧
    out.scores.Pairwise (fun a b => b ≤ a) ∧
    (cfg.nms = true → ∀ r1 r2, r1 < cfg.max_detections.toNat → r2 < cfg.max_detections.toNat →
      r1 ≠ r2 → out.labels.getD r1 (-1) ≠ -1 →
      out.labels.getD r1 (-1) = out.labels.getD r2 (-1) →
      iou (out.boxes.getD r1 zeroBox) (out.boxes.getD r2 zeroBox) ≤ cfg.nms_threshold) := by
  unfold filter_detections_tpu at h
  rw [hcs] at h
  simp only [if_true, Option.pure_def, Option.bind_eq_bind, Option.bind_some] at h
  rcases Option.bind_eq_some.mp h with ⟨adapt, hadapt, h2⟩
  rcases Option.bind_eq_some.mp h2 with ⟨res1, hres1, h3⟩
  rcases Option.bind_eq_some.mp h3 with ⟨res, hres, h4⟩
  rcases Option.bind_eq_some.mp h4 with ⟨mrg, hmrg, h5⟩
  simp only [Option.some.injEq] at h5 hadapt
  obtain ⟨sa, lb⟩ := adapt
  rw [Prod.mk.injEq] at hadapt
  obtain ⟨hsa, hlb⟩ := hadapt
  subst hsa
  subst hlb
  clear h h2 h3 h4 hres1 res1
  -- elems as a map over range C
  have helems : zip3 (scores_adapt_specific C cls)
      (List.replicate (scores_adapt_specific C cls).length (boxes ++ [zeroBox]))
      ((labels_specific C cls.length).map (fun l => l ++ [-1])) =
      (List.range C).map (fun c =>
        ((scores_with_dummy C cls).map (fun r => r.getD c ⊥), boxes ++ [zeroBox],
          List.replicate cls.length ((c : ℤ)) ++ [(-1 : ℤ)])) := by
    unfold scores_adapt_specific labels_specific
    rw [List.map_map]
    exact zip3_maps (List.range C) _ _ _
  rw [helems] at hres
  have hf3 := List.forall₂_map_left_iff.mp (mapM_some_forall2 hres)
  have hreslen : res.length = C := by
    have := (mapM_some_forall2 hres).length_eq
    rw [List.length_map, List.length_range] at this
    omega
  -- per-class rows
  have hrow0 : ∀ c, c < C → ∃ valid : List ℕ,
      valid.length ≤ cfg.max_detections.toNat ∧ valid.Nodup ∧
      (∀ i ∈ valid, i < cls.length ∧
        (cfg.score_threshold : EScore) <
          ((scores_with_dummy C cls).map (fun r => r.getD c ⊥)).getD i ⊥) ∧
      (res.getD c ([], [], [])).1 =
        valid.map (fun i => ((scores_with_dummy C cls).map (fun r => r.getD c ⊥)).getD i ⊥) ++
        List.replicate (cfg.max_detections.toNat - valid.length) ⊥ ∧
      (res.getD c ([], [], [])).2.1 =
        valid.map (fun i => (boxes ++ [zeroBox]).getD i zeroBox) ++
        List.replicate (cfg.max_detections.toNat - valid.length) zeroBox ∧
      (res.getD c ([], [], [])).2.2 =
        valid.map (fun i => (List.replicate cls.length ((c : ℤ)) ++ [(-1 : ℤ)]).getD i (-1)) ++
        List.replicate (cfg.max_detections.toNat - valid.length) (-1) ∧
      (valid.map (fun i =>
        ((scores_with_dummy C cls).map (fun r => r.getD c ⊥)).getD i ⊥)).Pairwise
        (fun a b => b ≤ a) ∧
      (cfg.nms = true → valid.Pairwise (fun i j =>
        iou ((boxes ++ [zeroBox]).getD i zeroBox) ((boxes ++ [zeroBox]).getD j zeroBox) ≤
          cfg.nms_threshold)) ∧
      (cfg.nms = false → cfg.max_detections.toNat ≤
          ((scores_with_dummy C cls).map (fun r => r.getD c ⊥)).countP
            (fun s => decide ((cfg.score_threshold : EScore) < s)) →
        valid.length = cfg.max_detections.toNat) := by
    intro c hc
    have hcel : (List.range C)[c]? = some c := List.getElem?_range hc
    have hresc : res[c]? = some (res.getD c ([], [], [])) := by
      rw [List.getD_eq_getElem _ _ (by omega), List.getElem?_eq_getElem (by omega)]
    have hmain := forall2_getElem hf3 hcel hresc
    rw [main_pass_eq] at hmain
    exact sbs_row_spec (colS_length C cls c) (colS_dummy C cls c)
      (bwd_getD_dummy hWF) labR_getD_dummy hmain
  have hrow : ∀ c, ∃ valid : List ℕ, c < C →
      valid.length ≤ cfg.max_detections.toNat ∧ valid.Nodup ∧
      (∀ i ∈ valid, i < cls.length ∧
        (cfg.score_threshold : EScore) <
          ((scores_with_dummy C cls).map (fun r => r.getD c ⊥)).getD i ⊥) ∧
      (res.getD c ([], [], [])).1 =
        valid.map (fun i => ((scores_with_dummy C cls).map (fun r => r.getD c ⊥)).getD i ⊥) ++
        List.replicate (cfg.max_detections.toNat - valid.length) ⊥ ∧
      (res.getD c ([], [], [])).2.1 =
        valid.map (fun i => (boxes ++ [zeroBox]).getD i zeroBox) ++
        List.replicate (cfg.max_detections.toNat - valid.length) zeroBox ∧
      (res.getD c ([], [], [])).2.2 =
        valid.map (fun i => (List.replicate cls.length ((c : ℤ)) ++ [(-1 : ℤ)]).getD i (-1)) ++
        List.replicate (cfg.max_detections.toNat - valid.length) (-1) ∧
      (valid.map (fun i =>
        ((scores_with_dummy C cls).map (fun r => r.getD c ⊥)).getD i ⊥)).Pairwise
        (fun a b => b ≤ a) ∧
      (cfg.nms = true → valid.Pairwise (fun i j =>
        iou ((boxes ++ [zeroBox]).getD i zeroBox) ((boxes ++ [zeroBox]).getD j zeroBox) ≤
          cfg.nms_threshold)) ∧
      (cfg.nms = false → cfg.max_detections.toNat ≤
          ((scores_with_dummy C cls).map (fun r => r.getD c ⊥)).countP
            (fun s => decide ((cfg.score_threshold : EScore) < s)) →
        valid.length = cfg.max_detections.toNat) := by
    intro c
    by_cases hc : c < C
    · exact (hrow0 c hc).imp (fun v hv => fun _ => hv)
    · exact ⟨[], fun hcc => absurd hcc hc⟩
  choose valid hvalid using hrow
  clear hrow0
  set md := cfg.max_detections.toNat with hmd
  have hrowS_at : ∀ c, c < C →
      (res.map (fun r => r.1)).getD c [] = (res.getD c ([], [], [])).1 := by
    intro c hc
    exact getD_map_lt (fun r => r.1) (show c < res.length by omega) ([], [], []) []
  have hrowB_at : ∀ c, c < C →
      (res.map (fun r => r.2.1)).getD c [] = (res.getD c ([], [], [])).2.1 := by
    intro c hc
    exact getD_map_lt (fun r => r.2.1) (show c < res.length by omega) ([], [], []) []
  have hrowL_at : ∀ c, c < C →
      (res.map (fun r => r.2.2)).getD c [] = (res.getD c ([], [], [])).2.2 := by
    intro c hc
    exact getD_map_lt (fun r => r.2.2) (show c < res.length by omega) ([], [], []) []
  have hmemres : ∀ {γ : Type} (f : (List EScore × List Box × List ℤ) → List γ),
      (∀ c, c < C → (f (res.getD c ([], [], []))).length = md) →
      ∀ row ∈ res.map f, row.length = md := by
    intro γ f hf row hrow2
    rcases List.mem_iff_getElem?.mp hrow2 with ⟨c, hcel⟩
    have hcC : c < C := by
      have := (List.getElem?_eq_some.mp hcel).1
      rw [List.length_map] at this
      omega
    have : (res.map f)[c]? = some (f (res.getD c ([], [], []))) := by
      rw [List.getElem?_map, List.getElem?_eq_getElem (by omega : c < res.length)]
      rw [List.getD_eq_getElem _ _ (by omega)]
      rfl
    rw [this] at hcel
    cases hcel
    exact hf c hcC
  have hlenS : ∀ c, c < C → (res.getD c ([], [], [])).1.length = md := by
    intro c hc
    rcases hvalid c hc with ⟨hle, _, _, hs1, _, _, _, _, _⟩
    rw [hs1, List.length_append, List.length_map, List.length_replicate]
    omega
  have hlenB : ∀ c, c < C → (res.getD c ([], [], [])).2.1.length = md := by
    intro c hc
    rcases hvalid c hc with ⟨hle, _, _, _, hb1, _, _, _, _⟩
    rw [hb1, List.length_append, List.length_map, List.length_replicate]
    omega
  have hlenL : ∀ c, c < C → (res.getD c ([], [], [])).2.2.length = md := by
    intro c hc
    rcases hvalid c hc with ⟨hle, _, _, _, _, hl1, _, _, _⟩
    rw [hl1, List.length_append, List.length_map, List.length_replicate]
    omega
  have hsflen : (res.map (fun r => r.1)).flatten.length = C * md := by
    rw [flatten_length_uniform (hmemres (fun r => r.1) hlenS), List.length_map, hreslen]
  have hslot : ∀ p, p < C * md →
      (p % md < (valid (p / md)).length →
        ((res.map (fun r => r.1)).flatten.getD p ⊥ =
            ((scores_with_dummy C cls).map (fun r => r.getD (p / md) ⊥)).getD
              ((valid (p / md)).getD (p % md) 0) ⊥ ∧
          (cfg.score_threshold : EScore) < (res.map (fun r => r.1)).flatten.getD p ⊥ ∧
          (res.map (fun r => r.2.2)).flatten.getD p (-1) = ((p / md : ℕ) : ℤ) ∧
          (res.map (fun r => r.2.1)).flatten.getD p zeroBox =
            (boxes ++ [zeroBox]).getD ((valid (p / md)).getD (p % md) 0) zeroBox ∧
          (valid (p / md)).getD (p % md) 0 < cls.length)) ∧
      (¬ p % md < (valid (p / md)).length →
        ((res.map (fun r => r.1)).flatten.getD p ⊥ = ⊥ ∧
         (res.map (fun r => r.2.2)).flatten.getD p (-1) = -1 ∧
         (res.map (fun r => r.2.1)).flatten.getD p zeroBox = zeroBox)) := by
    intro p hp
    have hmd0 : 0 < md := by
      rcases Nat.eq_zero_or_pos md with h0 | h0
      · rw [h0, Nat.mul_zero] at hp
        exact absurd hp (Nat.not_lt_zero p)
      · exact h0
    have hc : p / md < C := (Nat.div_lt_iff_lt_mul hmd0).mpr hp
    have hj : p % md < md := Nat.mod_lt p hmd0
    have hpd : (p / md) * md + p % md = p := by
      rw [Nat.mul_comm]
      exact Nat.div_add_mod p md
    rcases hvalid (p / md) hc with ⟨hle, hnd, hmem, hs1, hb1, hl1, hdescr, hiour, hcntr⟩
    have hgS : (res.map (fun r => r.1)).flatten.getD p ⊥ =
        (res.getD (p / md) ([], [], [])).1.getD (p % md) ⊥ := by
      conv_lhs => rw [← hpd]
      rw [flatten_getD_uniform (hmemres (fun r => r.1) hlenS) hj (by rw [List.length_map]; omega)]
      rw [hrowS_at (p / md) hc]
    have hgB : (res.map (fun r => r.2.1)).flatten.getD p zeroBox =
        (res.getD (p / md) ([], [], [])).2.1.getD (p % md) zeroBox := by
      conv_lhs => rw [← hpd]
      rw [flatten_getD_uniform (hmemres (fun r => r.2.1) hlenB) hj (by rw [List.length_map]; omega)]
      rw [hrowB_at (p / md) hc]
    have hgL : (res.map (fun r => r.2.2)).flatten.getD p (-1) =
        (res.getD (p / md) ([], [], [])).2.2.getD (p % md) (-1) := by
      conv_lhs => rw [← hpd]
      rw [flatten_getD_uniform (hmemres (fun r => r.2.2) hlenL) hj (by rw [List.length_map]; omega)]
      rw [hrowL_at (p / md) hc]
    constructor
    · intro hv
      set a := (valid (p / md)).getD (p % md) 0 with ha
      have hamem : a ∈ valid (p / md) := getD_mem hv
      rcases hmem a hamem with ⟨haN, hathr⟩
      have hSval : (res.getD (p / md) ([], [], [])).1.getD (p % md) ⊥ =
          ((scores_with_dummy C cls).map (fun r => r.getD (p / md) ⊥)).getD a ⊥ := by
        rw [hs1, List.getD_append _ _ _ _ (by rw [List.length_map]; exact hv)]
        exact getD_map_lt _ hv 0 ⊥
      have hBval : (res.getD (p / md) ([], [], [])).2.1.getD (p % md) zeroBox =
          (boxes ++ [zeroBox]).getD a zeroBox := by
        rw [hb1, List.getD_append _ _ _ _ (by rw [List.length_map]; exact hv)]
        exact getD_map_lt _ hv 0 zeroBox
      have hLval : (res.getD (p / md) ([], [], [])).2.2.getD (p % md) (-1) =
          ((p / md : ℕ) : ℤ) := by
        rw [hl1, List.getD_append _ _ _ _ (by rw [List.length_map]; exact hv)]
        rw [getD_map_lt _ hv 0 (-1)]
        exact labR_getD_lt haN
      refine ⟨by rw [hgS, hSval], ?_, by rw [hgL, hLval], by rw [hgB, hBval], haN⟩
      rw [hgS, hSval]
      exact hathr
    · intro hv
      push_neg at hv
      have hjv : p % md - (valid (p / md)).length < md - (valid (p / md)).length := by omega
      refine ⟨?_, ?_, ?_⟩
      · rw [hgS, hs1, List.getD_append_right _ _ _ _ (by rw [List.length_map]; exact hv)]
        rw [List.length_map]
        exact replicate_getD_lt hjv
      · rw [hgL, hl1, List.getD_append_right _ _ _ _ (by rw [List.length_map]; exact hv)]
        rw [List.length_map]
        exact replicate_getD_lt hjv
      · rw [hgB, hb1, List.getD_append_right _ _ _ _ (by rw [List.length_map]; exact hv)]
        rw [List.length_map]
        exact replicate_getD_lt hjv
  have hcount_row : ∀ c, c < C →
      (res.getD c ([], [], [])).1.countP
        (fun s => decide ((cfg.score_threshold : EScore) < s)) = (valid c).length := by
    intro c hc
    rcases hvalid c hc with ⟨hle, _, hmem, hs1, _, _, _, _, _⟩
    have hv : ∀ s ∈ (valid c).map
        (fun i => ((scores_with_dummy C cls).map (fun r => r.getD c ⊥)).getD i ⊥),
        (cfg.score_threshold : EScore) < s := by
      intro s hs
      rcases List.mem_map.mp hs with ⟨i, hi, hsi⟩
      rw [← hsi]
      exact (hmem i hi).2
    rw [hs1, countP_row hv, List.length_map]
  have hlast_le : ∀ c, c < C → (valid c).length ≤
      (res.map (fun r => r.1)).flatten.countP
        (fun s => decide ((cfg.score_threshold : EScore) < s)) := by
    intro c hc
    have hmem2 : (valid c).length ∈ (res.map (fun r => r.1)).map
        (List.countP (fun s => decide ((cfg.score_threshold : EScore) < s))) := by
      rw [List.mem_iff_getElem?]
      refine ⟨c, ?_⟩
      rw [List.getElem?_map, List.getElem?_map,
        List.getElem?_eq_getElem (show c < res.length by omega)]
      simp only [Option.map_some']
      rw [← List.getD_eq_getElem res ([], [], []) (show c < res.length by omega), hcount_row c hc]
    have hle := List.single_le_sum (fun x _ => Nat.zero_le x) _ hmem2
    rw [← List.countP_flatten] at hle
    exact hle
  have hmrg2 : _sort_by_scores cfg ((res.map (fun r => r.1)).flatten)
      ((res.map (fun r => r.2.1)).flatten) ((res.map (fun r => r.2.2)).flatten)
      cfg.max_detections false = some mrg := hmrg
  rcases _sort_by_scores_spec hmrg2 with ⟨ipM, hipM, hmrgS, hmrgL, hboundM, hmrgB⟩
  rcases sbs_indices_topk_spec hipM with
    ⟨h0M, hkM, hipMlen, validM, hdecompM, hvMle, hnodupM, hmemM, hdescM, hcountM⟩
  have hghost : validM.length < md →
      ((res.map (fun r => r.1)).flatten.getD (C * md - 1) ⊥ = ⊥ ∧
       (res.map (fun r => r.2.2)).flatten.getD (C * md - 1) (-1) = -1 ∧
       (res.map (fun r => r.2.1)).flatten.getD (C * md - 1) zeroBox = zeroBox) := by
    intro hvm
    have hmd0 : 0 < md := by omega
    have hC0 : 0 < C := by
      by_contra h0
      push_neg at h0
      have h00 : C = 0 := by omega
      rw [hsflen, h00] at hkM
      simp at hkM
      omega
    have hcnt_lt : (res.map (fun r => r.1)).flatten.countP
        (fun s => decide ((cfg.score_threshold : EScore) < s)) < md := by
      by_contra hge
      push_neg at hge
      have h2 := hcountM hge
      omega
    have hvlast : (valid (C - 1)).length < md := by
      have := hlast_le (C - 1) (by omega)
      omega
    have heq : C * md - 1 = md * (C - 1) + (md - 1) := by
      obtain ⟨c2, rfl⟩ : ∃ c2, C = c2 + 1 := ⟨C - 1, by omega⟩
      have h1 : (c2 + 1) * md = c2 * md + md := Nat.succ_mul c2 md
      have h2 : md * (c2 + 1 - 1) = md * c2 := by norm_num
      rw [h2, Nat.mul_comm md c2]
      omega
    have hdiv : (C * md - 1) / md = C - 1 := by
      rw [heq, Nat.mul_add_div hmd0, Nat.div_eq_of_lt (by omega)]
      omega
    have hmod : (C * md - 1) % md = md - 1 := by
      rw [heq, Nat.mul_add_mod, Nat.mod_eq_of_lt (by omega)]
    have hplt : C * md - 1 < C * md := by
      have : 0 < C * md := Nat.mul_pos hC0 hmd0
      omega
    refine (hslot (C * md - 1) hplt).2 ?_
    rw [hdiv, hmod]
    omega
  obtain ⟨ob, os, ol⟩ := out
  rw [TPUOut.mk.injEq] at h5
  obtain ⟨hob, hos, hol⟩ := h5
  subst hob
  subst hos
  subst hol
  have hiplen2 : ipM.length = md := hipMlen
  have hlenS2 : mrg.1.length = md := by rw [hmrgS, List.length_map]; exact hiplen2
  have hlenB2 : mrg.2.1.length = md := by rw [hmrgB, List.length_map]; exact hiplen2
  have hlenL2 : mrg.2.2.length = md := by rw [hmrgL, List.length_map]; exact hiplen2
  have hiprow : ∀ r, r < md →
      (r < validM.length ∧ ipM.getD r 0 = validM.getD r 0) ∨
      (validM.length ≤ r ∧ ipM.getD r 0 = (res.map (fun r => r.1)).flatten.length - 1) := by
    intro r hr
    by_cases hrv : r < validM.length
    · left
      refine ⟨hrv, ?_⟩
      rw [hdecompM, List.getD_append _ _ _ _ hrv]
    · right
      push_neg at hrv
      refine ⟨hrv, ?_⟩
      rw [hdecompM, List.getD_append_right _ _ _ _ hrv]
      exact replicate_getD_lt (by omega)
  have houtS : ∀ r, r < md → mrg.1.getD r ⊥ =
      (res.map (fun r => r.1)).flatten.getD (ipM.getD r 0) ⊥ := by
    intro r hr
    rw [hmrgS]
    exact getD_map_lt _ (show r < ipM.length by omega) 0 ⊥
  have houtB : ∀ r, r < md → mrg.2.1.getD r zeroBox =
      (res.map (fun r => r.2.1)).flatten.getD (ipM.getD r 0) zeroBox := by
    intro r hr
    rw [hmrgB]
    exact getD_map_lt _ (show r < ipM.length by omega) 0 zeroBox
  have houtL : ∀ r, r < md → mrg.2.2.getD r (-1) =
      (res.map (fun r => r.2.2)).flatten.getD (ipM.getD r 0) (-1) := by
    intro r hr
    rw [hmrgL]
    exact getD_map_lt _ (show r < ipM.length by omega) 0 (-1)
  have hflen1 : (res.map (fun r => r.1)).flatten.length - 1 = C * md - 1 := by rw [hsflen]
  have hrowcase : ∀ r, r < md →
      (r < validM.length ∧ validM.getD r 0 < C * md ∧
        (cfg.score_threshold : EScore) < mrg.1.getD r ⊥ ∧
        mrg.2.2.getD r (-1) = (((validM.getD r 0) / md : ℕ) : ℤ) ∧
        (validM.getD r 0) % md < (valid ((validM.getD r 0) / md)).length ∧
        mrg.2.1.getD r zeroBox = (boxes ++ [zeroBox]).getD
          ((valid ((validM.getD r 0) / md)).getD ((validM.getD r 0) % md) 0) zeroBox) ∨
      (mrg.1.getD r ⊥ = ⊥ ∧ mrg.2.2.getD r (-1) = -1 ∧ mrg.2.1.getD r zeroBox = zeroBox) := by
    intro r hr
    rcases hiprow r hr with ⟨hrv, hipr⟩ | ⟨hrv, hipr⟩
    · left
      have hpmem : validM.getD r 0 ∈ validM := getD_mem hrv
      rcases hmemM (validM.getD r 0) hpmem with ⟨hplen, hpthr⟩
      rw [hsflen] at hplen
      have hpvalid : (validM.getD r 0) % md < (valid ((validM.getD r 0) / md)).length := by
        by_contra hng
        have := ((hslot (validM.getD r 0) hplen).2 hng).1
        rw [this] at hpthr
        exact absurd hpthr (by simp)
      rcases (hslot (validM.getD r 0) hplen).1 hpvalid with ⟨hSv, hthrv, hLv, hBv, haN⟩
      refine ⟨hrv, hplen, ?_, ?_, hpvalid, ?_⟩
      · rw [houtS r hr, hipr]; exact hthrv
      · rw [houtL r hr, hipr]; exact hLv
      · rw [houtB r hr, hipr]; exact hBv
    · right
      have hvm : validM.length < md := by omega
      rcases hghost hvm with ⟨hgs, hgl, hgb⟩
      refine ⟨?_, ?_, ?_⟩
      · rw [houtS r hr, hipr, hflen1]; exact hgs
      · rw [houtL r hr, hipr, hflen1]; exact hgl
      · rw [houtB r hr, hipr, hflen1]; exact hgb
  have hdesc_out : mrg.1.Pairwise (fun a b => b ≤ a) := by
    rw [hmrgS, hdecompM, List.map_append, List.map_replicate]
    refine (List.pairwise_append).mpr ⟨hdescM, ?_, ?_⟩
    · rw [List.pairwise_replicate]
      right
      exact le_refl _
    · intro a ha b hb
      rcases (List.mem_replicate).mp hb with ⟨hk, hbv⟩
      have hvm : validM.length < md := by omega
      rcases hghost hvm with ⟨hgs, _, _⟩
      rw [hbv, hflen1, hgs]
      exact bot_le
  refine ⟨hlenB2, hlenS2, hlenL2, ?_, hdesc_out, ?_⟩
  · intro r hr
    rcases hrowcase r hr with ⟨_, _, hthr2, hlab2, _, _⟩ | ⟨hgs2, hgl2, hgb2⟩
    · constructor
      · intro hl
        rw [hlab2] at hl
        have hge : (0 : ℤ) ≤ (((validM.getD r 0) / md : ℕ) : ℤ) := Int.natCast_nonneg _
        omega
      · right
        exact hthr2
    · exact ⟨fun _ => ⟨hgs2, hgb2⟩, Or.inl hgl2⟩
  · intro hnms r1 r2 hr1 hr2 hne hl1ne hleq
    rcases hrowcase r1 hr1 with ⟨hrv1, hp1lt, hthr1, hlab1, hslot1, hbox1⟩ | ⟨_, hlab1g, _⟩
    swap
    · exact absurd hlab1g hl1ne
    rcases hrowcase r2 hr2 with ⟨hrv2, hp2lt, hthr2, hlab2, hslot2, hbox2⟩ | ⟨_, hlab2g, _⟩
    swap
    · exact absurd (hleq.trans hlab2g) hl1ne
    have hp12 : validM.getD r1 0 ≠ validM.getD r2 0 := by
      intro heq12
      apply hne
      exact nodup_getD_inj hnodupM (by omega) (by omega) heq12
    have hceq : (validM.getD r1 0) / md = (validM.getD r2 0) / md := by
      have hcast := hleq
      rw [hlab1, hlab2] at hcast
      exact_mod_cast hcast
    have hjneq : (validM.getD r1 0) % md ≠ (validM.getD r2 0) % md := by
      intro hj
      apply hp12
      have d1 := Nat.div_add_mod (validM.getD r1 0) md
      have d2 := Nat.div_add_mod (validM.getD r2 0) md
      rw [hceq] at d1
      omega
    have hmd0 : 0 < md := by omega
    rcases hvalid ((validM.getD r1 0) / md) ((Nat.div_lt_iff_lt_mul hmd0).mpr hp1lt) with
      ⟨_, hndc, hmemc, _, _, _, _, hiouc, _⟩
    have hiou2 := hiouc hnms
    rw [← hceq] at hslot2 hbox2
    have ha1mem : (valid ((validM.getD r1 0) / md)).getD ((validM.getD r1 0) % md) 0 ∈
        valid ((validM.getD r1 0) / md) := getD_mem hslot1
    have ha2mem : (valid ((validM.getD r1 0) / md)).getD ((validM.getD r2 0) % md) 0 ∈
        valid ((validM.getD r1 0) / md) := getD_mem hslot2
    have haneq : (valid ((validM.getD r1 0) / md)).getD ((validM.getD r1 0) % md) 0 ≠
        (valid ((validM.getD r1 0) / md)).getD ((validM.getD r2 0) % md) 0 := by
      intro haeq
      apply hjneq
      exact nodup_getD_inj hndc hslot1 hslot2 haeq
    have hsym : Symmetric (fun i j =>
        iou ((boxes ++ [zeroBox]).getD i zeroBox) ((boxes ++ [zeroBox]).getD j zeroBox) ≤
          cfg.nms_threshold) := by
      intro i j hij
      rw [iou_comm]
      exact hij
    have hfin := hiou2.forall hsym ha1mem ha2mem haneq
    rw [hbox1, hbox2]
    exact hfin
theorem foldr_max_bot {l : List EScore} (h : ∀ x ∈ l, x = ⊥) : l.foldr max ⊥ = ⊥ := by
  induction l with
  | nil => rfl
  | cons a t ih =>
    rw [List.foldr_cons, h a (List.mem_cons_self a t),
      ih (fun x hx => h x (List.mem_cons_of_mem a hx))]
    simp

theorem maxrow_dummy (C : ℕ) (cls : List (List ℚ)) :
    ((scores_with_dummy C cls).map (fun r => r.foldr max ⊥)).getD cls.length ⊥ = ⊥ := by
  have hswd : (scores_with_dummy C cls)[cls.length]? = some (List.replicate C ⊥) := by
    unfold scores_with_dummy
    rw [List.getElem?_append_right (by rw [List.length_map])]
    rw [List.length_map, Nat.sub_self]
    rfl
  rw [List.getD_eq_getElem?_getD, List.getElem?_map, hswd]
  simp only [Option.map_some', Option.getD_some]
  exact foldr_max_bot (fun x hx => List.eq_of_mem_replicate hx)

theorem labA_getD_dummy {cls : List (List ℚ)} :
    (cls.map (fun r => ((rowArgmax r : ℤ))) ++ [(-1 : ℤ)]).getD cls.length (-1) = -1 := by
  rw [List.getD_append_right _ _ _ _ (by rw [List.length_map])]
  rw [List.length_map, Nat.sub_self]
  rfl

theorem labA_getD_lt {cls : List (List ℚ)} {i : ℕ} (hi : i < cls.length) :
    (cls.map (fun r => ((rowArgmax r : ℤ))) ++ [(-1 : ℤ)]).getD i (-1) =
      ((rowArgmax (cls.getD i []) : ℤ)) := by
  rw [List.getD_append _ _ _ _ (by rw [List.length_map]; exact hi)]
  exact getD_map_lt _ hi [] (-1)

/-- Output description of the static-shape variant in class-agnostic mode:
exactly max_detections rows, ghost rows carry (bottom, zero box, -1), valid
rows beat the threshold, scores descend, and with NMS on, no two valid rows
exceed the IoU threshold. -/
theorem tpu_agnostic_spec {cfg : FDConfig} {boxes : List Box} {C : ℕ} {cls : List (List ℚ)}
    {out : TPUOut}
    (hcs : cfg.class_specific_filter = false)
    (hWF : boxes.length = cls.length)
    (h : filter_detections_tpu cfg boxes C cls = some out) :
    out.boxes.length = cfg.max_detections.toNat ∧
    out.scores.length = cfg.max_detections.toNat ∧
    out.labels.length = cfg.max_detections.toNat ∧
    (∀ r, r < cfg.max_detections.toNat →
      (out.labels.getD r (-1) = -1 →
        out.scores.getD r ⊥ = ⊥ ∧ out.boxes.getD r zeroBox = zeroBox) ∧
      (out.labels.getD r (-1) = -1 ∨
        (cfg.score_threshold : EScore) < out.scores.getD r ⊥)) ∧
    out.scores.Pairwise (fun a b => b ≤ a) ∧
    (cfg.nms = true → ∀ r1 r2, r1 < cfg.max_detections.toNat → r2 < cfg.max_detections.toNat →
      r1 ≠ r2 → out.labels.getD r1 (-1) ≠ -1 → out.labels.getD r2 (-1) ≠ -1 →
      iou (out.boxes.getD r1 zeroBox) (out.boxes.getD r2 zeroBox) ≤ cfg.nms_threshold) := by
  unfold filter_detections_tpu at h
  rw [hcs] at h
  simp only [Bool.false_eq_true, if_false, Option.pure_def, Option.bind_eq_bind,
    Option.bind_some] at h
  by_cases hC0 : C = 0
  · rw [if_pos hC0] at h
    simp at h
  · rw [if_neg hC0] at h
    rcases Option.bind_eq_some.mp h with ⟨adapt, hadapt, h2⟩
    rcases Option.bind_eq_some.mp h2 with ⟨res1, hres1, h3⟩
    rcases Option.bind_eq_some.mp h3 with ⟨res, hres, h4⟩
    simp only [Option.some.injEq] at hadapt
    obtain ⟨sa, lb⟩ := adapt
    rw [Prod.mk.injEq] at hadapt
    obtain ⟨hsa, hlb⟩ := hadapt
    subst hsa
    subst hlb
    clear h h2 h3 hres1 res1
    unfold scores_adapt_agnostic labels_agnostic at hres
    have helems : zip3 [(scores_with_dummy C cls).map (fun r => r.foldr max ⊥)]
        (List.replicate
          ([(scores_with_dummy C cls).map (fun r => r.foldr max ⊥)] :
            List (List EScore)).length (boxes ++ [zeroBox]))
        (([cls.map (fun r => ((rowArgmax r : ℤ)))]).map (fun l => l ++ [-1])) =
        [((scores_with_dummy C cls).map (fun r => r.foldr max ⊥), boxes ++ [zeroBox],
          cls.map (fun r => ((rowArgmax r : ℤ))) ++ [(-1 : ℤ)])] := rfl
    rw [helems] at hres
    rcases mapM_some_cons.mp hres with ⟨r0, t0, hr0, ht0, hres_eq⟩
    have ht0nil : t0 = [] := by
      have := mapM_some_length ht0
      simpa using this
    subst ht0nil
    subst hres_eq
    rw [main_pass_eq] at hr0
    rcases sbs_row_spec (by rw [List.length_map, swd_length]) (maxrow_dummy C cls)
      (bwd_getD_dummy hWF) labA_getD_dummy hr0 with
      ⟨valid, hvle, hnodup, hmem, hs1, hb1, hl1, hdescr, hiour, hcntr⟩
    have hflat1 : ([r0].map (fun r => r.1)).flatten = r0.1 := by simp
    have hflat2 : ([r0].map (fun r => r.2.1)).flatten = r0.2.1 := by simp
    have hflat3 : ([r0].map (fun r => r.2.2)).flatten = r0.2.2 := by simp
    rw [hflat1, hflat2, hflat3] at h4
    obtain ⟨ob, os, ol⟩ := out
    simp only [Option.some_bind, Option.some.injEq, TPUOut.mk.injEq] at h4
    obtain ⟨hob, hos, hol⟩ := h4
    subst hob
    subst hos
    subst hol
    have hvlen : valid.length ≤ cfg.max_detections.toNat := hvle
    have hlenS2 : r0.1.length = cfg.max_detections.toNat := by
      rw [hs1, List.length_append, List.length_map, List.length_replicate]
      omega
    have hlenB2 : r0.2.1.length = cfg.max_detections.toNat := by
      rw [hb1, List.length_append, List.length_map, List.length_replicate]
      omega
    have hlenL2 : r0.2.2.length = cfg.max_detections.toNat := by
      rw [hl1, List.length_append, List.length_map, List.length_replicate]
      omega
    have hrowcase : ∀ r, r < cfg.max_detections.toNat →
        (r < valid.length ∧
          (cfg.score_threshold : EScore) < r0.1.getD r ⊥ ∧
          r0.2.2.getD r (-1) = ((rowArgmax (cls.getD (valid.getD r 0) []) : ℤ)) ∧
          r0.2.1.getD r zeroBox = (boxes ++ [zeroBox]).getD (valid.getD r 0) zeroBox) ∨
        (valid.length ≤ r ∧ r0.1.getD r ⊥ = ⊥ ∧ r0.2.2.getD r (-1) = -1 ∧
          r0.2.1.getD r zeroBox = zeroBox) := by
      intro r hr
      by_cases hrv : r < valid.length
      · left
        have hamem : valid.getD r 0 ∈ valid := getD_mem hrv
        rcases hmem (valid.getD r 0) hamem with ⟨haN, hathr⟩
        refine ⟨hrv, ?_, ?_, ?_⟩
        · rw [hs1, List.getD_append _ _ _ _ (by rw [List.length_map]; exact hrv),
            getD_map_lt _ hrv 0 ⊥]
          exact hathr
        · rw [hl1, List.getD_append _ _ _ _ (by rw [List.length_map]; exact hrv),
            getD_map_lt _ hrv 0 (-1)]
          exact labA_getD_lt haN
        · rw [hb1, List.getD_append _ _ _ _ (by rw [List.length_map]; exact hrv),
            getD_map_lt _ hrv 0 zeroBox]
      · right
        push_neg at hrv
        have hjv : r - valid.length < cfg.max_detections.toNat - valid.length := by omega
        refine ⟨hrv, ?_, ?_, ?_⟩
        · rw [hs1, List.getD_append_right _ _ _ _ (by rw [List.length_map]; exact hrv),
            List.length_map]
          exact replicate_getD_lt hjv
        · rw [hl1, List.getD_append_right _ _ _ _ (by rw [List.length_map]; exact hrv),
            List.length_map]
          exact replicate_getD_lt hjv
        · rw [hb1, List.getD_append_right _ _ _ _ (by rw [List.length_map]; exact hrv),
            List.length_map]
          exact replicate_getD_lt hjv
    refine ⟨hlenB2, hlenS2, hlenL2, ?_, ?_, ?_⟩
    · intro r hr
      rcases hrowcase r hr with ⟨_, hthr2, hlab2, _⟩ | ⟨_, hgs2, hgl2, hgb2⟩
      · constructor
        · intro hl
          rw [hlab2] at hl
          have hge : (0 : ℤ) ≤ ((rowArgmax (cls.getD (valid.getD r 0) []) : ℤ)) :=
            Int.natCast_nonneg _
          omega
        · right
          exact hthr2
      · exact ⟨fun _ => ⟨hgs2, hgb2⟩, Or.inl hgl2⟩
    · rw [hs1]
      refine (List.pairwise_append).mpr ⟨hdescr, ?_, ?_⟩
      · rw [List.pairwise_replicate]
        right
        exact le_refl _
      · intro a ha b hb
        rcases (List.mem_replicate).mp hb with ⟨_, hbv⟩
        rw [hbv]
        exact bot_le
    · intro hnms r1 r2 hr1 hr2 hne hl1ne hl2ne
      rcases hrowcase r1 hr1 with ⟨hrv1, _, _, hbox1⟩ | ⟨_, _, hlab1g, _⟩
      swap
      · exact absurd hlab1g hl1ne
      rcases hrowcase r2 hr2 with ⟨hrv2, _, _, hbox2⟩ | ⟨_, _, hlab2g, _⟩
      swap
      · exact absurd hlab2g hl2ne
      have hiou2 := hiour hnms
      have ha1mem : valid.getD r1 0 ∈ valid := getD_mem hrv1
      have ha2mem : valid.getD r2 0 ∈ valid := getD_mem hrv2
      have haneq : valid.getD r1 0 ≠ valid.getD r2 0 := by
        intro haeq
        apply hne
        exact nodup_getD_inj hnodup hrv1 hrv2 haeq
      have hsym : Symmetric (fun i j =>
          iou ((boxes ++ [zeroBox]).getD i zeroBox) ((boxes ++ [zeroBox]).getD j zeroBox) ≤
            cfg.nms_threshold) := by
        intro i j hij
        rw [iou_comm]
        exact hij
      have hfin := hiou2.forall hsym ha1mem ha2mem haneq
      rw [hbox1, hbox2]
      exact hfin

/-! Dynamic-path helper lemmas. -/

theorem zip3_forall2_mem {α β γ : Type} {R : α → β → Prop} {a : List α} {b : List β}
    (h : List.Forall₂ R a b) : ∀ (c : List γ), ∀ x ∈ zip3 a b c, R x.1 x.2.1 := by
  induction h with
  | nil =>
    intro c x hx
    simp [zip3] at hx
  | cons hab htail ih =>
    intro c x hx
    cases c with
    | nil => simp [zip3] at hx
    | cons c0 cs =>
      rcases List.mem_cons.mp hx with hx | hx
      · subst hx
        exact hab
      · exact ih cs x hx

theorem zip3_third_eq {α β γ : Type} (g : α → γ) :
    ∀ (a : List α) (b : List β), ∀ x ∈ zip3 a b (a.map g), x.2.2 = g x.1 := by
  intro a
  induction a with
  | nil =>
    intro b x hx
    simp [zip3] at hx
  | cons a0 as ih =>
    intro b x hx
    cases b with
    | nil => simp [zip3] at hx
    | cons b0 bs =>
      rcases List.mem_cons.mp hx with hx | hx
      · subst hx
        rfl
      · exact ih bs x hx

theorem zip3_mem_fst {α β γ : Type} {a : List α} {b : List β} {c : List γ} {x : α × β × γ}
    (h : x ∈ zip3 a b c) : x.1 ∈ a := by
  unfold zip3 at h
  exact (List.of_mem_zip h).1

theorem whereGreater_mem {thr : ℚ} {scores : List ℚ} {i : ℕ} :
    i ∈ (List.range scores.length).filter (fun i => decide (thr < scores.getD i 0)) ↔
      i < scores.length ∧ thr < scores.getD i 0 := by
  rw [List.mem_filter, List.mem_range, decide_eq_true_eq]

theorem whereGreater_nodup {thr : ℚ} {scores : List ℚ} :
    ((List.range scores.length).filter (fun i => decide (thr < scores.getD i 0))).Nodup :=
  (List.nodup_range scores.length).filter _

theorem forall2_eq_map {α β : Type} {F : α → Option β} {g : α → β}
    (hFg : ∀ a v, F a = some v → v = g a) :
    ∀ {xs : List α} {ys : List β},
      List.Forall₂ (fun a b => F a = some b) xs ys → ys = xs.map g := by
  intro xs
  induction xs with
  | nil =>
    intro ys h
    cases h
    rfl
  | cons a t ih =>
    intro ys h
    cases h with
    | cons hab htail =>
      rw [List.map_cons, ← ih htail, hFg a _ hab]

theorem nms_branch_spec (thr : ℚ) (md : ℕ) {boxes : List Box} {I : List ℕ}
    {fboxes : List Box} (hfb : I.mapM (fun i => boxes[i]?) = some fboxes) (fs : List ℚ) :
    (∀ i ∈ (nmsSel thr md (zip3 I fboxes fs)).map (fun c => c.1), i ∈ I ∧ i < boxes.length) ∧
    ((nmsSel thr md (zip3 I fboxes fs)).map (fun c => c.1)).Nodup ∧
    ((nmsSel thr md (zip3 I fboxes fs)).map (fun c => c.1)).Pairwise (fun i j =>
      iou (boxes.getD i sentinelBox) (boxes.getD j sentinelBox) ≤ thr) := by
  have hfb2 := mapM_some_forall2 hfb
  have hcands_box : ∀ x ∈ zip3 I fboxes fs, boxes[x.1]? = some x.2.1 :=
    zip3_forall2_mem hfb2 fs
  refine ⟨?_, ?_, ?_⟩
  · intro i hi
    rcases List.mem_map.mp hi with ⟨c, hc, hci⟩
    have hcx := zip3_mem_fst (nmsSel_subset hc)
    have hcb := hcands_box c (nmsSel_subset hc)
    subst hci
    exact ⟨hcx, (List.getElem?_eq_some.mp hcb).1⟩
  · exact nmsSel_fst_nodup
  · have hpw : (nmsSel thr md (zip3 I fboxes fs)).Pairwise
        (fun c d => iou c.2.1 d.2.1 ≤ thr) := nmsSel_pairwise_iou
    have hpw2 : (nmsSel thr md (zip3 I fboxes fs)).Pairwise
        (fun c d => iou (boxes.getD c.1 sentinelBox) (boxes.getD d.1 sentinelBox) ≤ thr) := by
      refine hpw.imp_of_mem (fun {c d} hc hd hcd => ?_)
      have hcb := hcands_box c (nmsSel_subset hc)
      have hdb := hcands_box d (nmsSel_subset hd)
      have hcb2 : boxes.getD c.1 sentinelBox = c.2.1 := by
        rw [List.getD_eq_getElem?_getD, hcb]
        rfl
      have hdb2 : boxes.getD d.1 sentinelBox = d.2.1 := by
        rw [List.getD_eq_getElem?_getD, hdb]
        rfl
      rw [hcb2, hdb2]
      exact hcd
    exact List.pairwise_map.mpr hpw2

/-- Properties of the inner _filter_detections of the dynamic path: every
returned pair is a strictly-above-threshold anchor with its label, anchors are
distinct, and with NMS on, returned anchors are pairwise within the IoU
threshold and within bounds of the boxes tensor. -/
theorem _filter_detections_spec {cfg : FDConfig} {boxes : List Box} {scores : List ℚ}
    {labels : List ℤ} {out : List (ℕ × ℤ)}
    (h : _filter_detections cfg boxes scores labels = some out) :
    (∀ p ∈ out, p.1 < scores.length ∧ cfg.score_threshold < scores.getD p.1 0 ∧
      p.2 = labels.getD p.1 (-1)) ∧
    (out.map Prod.fst).Nodup ∧
    (cfg.nms = true →
      out.Pairwise (fun p q =>
        iou (boxes.getD p.1 sentinelBox) (boxes.getD q.1 sentinelBox) ≤ cfg.nms_threshold) ∧
      ∀ p ∈ out, p.1 < boxes.length) := by
  unfold _filter_detections at h
  have hmapfst : ∀ (l : List ℕ),
      (l.map (fun i => (i, labels.getD i (-1)))).map Prod.fst = l := by
    intro l
    rw [List.map_map]
    exact List.map_id l
  cases hn : cfg.nms with
  | false =>
    rw [hn] at h
    simp only [Bool.false_eq_true, if_false, Option.pure_def, Option.bind_eq_bind,
      Option.some_bind, Option.some.injEq] at h
    subst h
    refine ⟨?_, ?_, fun htrue => absurd htrue (by simp)⟩
    · intro p hp
      rcases List.mem_map.mp hp with ⟨i, hi, hpi⟩
      rcases whereGreater_mem.mp hi with ⟨hlt, hthr⟩
      subst hpi
      exact ⟨hlt, hthr, rfl⟩
    · rw [hmapfst]
      exact whereGreater_nodup
  | true =>
    rw [hn] at h
    simp only [if_true, Option.pure_def, Option.bind_eq_bind, Option.some_bind] at h
    rcases Option.bind_eq_some.mp h with ⟨fboxes, hfb, hsel⟩
    simp only [Option.some_bind, Option.some.injEq] at hsel
    subst hsel
    obtain ⟨hmem, hnd, hpw⟩ := nms_branch_spec cfg.nms_threshold
      cfg.max_detections.toNat hfb
      (((List.range scores.length).filter
        (fun i => decide (cfg.score_threshold < scores.getD i 0))).map
        (fun i => scores.getD i 0))
    refine ⟨?_, ?_, fun _ => ⟨?_, ?_⟩⟩
    · intro p hp
      rcases List.mem_map.mp hp with ⟨i, hi, hpi⟩
      obtain ⟨hiI, _⟩ := hmem i hi
      rcases whereGreater_mem.mp hiI with ⟨hlt, hthr⟩
      subst hpi
      exact ⟨hlt, hthr, rfl⟩
    · rw [hmapfst]
      exact hnd
    · exact List.pairwise_map.mpr hpw
    · intro p hp
      rcases List.mem_map.mp hp with ⟨i, hi, hpi⟩
      obtain ⟨_, hlen⟩ := hmem i hi
      subst hpi
      exact hlen

/-! Row max / argmax facts for the class-agnostic mode. -/

theorem foldl_max_le {t : List ℚ} : ∀ {a x : ℚ}, x ∈ a :: t → x ≤ t.foldl max a := by
  induction t with
  | nil =>
    intro a x hx
    simp at hx
    simp [hx]
  | cons b t ih =>
    intro a x hx
    rcases List.mem_cons.mp hx with hx | hx
    · subst hx
      exact le_trans (le_max_left x b) (ih (List.mem_cons_self _ _))
    · rcases List.mem_cons.mp hx with hx | hx
      · subst hx
        exact le_trans (le_max_right a x) (ih (List.mem_cons_self _ _))
      · exact ih (List.mem_cons_of_mem _ hx)

theorem foldl_max_mem {t : List ℚ} : ∀ {a : ℚ}, t.foldl max a ∈ a :: t := by
  induction t with
  | nil => intro a; simp
  | cons b t ih =>
    intro a
    have := ih (a := max a b)
    rcases List.mem_cons.mp this with h | h
    · rcases max_choice a b with hc | hc <;> rw [List.foldl_cons, h, hc]
      · exact List.mem_cons_self _ _
      · exact List.mem_cons_of_mem _ (List.mem_cons_self _ _)
    · exact List.mem_cons_of_mem _ (List.mem_cons_of_mem _ h)

theorem le_rowMax {r : List ℚ} {x : ℚ} (hx : x ∈ r) : x ≤ rowMax r := by
  cases r with
  | nil => simp at hx
  | cons a t => exact foldl_max_le hx

theorem rowMax_mem {r : List ℚ} (h : r ≠ []) : rowMax r ∈ r := by
  cases r with
  | nil => exact absurd rfl h
  | cons a t => exact foldl_max_mem

theorem rowArgmax_spec {r : List ℚ} (h : r ≠ []) :
    rowArgmax r < r.length ∧ r.getD (rowArgmax r) 0 = rowMax r := by
  have hen : r.enum ≠ [] := by
    intro hc
    exact h (by simpa using congrArg List.length hc)
  have hsome : argmaxKey (Prod.snd : ℕ × ℚ → ℚ) r.enum ≠ none :=
    fun hc => hen (argmaxKey_eq_none.mp hc)
  rcases Option.ne_none_iff_exists'.mp hsome with ⟨p, hp⟩
  have hmem := argmaxKey_mem hp
  obtain ⟨hlt, hget⟩ := mem_enum_getD (d := 0) hmem
  have hargeq : rowArgmax r = p.1 := by
    unfold rowArgmax
    rw [hp]
  constructor
  · rw [hargeq]; exact hlt
  · rw [hargeq, hget]
    have h1 : p.2 ≤ rowMax r := by
      refine le_rowMax ?_
      rw [← hget]
      exact getD_mem hlt
    have h2 : rowMax r ≤ p.2 := by
      rcases List.mem_iff_getElem?.mp (rowMax_mem h) with ⟨j, hj⟩
      have hjen : ((j, rowMax r) : ℕ × ℚ) ∈ r.enum := List.mem_enum_iff_getElem?.mpr hj
      exact argmaxKey_le hp _ hjen
    exact le_antisymm h1 h2

/-! Transport of pairwise relations along Forall₂. -/

theorem forall2_mem_right {α β : Type} {S : α → β → Prop} :
    ∀ {xs : List α} {ys : List β}, List.Forall₂ S xs ys → ∀ y ∈ ys, ∃ x ∈ xs, S x y := by
  intro xs ys h
  induction h with
  | nil => intro y hy; simp at hy
  | cons hab htail ih =>
    intro y hy
    rcases List.mem_cons.mp hy with hy | hy
    · subst hy
      exact ⟨_, List.mem_cons_self _ _, hab⟩
    · rcases ih y hy with ⟨x, hx, hSx⟩
      exact ⟨x, List.mem_cons_of_mem _ hx, hSx⟩

theorem forall2_pairwise {α β : Type} {S : α → β → Prop} {P : α → α → Prop} {Q : β → β → Prop}
    (hPQ : ∀ a b la lb, S a la → S b lb → P a b → Q la lb) :
    ∀ {xs : List α} {ys : List β}, List.Forall₂ S xs ys → xs.Pairwise P → ys.Pairwise Q := by
  intro xs ys h
  induction h with
  | nil => intro _; exact List.Pairwise.nil
  | cons hab htail ih =>
    intro hpw
    rcases List.pairwise_cons.mp hpw with ⟨hhead, htl⟩
    refine List.Pairwise.cons ?_ (ih htl)
    intro lb hlb
    rcases forall2_mem_right htail lb hlb with ⟨b, hb, hSb⟩
    exact hPQ _ _ _ _ hab hSb (hhead b hb)

/-- Properties of the merged candidate set of the dynamic path under a
well-formed classification tensor: every candidate records an in-range anchor,
a nonnegative in-range label, and a gathered score strictly above the score
threshold; with NMS on, anchors are within the boxes tensor and any two
candidates sharing a label are within the IoU threshold (in the class-agnostic
mode even without sharing a label). -/
theorem fdMerged_spec {cfg : FDConfig} {boxes : List Box} {C : ℕ}
    {cls : List (List ℚ)} {out : List (ℕ × ℤ)}
    (hC : ClsWF C cls)
    (h : fdMerged cfg boxes C cls = some out) :
    (∀ p ∈ out, p.1 < cls.length ∧ 0 ≤ p.2 ∧ p.2.toNat < (cls.getD p.1 []).length ∧
      cfg.score_threshold < (cls.getD p.1 []).getD p.2.toNat 0) ∧
    (cfg.nms = true → (∀ p ∈ out, p.1 < boxes.length) ∧
      out.Pairwise (fun p q => p.2 = q.2 →
        iou (boxes.getD p.1 sentinelBox) (boxes.getD q.1 sentinelBox) ≤ cfg.nms_threshold)) ∧
    (cfg.nms = true → cfg.class_specific_filter = false →
      out.Pairwise (fun p q =>
        iou (boxes.getD p.1 sentinelBox) (boxes.getD q.1 sentinelBox) ≤ cfg.nms_threshold)) := by
  unfold fdMerged at h
  cases hcs : cfg.class_specific_filter with
  | true =>
    rw [hcs] at h
    simp only [if_true, Option.bind_eq_bind] at h
    rcases Option.bind_eq_some.mp h with ⟨all, hall, hflat⟩
    have hout : out = all.flatten := by
      by_cases he : all.isEmpty
      · rw [if_pos he] at hflat
        cases hflat
      · rw [if_neg he] at hflat
        simp only [Option.pure_def, Option.some.injEq] at hflat
        exact hflat.symm
    subst hout
    have hf2 := mapM_some_forall2 hall
    have hblock : ∀ l ∈ all, ∃ c, c < C ∧
        _filter_detections cfg boxes (cls.map (fun r => r.getD c 0))
          (List.replicate cls.length ((c : ℤ))) = some l := by
      intro l hl
      rcases forall2_mem_right hf2 l hl with ⟨c, hc, hFc⟩
      exact ⟨c, List.mem_range.mp hc, hFc⟩
    have hblockP : ∀ c l, c < C →
        _filter_detections cfg boxes (cls.map (fun r => r.getD c 0))
          (List.replicate cls.length ((c : ℤ))) = some l →
        ∀ p ∈ l, p.1 < cls.length ∧ p.2 = ((c : ℤ)) ∧
          p.2.toNat < (cls.getD p.1 []).length ∧
          cfg.score_threshold < (cls.getD p.1 []).getD p.2.toNat 0 := by
      intro c l hcC hFc p hp
      obtain ⟨hmem, _, _⟩ := _filter_detections_spec hFc
      obtain ⟨hlt, hthr, hlab⟩ := hmem p hp
      rw [List.length_map] at hlt
      have hlab2 : p.2 = ((c : ℤ)) := by
        rw [hlab, replicate_getD_lt hlt]
      have htn : p.2.toNat = c := by
        rw [hlab2]
        simp
      have hrow : (cls.getD p.1 []).length = C := hC _ (getD_mem hlt)
      refine ⟨hlt, hlab2, ?_, ?_⟩
      · rw [htn, hrow]
        exact hcC
      · rw [htn]
        have := hthr
        rw [getD_map_lt (fun r => r.getD c 0) hlt [] 0] at this
        exact this
    have hlab_block : ∀ (c : ℕ) (l : List (ℕ × ℤ)),
        _filter_detections cfg boxes (cls.map (fun r => r.getD c 0))
          (List.replicate cls.length ((c : ℤ))) = some l →
        ∀ p ∈ l, p.2 = ((c : ℤ)) := by
      intro c l hFc p hp
      obtain ⟨hmem, _, _⟩ := _filter_detections_spec hFc
      obtain ⟨hlt, _, hlab⟩ := hmem p hp
      rw [List.length_map] at hlt
      rw [hlab, replicate_getD_lt hlt]
    refine ⟨?_, ?_, ?_⟩
    · intro p hp
      rcases List.mem_flatten.mp hp with ⟨l, hl, hpl⟩
      rcases hblock l hl with ⟨c, hcC, hFc⟩
      obtain ⟨h1, h2, h3, h4⟩ := hblockP c l hcC hFc p hpl
      exact ⟨h1, by rw [h2]; exact Int.natCast_nonneg c, h3, h4⟩
    · intro hn
      constructor
      · intro p hp
        rcases List.mem_flatten.mp hp with ⟨l, hl, hpl⟩
        rcases hblock l hl with ⟨c, hcC, hFc⟩
        obtain ⟨_, _, hnms⟩ := _filter_detections_spec hFc
        exact (hnms hn).2 p hpl
      · refine List.pairwise_flatten.mpr ⟨?_, ?_⟩
        · intro l hl
          rcases hblock l hl with ⟨c, hcC, hFc⟩
          obtain ⟨_, _, hnms⟩ := _filter_detections_spec hFc
          refine ((hnms hn).1).imp ?_
          intro a b hij
          exact fun _ => hij
        · refine forall2_pairwise ?_ hf2 (List.pairwise_lt_range C)
          intro c1 c2 l1 l2 hF1 hF2 hlt12 x hx y hy hxy
          have hx2 := hlab_block c1 l1 hF1 x hx
          have hy2 := hlab_block c2 l2 hF2 y hy
          rw [hx2, hy2] at hxy
          have hceq : c1 = c2 := Nat.cast_injective hxy
          exact absurd hceq (Nat.ne_of_lt hlt12)
    · exact fun _ hfalse => absurd hfalse (by simp)
  | false =>
    rw [hcs] at h
    simp only [Bool.false_eq_true, if_false] at h
    by_cases hc0 : C = 0
    · rw [if_pos hc0] at h
      cases h
    · rw [if_neg hc0] at h
      obtain ⟨hmem, hnd, hnms⟩ := _filter_detections_spec h
      have hmem2 : ∀ p ∈ out, p.1 < cls.length ∧ 0 ≤ p.2 ∧
          p.2.toNat < (cls.getD p.1 []).length ∧
          cfg.score_threshold < (cls.getD p.1 []).getD p.2.toNat 0 := by
        intro p hp
        obtain ⟨hlt, hthr, hlab⟩ := hmem p hp
        rw [List.length_map] at hlt
        have hrowlen : (cls.getD p.1 []).length = C := hC _ (getD_mem hlt)
        have hrowne : cls.getD p.1 [] ≠ [] := by
          intro hce
          rw [hce] at hrowlen
          exact hc0 hrowlen.symm
        obtain ⟨harg, hval⟩ := rowArgmax_spec hrowne
        have hlab2 : p.2 = ((rowArgmax (cls.getD p.1 []) : ℤ)) := by
          rw [hlab, getD_map_lt (fun r => ((rowArgmax r : ℤ))) hlt [] (-1)]
        have htn : p.2.toNat = rowArgmax (cls.getD p.1 []) := by
          rw [hlab2]
          simp
        refine ⟨hlt, by rw [hlab2]; exact Int.natCast_nonneg _, ?_, ?_⟩
        · rw [htn]
          exact harg
        · rw [htn, hval]
          have := hthr
          rw [getD_map_lt rowMax hlt [] 0] at this
          exact this
      refine ⟨hmem2, ?_, ?_⟩
      · intro hn
        refine ⟨(hnms hn).2, ((hnms hn).1).imp ?_⟩
        intro a b hij
        exact fun _ => hij
      · intro hn _
        exact (hnms hn).1

theorem zip_getD {α β : Type} {l1 : List α} {l2 : List β} {i : ℕ} (h1 : i < l1.length)
    (h2 : i < l2.length) (d1 : α) (d2 : β) :
    (l1.zip l2).getD i (d1, d2) = (l1.getD i d1, l2.getD i d2) := by
  have hz : i < (l1.zip l2).length := by
    rw [List.length_zip]
    omega
  rw [List.getD_eq_getElem _ _ hz, List.getD_eq_getElem _ _ h1, List.getD_eq_getElem _ _ h2]
  exact List.getElem_zip

/-- Output characterization of the dynamic-shape filter_detections: a
successful run selects top-k positions tpos into the merged candidate set
(k = min(max_detections, number of candidates)), emits the gathered scores,
labels, boxes and side channels at those candidates in score-descending order
with ties broken by ascending candidate position, pads every field with
sentinels up to max_detections rows, and the selected positions dominate every
unselected candidate by score (ties again by position). -/
theorem filter_detections_spec {cfg : FDConfig} {boxes : List Box} {C : ℕ}
    {cls : List (List ℚ)} {other : List OtherT} {out : FDOut}
    (h : filter_detections cfg boxes C cls other = some out) :
    ∃ (merged : List (ℕ × ℤ)) (tpos : List ℕ),
      fdMerged cfg boxes C cls = some merged ∧
      0 ≤ cfg.max_detections ∧
      tpos.length = min cfg.max_detections.toNat merged.length ∧
      (∀ t ∈ tpos, t < merged.length) ∧
      tpos.Nodup ∧
      out.scores = tpos.map (fun t => gatherScore cls (merged.getD t (0, 0))) ++
        List.replicate (cfg.max_detections.toNat - tpos.length) (-1) ∧
      out.labels = tpos.map (fun t => (merged.getD t (0, 0)).2) ++
        List.replicate (cfg.max_detections.toNat - tpos.length) (-1) ∧
      out.boxes = tpos.map (fun t => boxes.getD (merged.getD t (0, 0)).1 sentinelBox) ++
        List.replicate (cfg.max_detections.toNat - tpos.length) sentinelBox ∧
      out.others.length = other.length ∧
      (∀ k, k < other.length → out.others.getD k [] =
        tpos.map (fun t => (other.getD k ⟨0, []⟩).data.getD (merged.getD t (0, 0)).1 []) ++
          List.replicate (cfg.max_detections.toNat - tpos.length)
            (List.replicate (other.getD k ⟨0, []⟩).w (-1))) ∧
      tpos.Pairwise (fun t1 t2 =>
        gatherScore cls (merged.getD t2 (0, 0)) < gatherScore cls (merged.getD t1 (0, 0)) ∨
        (gatherScore cls (merged.getD t2 (0, 0)) = gatherScore cls (merged.getD t1 (0, 0)) ∧
          t1 < t2)) ∧
      (∀ j, j < merged.length → j ∉ tpos → ∀ t ∈ tpos,
        gatherScore cls (merged.getD j (0, 0)) < gatherScore cls (merged.getD t (0, 0)) ∨
        (gatherScore cls (merged.getD j (0, 0)) = gatherScore cls (merged.getD t (0, 0)) ∧
          t < j)) := by
  unfold filter_detections at h
  simp only [Option.pure_def, Option.bind_eq_bind] at h
  rcases Option.bind_eq_some.mp h with ⟨merged, hm, h⟩
  rcases Option.bind_eq_some.mp h with ⟨scoresVec, hsv, h⟩
  rcases Option.bind_eq_some.mp h with ⟨⟨vals, poss⟩, htk, h⟩
  rcases Option.bind_eq_some.mp h with ⟨boxes_sel, hbs, h⟩
  rcases Option.bind_eq_some.mp h with ⟨other_sel, hos, h⟩
  simp only [Option.some.injEq] at h
  subst h
  obtain ⟨hk0, hkle, hvals, hposs⟩ := tf_top_k_some htk
  have hmd0 : 0 ≤ cfg.max_detections := le_trans hk0 (min_le_left _ _)
  have hsvlen : scoresVec.length = merged.length := mapM_some_length hsv
  have hsveq : scoresVec = merged.map (gatherScore cls) := by
    refine forall2_eq_map ?_ (mapM_some_forall2 hsv)
    intro p v hpv
    rcases Option.bind_eq_some.mp hpv with ⟨r, hr, hrv⟩
    have h1 : cls.getD p.1 [] = r := by
      rw [List.getD_eq_getElem?_getD, hr]
      rfl
    have h2 : r.getD p.2.toNat 0 = v := by
      rw [List.getD_eq_getElem?_getD, hrv]
      rfl
    simp only [gatherScore]
    rw [h1, h2]
  have hselmem : ∀ q ∈ topkAux (min cfg.max_detections
      ((scoresVec.length : ℤ))).toNat scoresVec.enum, q.1 < merged.length := by
    intro q hq
    have := (mem_enum_getD (d := 0) (topkAux_subset hq)).1
    omega
  have hqval : ∀ q ∈ topkAux (min cfg.max_detections
      ((scoresVec.length : ℤ))).toNat scoresVec.enum,
      q.2 = gatherScore cls (merged.getD q.1 (0, 0)) := by
    intro q hq
    obtain ⟨hlt, hget⟩ := mem_enum_getD (d := 0) (topkAux_subset hq)
    rw [← hget, hsveq, getD_map_lt (gatherScore cls) (hselmem q hq) (0, 0) 0]
  have hposlen : poss.length = min cfg.max_detections.toNat merged.length := by
    rw [hposs, List.length_map, topkAux_length, List.enum_length, hsvlen]
    omega
  have hvalslen : vals.length = poss.length := by
    rw [hvals, hposs, List.length_map, List.length_map]
  have hposmem : ∀ t ∈ poss, t < merged.length := by
    intro t ht
    rw [hposs] at ht
    rcases List.mem_map.mp ht with ⟨q, hq, hqt⟩
    subst hqt
    exact hselmem q hq
  have hvals2 : vals = poss.map (fun t => gatherScore cls (merged.getD t (0, 0))) := by
    rw [hvals, hposs, List.map_map]
    exact List.map_congr_left hqval
  have hpad : ((cfg.max_detections - ((vals.length : ℤ))).toNat) =
      cfg.max_detections.toNat - poss.length := by
    rw [hvalslen]
    omega
  have hgind : poss.map (fun t => (merged.map (fun p => p.1)).getD t 0) =
      poss.map (fun t => (merged.getD t (0, 0)).1) := by
    refine List.map_congr_left ?_
    intro t ht
    rw [getD_map_lt (fun p => p.1) (hposmem t ht) (0, 0) 0]
  have hbs2 : boxes_sel = poss.map
      (fun t => boxes.getD (merged.getD t (0, 0)).1 sentinelBox) := by
    have h0 := forall2_eq_map (g := fun i => boxes.getD i sentinelBox) ?_ (mapM_some_forall2 hbs)
    · rw [h0, hgind, List.map_map]
      rfl
    · intro i v hiv
      show v = boxes.getD i sentinelBox
      rw [List.getD_eq_getElem?_getD, hiv]
      rfl
  refine ⟨merged, poss, hm, hmd0, hposlen, hposmem, ?_, ?_, ?_, ?_, ?_, ?_, ?_, ?_⟩
  · rw [hposs]
    exact topkAux_fst_nodup (enum_fst_nodup scoresVec)
  · simp only []
    rw [hpad, hvals2]
  · simp only []
    rw [hpad]
    congr 1
    refine List.map_congr_left ?_
    intro t ht
    rw [getD_map_lt (fun p => p.2) (hposmem t ht) (0, 0) (-1)]
  · simp only []
    rw [hpad, hbs2]
  · simp only [List.length_map, List.length_zip, mapM_some_length hos]
    omega
  · intro k hk
    have hosel_len : other_sel.length = other.length := mapM_some_length hos
    have hzlen : k < (other.zip other_sel).length := by
      rw [List.length_zip]
      omega
    have hko : other[k]? = some (other.getD k ⟨0, []⟩) := by
      rw [List.getElem?_eq_getElem hk, List.getD_eq_getElem _ _ hk]
    have hks : other_sel[k]? = some (other_sel.getD k []) := by
      rw [List.getElem?_eq_getElem (show k < other_sel.length by omega),
        List.getD_eq_getElem _ _ (show k < other_sel.length by omega)]
    have hksel := forall2_getElem (mapM_some_forall2 hos) hko hks
    have hksel2 : other_sel.getD k [] = poss.map
        (fun t => (other.getD k ⟨0, []⟩).data.getD (merged.getD t (0, 0)).1 []) := by
      have h0 := forall2_eq_map
        (g := fun i => (other.getD k ⟨0, []⟩).data.getD i []) ?_ (mapM_some_forall2 hksel)
      · rw [h0, hgind, List.map_map]
        rfl
      · intro i v hiv
        show v = (other.getD k ⟨0, []⟩).data.getD i []
        rw [List.getD_eq_getElem?_getD, hiv]
        rfl
    simp only []
    rw [getD_map_lt _ hzlen ((⟨0, []⟩ : OtherT), ([] : List (List ℚ))) []]
    rw [zip_getD hk (show k < other_sel.length by omega) (⟨0, []⟩ : OtherT)
      ([] : List (List ℚ))]
    show other_sel.getD k [] ++ List.replicate (cfg.max_detections -
      ((vals.length : ℤ))).toNat (List.replicate (other.getD k ⟨0, []⟩).w (-1)) = _
    rw [hpad, hksel2]
  · have hstrict := topkAux_strict (k := (min cfg.max_detections
        ((scoresVec.length : ℤ))).toNat) (enum_pairwise_fst scoresVec)
    have hstrict2 : (topkAux (min cfg.max_detections
        ((scoresVec.length : ℤ))).toNat scoresVec.enum).Pairwise (fun p q =>
        gatherScore cls (merged.getD q.1 (0, 0)) < gatherScore cls (merged.getD p.1 (0, 0)) ∨
        (gatherScore cls (merged.getD q.1 (0, 0)) = gatherScore cls (merged.getD p.1 (0, 0)) ∧
          p.1 < q.1)) := by
      refine hstrict.imp_of_mem (fun {p q} hp hq hpq => ?_)
      rw [← hqval p hp, ← hqval q hq]
      exact hpq
    rw [hposs]
    exact List.pairwise_map.mpr hstrict2
  · intro j hj hjnot t ht
    have hj2 : j < scoresVec.length := by omega
    have hq : scoresVec[j]? = some (scoresVec.getD j 0) := by
      rw [List.getElem?_eq_getElem hj2, List.getD_eq_getElem _ _ hj2]
    have hqen : ((j, scoresVec.getD j 0) : ℕ × ℚ) ∈ scoresVec.enum :=
      List.mem_enum_iff_getElem?.mpr hq
    have hqnot : ((j, scoresVec.getD j 0) : ℕ × ℚ) ∉ topkAux (min cfg.max_detections
        ((scoresVec.length : ℤ))).toNat scoresVec.enum := by
      intro hmem
      apply hjnot
      rw [hposs]
      exact List.mem_map.mpr ⟨_, hmem, rfl⟩
    rw [hposs] at ht
    rcases List.mem_map.mp ht with ⟨p, hp, hpt⟩
    have hdom := topkAux_dominate_tie (enum_pairwise_fst scoresVec) hqen hqnot p hp
    have hjval : scoresVec.getD j 0 = gatherScore cls (merged.getD j (0, 0)) := by
      rw [hsveq, getD_map_lt (gatherScore cls) hj (0, 0) 0]
    have hpval := hqval p hp
    subst hpt
    rcases hdom with hlt | ⟨heq, hlt⟩
    · left
      rw [← hjval, ← hpval]
      exact hlt
    · right
      constructor
      · rw [← hjval, ← hpval]
        exact heq
      · exact hlt

theorem mapM_total {α β : Type} (f : α → Option β) :
    ∀ (xs : List α), (∀ a ∈ xs, ∃ b, f a = some b) → ∃ ys, xs.mapM f = some ys := by
  intro xs
  induction xs with
  | nil => intro _; exact ⟨[], rfl⟩
  | cons a t ih =>
    intro h
    rcases h a (List.mem_cons_self _ _) with ⟨b, hb⟩
    rcases ih (fun x hx => h x (List.mem_cons_of_mem _ hx)) with ⟨ys, hys⟩
    exact ⟨b :: ys, mapM_some_cons.mpr ⟨b, ys, hb, hys, rfl⟩⟩

/-- The inner dynamic filter succeeds whenever the boxes tensor covers the
score tensor (the only fallible step is the gather of surviving boxes). -/
theorem _filter_detections_total {cfg : FDConfig} {boxes : List Box} {scores : List ℚ}
    {labels : List ℤ} (hlen : scores.length ≤ boxes.length) :
    ∃ out, _filter_detections cfg boxes scores labels = some out := by
  unfold _filter_detections
  cases hn : cfg.nms with
  | false =>
    simp only [Bool.false_eq_true, if_false, Option.pure_def, Option.bind_eq_bind,
      Option.some_bind]
    exact ⟨_, rfl⟩
  | true =>
    obtain ⟨fb, hfb⟩ := mapM_total (fun i => boxes[i]?)
      ((List.range scores.length).filter
        (fun i => decide (cfg.score_threshold < scores.getD i 0)))
      (fun i hi => ⟨_, List.getElem?_eq_getElem
        (lt_of_lt_of_le (whereGreater_mem.mp hi).1 hlen)⟩)
    simp only [if_true, Option.pure_def, Option.bind_eq_bind]
    rw [hfb]
    simp only [Option.some_bind]
    exact ⟨_, rfl⟩

/-- The merge step succeeds whenever boxes covers the classification rows and
there is at least one class. -/
theorem fdMerged_total {cfg : FDConfig} {boxes : List Box} {C : ℕ}
    {cls : List (List ℚ)} (hb : cls.length ≤ boxes.length) (hC0 : 0 < C) :
    ∃ merged, fdMerged cfg boxes C cls = some merged := by
  unfold fdMerged
  cases hcs : cfg.class_specific_filter with
  | true =>
    simp only [if_true, Option.bind_eq_bind]
    obtain ⟨all, hall⟩ := mapM_total
      (fun c : ℕ => _filter_detections cfg boxes (cls.map (fun r => r.getD c 0))
        (List.replicate cls.length ((c : ℤ))))
      (List.range C)
      (fun c _ => _filter_detections_total (by rw [List.length_map]; exact hb))
    rw [hall]
    simp only [Option.some_bind]
    have hne : all.isEmpty = false := by
      have hlen : all.length = C := by
        rw [mapM_some_length hall, List.length_range]
      cases all with
      | nil =>
        simp at hlen
        omega
      | cons a t => rfl
    rw [hne]
    simp only [Bool.false_eq_true, if_false, Option.pure_def]
    exact ⟨_, rfl⟩
  | false =>
    simp only [Bool.false_eq_true, if_false]
    rw [if_neg (show ¬ C = 0 by omega)]
    exact _filter_detections_total (by rw [List.length_map]; exact hb)

/-- The dynamic-shape pipeline succeeds on any well-formed input: nonnegative
max_detections, rows of static width C > 0, and boxes and side channels
covering the classification rows. -/
theorem filter_detections_total {cfg : FDConfig} {boxes : List Box} {C : ℕ}
    {cls : List (List ℚ)} {other : List OtherT} (hmd : 0 ≤ cfg.max_detections)
    (hC : ClsWF C cls) (hC0 : 0 < C) (hb : cls.length ≤ boxes.length)
    (ho : ∀ o ∈ other, cls.length ≤ o.data.length) :
    ∃ out, filter_detections cfg boxes C cls other = some out := by
  obtain ⟨merged, hm⟩ := fdMerged_total hb hC0
  have hprops := (fdMerged_spec hC hm).1
  obtain ⟨sv, hsv⟩ := mapM_total
    (fun p : ℕ × ℤ => cls[p.1]?.bind (fun r => r[p.2.toNat]?)) merged
    (fun p hp => by
      obtain ⟨h1, _, h3, _⟩ := hprops p hp
      refine ⟨(cls[p.1]).getD p.2.toNat 0, ?_⟩
      show cls[p.1]?.bind (fun r => r[p.2.toNat]?) = some ((cls[p.1]).getD p.2.toNat 0)
      rw [List.getElem?_eq_getElem h1, Option.some_bind]
      have h3b : p.2.toNat < (cls[p.1]).length := by
        rw [List.getD_eq_getElem _ _ h1] at h3
        exact h3
      rw [List.getElem?_eq_getElem h3b, List.getD_eq_getElem _ _ h3b])
  have hsvlen : sv.length = merged.length := mapM_some_length hsv
  have htk : tf_top_k sv (min cfg.max_detections ((sv.length : ℤ))) =
      some ((topkAux (min cfg.max_detections ((sv.length : ℤ))).toNat sv.enum).map Prod.snd,
        (topkAux (min cfg.max_detections ((sv.length : ℤ))).toNat sv.enum).map Prod.fst) := by
    unfold tf_top_k
    rw [if_neg (by omega)]
  have hposmem : ∀ t ∈ (topkAux (min cfg.max_detections
      ((sv.length : ℤ))).toNat sv.enum).map Prod.fst, t < merged.length := by
    intro t ht
    rcases List.mem_map.mp ht with ⟨q, hq, hqt⟩
    subst hqt
    have := (mem_enum_getD (d := 0) (topkAux_subset hq)).1
    omega
  have hgmem : ∀ i ∈ ((topkAux (min cfg.max_detections
      ((sv.length : ℤ))).toNat sv.enum).map Prod.fst).map
        (fun t => (merged.map (fun p => p.1)).getD t 0), i < cls.length := by
    intro i hi
    rcases List.mem_map.mp hi with ⟨t, ht, hti⟩
    subst hti
    rw [getD_map_lt (fun p => p.1) (hposmem t ht) (0, 0) 0]
    exact (hprops _ (getD_mem (hposmem t ht))).1
  obtain ⟨bs, hbs⟩ := mapM_total (fun i => boxes[i]?)
    (((topkAux (min cfg.max_detections ((sv.length : ℤ))).toNat sv.enum).map Prod.fst).map
      (fun t => (merged.map (fun p => p.1)).getD t 0))
    (fun i hi => ⟨_, List.getElem?_eq_getElem (lt_of_lt_of_le (hgmem i hi) hb)⟩)
  obtain ⟨os, hos⟩ := mapM_total
    (fun o : OtherT => (((topkAux (min cfg.max_detections
      ((sv.length : ℤ))).toNat sv.enum).map Prod.fst).map
        (fun t => (merged.map (fun p => p.1)).getD t 0)).mapM (fun i => o.data[i]?))
    other
    (fun o hoo => mapM_total (fun i => o.data[i]?) _
      (fun i hi => ⟨_, List.getElem?_eq_getElem
        (lt_of_lt_of_le (hgmem i hi) (ho o hoo))⟩))
  unfold filter_detections
  simp only [Option.pure_def, Option.bind_eq_bind]
  rw [hm, Option.some_bind, hsv, Option.some_bind, htk, Option.some_bind]
  rw [hbs, Option.some_bind, hos, Option.some_bind]
  exact ⟨_, rfl⟩

/-! Error paths: guards of tf.nn.top_k and their propagation. -/

theorem forall2_mem_left {α β : Type} {S : α → β → Prop} :
    ∀ {xs : List α} {ys : List β}, List.Forall₂ S xs ys → ∀ x ∈ xs, ∃ y ∈ ys, S x y := by
  intro xs ys h
  induction h with
  | nil => intro x hx; simp at hx
  | cons hab htail ih =>
    intro x hx
    rcases List.mem_cons.mp hx with hx | hx
    · subst hx
      exact ⟨_, List.mem_cons_self _ _, hab⟩
    · rcases ih x hx with ⟨y, hy, hSy⟩
      exact ⟨y, List.mem_cons_of_mem _ hy, hSy⟩

theorem mapM_none_of_mem {α β : Type} {f : α → Option β} {l : List α} {a : α}
    (ha : a ∈ l) (h : f a = none) : l.mapM f = none := by
  cases hm : l.mapM f with
  | none => rfl
  | some ys =>
    rcases forall2_mem_left (mapM_some_forall2 hm) a ha with ⟨b, _, hb⟩
    rw [h] at hb
    cases hb

theorem zip3_nil {α β γ : Type} (b : List β) (c : List γ) :
    zip3 ([] : List α) b c = [] := rfl

theorem zip3_getD_mem {α β γ : Type} :
    ∀ {a : List α} {b : List β} {c : List γ} {i : ℕ},
      i < a.length → i < b.length → i < c.length → ∀ (da : α) (db : β) (dc : γ),
      (a.getD i da, b.getD i db, c.getD i dc) ∈ zip3 a b c := by
  intro a
  induction a with
  | nil =>
    intro b c i ha
    simp at ha
  | cons a0 as ih =>
    intro b c i ha hb hc da db dc
    cases b with
    | nil => simp at hb
    | cons b0 bs =>
      cases c with
      | nil => simp at hc
      | cons c0 cs =>
        cases i with
        | zero =>
          simp only [List.getD_cons_zero]
          show (a0, b0, c0) ∈ (a0, b0, c0) :: zip3 as bs cs
          exact List.mem_cons_self _ _
        | succ n =>
          simp only [List.getD_cons_succ]
          have hmem := ih (by simpa using ha) (by simpa using hb) (by simpa using hc) da db dc
          show (as.getD n da, bs.getD n db, cs.getD n dc) ∈ (a0, b0, c0) :: zip3 as bs cs
          exact List.mem_cons_of_mem _ hmem

theorem tf_top_k_none {α : Type} [LinearOrder α] [DecidableEq α] {xs : List α} {k : ℤ}
    (h : k < 0 ∨ ((xs.length : ℤ)) < k) : tf_top_k xs k = none := by
  unfold tf_top_k
  rw [if_pos h]

theorem sbs_indices_topk_none {cfg : FDConfig} {scores : List EScore} {boxesA : List Box}
    {osz : ℤ} (h : osz < 0 ∨ ((scores.length : ℤ)) < osz) :
    sbs_indices cfg scores boxesA osz false = none := by
  unfold sbs_indices
  simp only [Bool.false_eq_true, if_false]
  rw [tf_top_k_none h]

theorem sort_by_scores_topk_none {cfg : FDConfig} {scores : List EScore} {boxesA : List Box}
    {labelsA : List ℤ} {osz : ℤ} (h : osz < 0 ∨ ((scores.length : ℤ)) < osz) :
    _sort_by_scores cfg scores boxesA labelsA osz false = none := by
  unfold _sort_by_scores
  rw [sbs_indices_topk_none h]
  rfl

theorem pre_exclude_none {cfg : FDConfig} {e : List EScore × List Box × List ℤ}
    (h : cfg.max_detections * 2 < 0 ∨ ((e.1.length : ℤ)) < cfg.max_detections * 2) :
    _pre_exclude cfg e = none := by
  unfold _pre_exclude
  exact sort_by_scores_topk_none h

theorem sort_topk_none {cfg : FDConfig} {e : List EScore × List Box × List ℤ}
    (h : cfg.max_detections < 0 ∨ ((e.1.length : ℤ)) < cfg.max_detections) :
    _sort_by_1st_arg_using_topk cfg e = none := by
  unfold _sort_by_1st_arg_using_topk
  exact sort_by_scores_topk_none h

/-- With zero classes in class-specific mode, the static-shape variant maps
over no rows and the final merge top_k asks for max_detections elements of an
empty score vector: it fails whenever max_detections is not exactly 0. -/
theorem filter_detections_tpu_zero_specific {cfg : FDConfig} {boxes : List Box}
    {cls : List (List ℚ)} (hcs : cfg.class_specific_filter = true)
    (hmd : cfg.max_detections < 0 ∨ 0 < cfg.max_detections) :
    filter_detections_tpu cfg boxes 0 cls = none := by
  unfold filter_detections_tpu
  rw [hcs]
  simp only [if_true, Option.pure_def, Option.bind_eq_bind, Option.some_bind]
  simp only [scores_adapt_specific, labels_specific, List.range_zero, List.map_nil]
  rw [zip3_nil]
  simp only [List.mapM_nil, Option.pure_def, Option.some_bind, List.map_nil,
    List.flatten_nil]
  rw [sort_topk_none (by
    rcases hmd with hmd | hmd
    · exact Or.inl hmd
    · exact Or.inr (by simp only [List.length_nil]; omega))]
  rfl

/-- Failure of the static-shape variant: a negative max_detections, or fewer
than 2 x max_detections - 1 anchors (so that the pre-exclude top-k cannot
request 2 x max_detections of the n_anchor + 1 scores), makes the pipeline
raise. -/
theorem filter_detections_tpu_fails {cfg : FDConfig} {boxes : List Box} {C : ℕ}
    {cls : List (List ℚ)}
    (h : cfg.max_detections < 0 ∨ ((cls.length : ℤ)) + 1 < cfg.max_detections * 2) :
    filter_detections_tpu cfg boxes C cls = none := by
  cases hcs : cfg.class_specific_filter with
  | true =>
    by_cases hC : C = 0
    · subst hC
      exact filter_detections_tpu_zero_specific hcs (by omega)
    · unfold filter_detections_tpu
      rw [hcs]
      simp only [if_true, Option.pure_def, Option.bind_eq_bind, Option.some_bind]
      have hsalen : (scores_adapt_specific C cls).length = C := by
        simp [scores_adapt_specific]
      have hlablen : ((labels_specific C cls.length).map
          (fun l => l ++ [(-1 : ℤ)])).length = C := by
        simp [labels_specific]
      have hrowlen : ((scores_adapt_specific C cls).getD 0 []).length = cls.length + 1 := by
        simp only [scores_adapt_specific]
        rw [getD_map_lt _ (by simp only [List.length_range]; omega) 0 []]
        simp [scores_with_dummy]
      have he := zip3_getD_mem (a := scores_adapt_specific C cls)
        (b := List.replicate (scores_adapt_specific C cls).length (boxes ++ [zeroBox]))
        (c := (labels_specific C cls.length).map (fun l => l ++ [(-1 : ℤ)]))
        (i := 0) (by omega) (by simp only [List.length_replicate]; omega) (by omega)
        [] (boxes ++ [zeroBox]) []
      have hpre : _pre_exclude cfg ((scores_adapt_specific C cls).getD 0 [],
          (List.replicate (scores_adapt_specific C cls).length
            (boxes ++ [zeroBox])).getD 0 (boxes ++ [zeroBox]),
          ((labels_specific C cls.length).map (fun l => l ++ [(-1 : ℤ)])).getD 0 []) =
          none := by
        refine pre_exclude_none ?_
        rcases h with h | h
        · exact Or.inl (by omega)
        · refine Or.inr ?_
          simp only [hrowlen]
          push_cast
          omega
      have hmm : (zip3 (scores_adapt_specific C cls)
          (List.replicate (scores_adapt_specific C cls).length (boxes ++ [zeroBox]))
          ((labels_specific C cls.length).map (fun l => l ++ [(-1 : ℤ)]))).mapM
          (fun e => _pre_exclude cfg e) = none :=
        mapM_none_of_mem he hpre
      rw [hmm]
      rfl
  | false =>
    unfold filter_detections_tpu
    rw [hcs]
    simp only [Bool.false_eq_true, if_false]
    by_cases hC : C = 0
    · rw [if_pos hC]
      rfl
    · rw [if_neg hC]
      simp only [Option.pure_def, Option.bind_eq_bind, Option.some_bind]
      have hrowlen : ((scores_adapt_agnostic C cls).getD 0 []).length = cls.length + 1 := by
        simp [scores_adapt_agnostic, scores_with_dummy]
      have hsalen : (scores_adapt_agnostic C cls).length = 1 := by
        simp [scores_adapt_agnostic]
      have hlablen : ((labels_agnostic cls).map (fun l => l ++ [(-1 : ℤ)])).length = 1 := by
        simp [labels_agnostic]
      have he := zip3_getD_mem (a := scores_adapt_agnostic C cls)
        (b := List.replicate (scores_adapt_agnostic C cls).length (boxes ++ [zeroBox]))
        (c := (labels_agnostic cls).map (fun l => l ++ [(-1 : ℤ)]))
        (i := 0) (by omega) (by simp only [List.length_replicate]; omega) (by omega)
        [] (boxes ++ [zeroBox]) []
      have hpre : _pre_exclude cfg ((scores_adapt_agnostic C cls).getD 0 [],
          (List.replicate (scores_adapt_agnostic C cls).length
            (boxes ++ [zeroBox])).getD 0 (boxes ++ [zeroBox]),
          ((labels_agnostic cls).map (fun l => l ++ [(-1 : ℤ)])).getD 0 []) = none := by
        refine pre_exclude_none ?_
        rcases h with h | h
        · exact Or.inl (by omega)
        · refine Or.inr ?_
          simp only [hrowlen]
          push_cast
          omega
      have hmm : (zip3 (scores_adapt_agnostic C cls)
          (List.replicate (scores_adapt_agnostic C cls).length (boxes ++ [zeroBox]))
          ((labels_agnostic cls).map (fun l => l ++ [(-1 : ℤ)]))).mapM
          (fun e => _pre_exclude cfg e) = none :=
        mapM_none_of_mem he hpre
      rw [hmm]
      rfl

/-- A negative max_detections makes the dynamic pipeline fail at its top-k. -/
theorem filter_detections_neg_md {cfg : FDConfig} {boxes : List Box} {C : ℕ}
    {cls : List (List ℚ)} {other : List OtherT} (hmd : cfg.max_detections < 0) :
    filter_detections cfg boxes C cls other = none := by
  unfold filter_detections
  simp only [Option.pure_def, Option.bind_eq_bind]
  cases hm : fdMerged cfg boxes C cls with
  | none => rfl
  | some merged =>
    rw [Option.some_bind]
    cases hsv : merged.mapM (fun p => cls[p.1]?.bind (fun r => r[p.2.toNat]?)) with
    | none => rfl
    | some sv =>
      rw [Option.some_bind]
      rw [tf_top_k_none (Or.inl (show min cfg.max_detections ((sv.length : ℤ)) < 0 by omega))]
      rfl

/-- With zero classes in class-specific mode the dynamic merge concatenates an
empty list of per-class tensors, which raises. -/
theorem fdMerged_zero_specific {cfg : FDConfig} {boxes : List Box} {cls : List (List ℚ)}
    (hcs : cfg.class_specific_filter = true) : fdMerged cfg boxes 0 cls = none := by
  unfold fdMerged
  rw [hcs]
  rfl

theorem filter_detections_zero_specific {cfg : FDConfig} {boxes : List Box}
    {cls : List (List ℚ)} {other : List OtherT} (hcs : cfg.class_specific_filter = true) :
    filter_detections cfg boxes 0 cls other = none := by
  unfold filter_detections
  simp only [Option.pure_def, Option.bind_eq_bind]
  rw [fdMerged_zero_specific hcs]
  rfl

/-- Row structure of a successful dynamic run: every field has exactly
max_detections rows, and there is a valid count v such that rows past v hold
the sentinel -1 in every field (box coordinates, score, label, side channels)
while rows before v carry a nonnegative label and a score strictly above the
threshold. -/
theorem filter_detections_row_spec {cfg : FDConfig} {boxes : List Box} {C : ℕ}
    {cls : List (List ℚ)} {other : List OtherT} {out : FDOut}
    (hC : ClsWF C cls)
    (h : filter_detections cfg boxes C cls other = some out) :
    out.boxes.length = cfg.max_detections.toNat ∧
    out.scores.length = cfg.max_detections.toNat ∧
    out.labels.length = cfg.max_detections.toNat ∧
    out.others.length = other.length ∧
    (∀ k, k < other.length → (out.others.getD k []).length = cfg.max_detections.toNat) ∧
    ∃ v, v ≤ cfg.max_detections.toNat ∧
      (∀ i, v ≤ i → i < cfg.max_detections.toNat →
        out.boxes.getD i sentinelBox = sentinelBox ∧
        out.scores.getD i 0 = -1 ∧
        out.labels.getD i 0 = -1 ∧
        ∀ k, k < other.length → (out.others.getD k []).getD i [] =
          List.replicate (other.getD k ⟨0, []⟩).w (-1)) ∧
      (∀ i, i < v →
        0 ≤ out.labels.getD i 0 ∧
        cfg.score_threshold < out.scores.getD i 0) := by
  obtain ⟨merged, tpos, hm, hmd0, hlen, hmem, hnd, hsc, hlab, hbox, holen, hoget, htie, hdom⟩ :=
    filter_detections_spec h
  have hprops := (fdMerged_spec hC hm).1
  have hvle : tpos.length ≤ cfg.max_detections.toNat := by omega
  refine ⟨?_, ?_, ?_, holen, ?_, tpos.length, hvle, ?_, ?_⟩
  · rw [hbox, List.length_append, List.length_map, List.length_replicate]
    omega
  · rw [hsc, List.length_append, List.length_map, List.length_replicate]
    omega
  · rw [hlab, List.length_append, List.length_map, List.length_replicate]
    omega
  · intro k hk
    rw [hoget k hk, List.length_append, List.length_map, List.length_replicate]
    omega
  · intro i hvi hile
    refine ⟨?_, ?_, ?_, ?_⟩
    · rw [hbox, List.getD_append_right _ _ _ _ (by rw [List.length_map]; omega),
        List.length_map]
      exact replicate_getD_lt (by omega)
    · rw [hsc, List.getD_append_right _ _ _ _ (by rw [List.length_map]; omega),
        List.length_map]
      exact replicate_getD_lt (by omega)
    · rw [hlab, List.getD_append_right _ _ _ _ (by rw [List.length_map]; omega),
        List.length_map]
      exact replicate_getD_lt (by omega)
    · intro k hk
      rw [hoget k hk, List.getD_append_right _ _ _ _ (by rw [List.length_map]; omega),
        List.length_map]
      exact replicate_getD_lt (by omega)
  · intro i hiv
    have htm : tpos.getD i 0 < merged.length := hmem _ (getD_mem hiv)
    have hpm := hprops (merged.getD (tpos.getD i 0) (0, 0)) (getD_mem htm)
    constructor
    · rw [hlab, List.getD_append _ _ _ _ (by rw [List.length_map]; omega),
        getD_map_lt _ hiv 0 0]
      exact hpm.2.1
    · rw [hsc, List.getD_append _ _ _ _ (by rw [List.length_map]; omega),
        getD_map_lt _ hiv 0 0]
      exact hpm.2.2.2

/-- NMS guarantee of a successful dynamic run: two distinct retained rows
(nonnegative labels) are within the IoU threshold whenever the mode is
class-agnostic, or whenever their labels agree in the class-specific mode. -/
theorem filter_detections_nms_spec {cfg : FDConfig} {boxes : List Box} {C : ℕ}
    {cls : List (List ℚ)} {other : List OtherT} {out : FDOut}
    (hC : ClsWF C cls) (hn : cfg.nms = true)
    (h : filter_detections cfg boxes C cls other = some out) :
    ∀ i1 i2, i1 < cfg.max_detections.toNat → i2 < cfg.max_detections.toNat → i1 ≠ i2 →
      0 ≤ out.labels.getD i1 0 → 0 ≤ out.labels.getD i2 0 →
      (cfg.class_specific_filter = false →
        iou (out.boxes.getD i1 sentinelBox) (out.boxes.getD i2 sentinelBox) ≤
          cfg.nms_threshold) ∧
      (out.labels.getD i1 0 = out.labels.getD i2 0 →
        iou (out.boxes.getD i1 sentinelBox) (out.boxes.getD i2 sentinelBox) ≤
          cfg.nms_threshold) := by
  obtain ⟨merged, tpos, hm, hmd0, hlen, hmem, hnd, hsc, hlab, hbox, holen, hoget, htie, hdom⟩ :=
    filter_detections_spec h
  obtain ⟨hprops, hnms, hnmsA⟩ := fdMerged_spec hC hm
  intro i1 i2 h1 h2 hne hl1 hl2
  have hvalid : ∀ i, i < cfg.max_detections.toNat → 0 ≤ out.labels.getD i 0 →
      i < tpos.length := by
    intro i hi hli
    by_contra hge
    push_neg at hge
    have hsent : out.labels.getD i 0 = -1 := by
      rw [hlab, List.getD_append_right _ _ _ _ (by rw [List.length_map]; omega),
        List.length_map]
      exact replicate_getD_lt (by omega)
    omega
  have hv1 : i1 < tpos.length := hvalid i1 h1 hl1
  have hv2 : i2 < tpos.length := hvalid i2 h2 hl2
  have ht1m : tpos.getD i1 0 < merged.length := hmem _ (getD_mem hv1)
  have ht2m : tpos.getD i2 0 < merged.length := hmem _ (getD_mem hv2)
  have htne : tpos.getD i1 0 ≠ tpos.getD i2 0 := by
    intro hcontra
    apply hne
    have e1 : tpos[i1] = tpos[i2] := by
      rw [← List.getD_eq_getElem tpos 0 hv1, ← List.getD_eq_getElem tpos 0 hv2]
      exact hcontra
    exact (List.Nodup.getElem_inj_iff hnd).mp e1
  have hlab1 : out.labels.getD i1 0 = (merged.getD (tpos.getD i1 0) (0, 0)).2 := by
    rw [hlab, List.getD_append _ _ _ _ (by rw [List.length_map]; omega),
      getD_map_lt _ hv1 0 0]
  have hlab2 : out.labels.getD i2 0 = (merged.getD (tpos.getD i2 0) (0, 0)).2 := by
    rw [hlab, List.getD_append _ _ _ _ (by rw [List.length_map]; omega),
      getD_map_lt _ hv2 0 0]
  have hbox1 : out.boxes.getD i1 sentinelBox =
      boxes.getD (merged.getD (tpos.getD i1 0) (0, 0)).1 sentinelBox := by
    rw [hbox, List.getD_append _ _ _ _ (by rw [List.length_map]; omega),
      getD_map_lt _ hv1 0 sentinelBox]
  have hbox2 : out.boxes.getD i2 sentinelBox =
      boxes.getD (merged.getD (tpos.getD i2 0) (0, 0)).1 sentinelBox := by
    rw [hbox, List.getD_append _ _ _ _ (by rw [List.length_map]; omega),
      getD_map_lt _ hv2 0 sentinelBox]
  constructor
  · intro hcsf
    have hpA := hnmsA hn hcsf
    rw [hbox1, hbox2]
    rw [List.getD_eq_getElem _ _ ht1m, List.getD_eq_getElem _ _ ht2m]
    rcases Nat.lt_or_ge (tpos.getD i1 0) (tpos.getD i2 0) with hlt | hge
    · exact List.pairwise_iff_getElem.mp hpA _ _ ht1m ht2m hlt
    · have hlt2 : tpos.getD i2 0 < tpos.getD i1 0 := by omega
      rw [iou_comm]
      exact List.pairwise_iff_getElem.mp hpA _ _ ht2m ht1m hlt2
  · intro heq
    have heq2 : (merged.getD (tpos.getD i1 0) (0, 0)).2 =
        (merged.getD (tpos.getD i2 0) (0, 0)).2 := by
      rw [← hlab1, ← hlab2]
      exact heq
    have hpS := (hnms hn).2
    rw [hbox1, hbox2]
    rw [List.getD_eq_getElem _ _ ht1m, List.getD_eq_getElem _ _ ht2m]
    rw [List.getD_eq_getElem _ _ ht1m, List.getD_eq_getElem _ _ ht2m] at heq2
    rcases Nat.lt_or_ge (tpos.getD i1 0) (tpos.getD i2 0) with hlt | hge
    · exact List.pairwise_iff_getElem.mp hpS _ _ ht1m ht2m hlt heq2
    · have hlt2 : tpos.getD i2 0 < tpos.getD i1 0 := by omega
      rw [iou_comm]
      exact List.pairwise_iff_getElem.mp hpS _ _ ht2m ht1m hlt2 heq2.symm

/-- Degenerate dynamic input with no anchors at all: the run succeeds and
every output row is sentinel. -/
theorem filter_detections_empty {cfg : FDConfig} {C : ℕ} (hmd : 0 ≤ cfg.max_detections)
    (hC0 : 0 < C) :
    filter_detections cfg [] C [] [] =
      some ⟨List.replicate cfg.max_detections.toNat sentinelBox,
            List.replicate cfg.max_detections.toNat (-1),
            List.replicate cfg.max_detections.toNat (-1), []⟩ := by
  have hex : ∃ out, filter_detections cfg [] C [] [] = some out :=
    filter_detections_total hmd (fun r hr => absurd hr (List.not_mem_nil r)) hC0
      (le_refl _) (fun o ho => absurd ho (List.not_mem_nil o))
  obtain ⟨out, hout⟩ := hex
  obtain ⟨merged, tpos, hm, _, hlen, hmem, _, hsc, hlab, hbox, holen, _, _, _⟩ :=
    filter_detections_spec hout
  have hmerged : merged = [] := by
    cases merged with
    | nil => rfl
    | cons p t =>
      have := ((fdMerged_spec (C := C) (by intro r hr; simp at hr) hm).1 p
        (List.mem_cons_self _ _)).1
      simp at this
  subst hmerged
  have htnil : tpos = [] := by
    refine List.eq_nil_of_length_eq_zero ?_
    simp only [List.length_nil] at hlen
    omega
  subst htnil
  rw [hout]
  obtain ⟨ob, os, ol, oo⟩ := out
  simp only [List.map_nil, List.nil_append, List.length_nil, Nat.sub_zero] at hsc hlab hbox holen
  have hoo : oo = [] := List.eq_nil_of_length_eq_zero holen
  rw [hsc, hlab, hbox, hoo]

/-- Dynamic input whose scores are all at or below the threshold: the run
succeeds, no candidate survives, and every output row is sentinel. -/
theorem filter_detections_no_candidates {cfg : FDConfig} {boxes : List Box} {C : ℕ}
    {cls : List (List ℚ)} {other : List OtherT} (hmd : 0 ≤ cfg.max_detections)
    (hC : ClsWF C cls) (hC0 : 0 < C) (hb : cls.length ≤ boxes.length)
    (ho : ∀ o ∈ other, cls.length ≤ o.data.length)
    (hlow : ∀ r ∈ cls, ∀ s ∈ r, s ≤ cfg.score_threshold) :
    ∃ out, filter_detections cfg boxes C cls other = some out ∧
      out.boxes = List.replicate cfg.max_detections.toNat sentinelBox ∧
      out.scores = List.replicate cfg.max_detections.toNat (-1) ∧
      out.labels = List.replicate cfg.max_detections.toNat (-1) ∧
      out.others.length = other.length ∧
      (∀ k, k < other.length → out.others.getD k [] =
        List.replicate cfg.max_detections.toNat
          (List.replicate (other.getD k ⟨0, []⟩).w (-1))) := by
  obtain ⟨out, hout⟩ := filter_detections_total hmd hC hC0 hb ho
  obtain ⟨merged, tpos, hm, _, hlen, hmem, _, hsc, hlab, hbox, holen, hoget, _, _⟩ :=
    filter_detections_spec hout
  have hmerged : merged = [] := by
    cases merged with
    | nil => rfl
    | cons p t =>
      obtain ⟨h1, _, h3, h4⟩ := (fdMerged_spec hC hm).1 p (List.mem_cons_self _ _)
      have hrow : cls.getD p.1 [] ∈ cls := getD_mem h1
      have hval : (cls.getD p.1 []).getD p.2.toNat 0 ∈ cls.getD p.1 [] := getD_mem h3
      have := hlow _ hrow _ hval
      exact absurd h4 (not_lt.mpr this)
  subst hmerged
  have htnil : tpos = [] := by
    refine List.eq_nil_of_length_eq_zero ?_
    simp only [List.length_nil] at hlen
    omega
  subst htnil
  refine ⟨out, hout, ?_, ?_, ?_, holen, ?_⟩
  · rw [hbox]
    simp
  · rw [hsc]
    simp
  · rw [hlab]
    simp
  · intro k hk
    rw [hoget k hk]
    simp

/-- Degenerate configuration max_detections = 0 on the dynamic path: the run
succeeds and every output field has zero rows. -/
theorem filter_detections_zero_md {cfg : FDConfig} {boxes : List Box} {C : ℕ}
    {cls : List (List ℚ)} {other : List OtherT} (hmd : cfg.max_detections = 0)
    (hC : ClsWF C cls) (hC0 : 0 < C) (hb : cls.length ≤ boxes.length)
    (ho : ∀ o ∈ other, cls.length ≤ o.data.length) :
    ∃ out, filter_detections cfg boxes C cls other = some out ∧
      out.boxes = [] ∧ out.scores = [] ∧ out.labels = [] ∧
      out.others.length = other.length ∧
      (∀ k, k < other.length → out.others.getD k [] = []) := by
  obtain ⟨out, hout⟩ := filter_detections_total (le_of_eq hmd.symm) hC hC0 hb ho
  obtain ⟨hb2, hs2, hl2, ho2, hor2, _⟩ := filter_detections_row_spec hC hout
  have hz : cfg.max_detections.toNat = 0 := by omega
  refine ⟨out, hout, ?_, ?_, ?_, ho2, ?_⟩
  · exact List.eq_nil_of_length_eq_zero (by omega)
  · exact List.eq_nil_of_length_eq_zero (by omega)
  · exact List.eq_nil_of_length_eq_zero (by omega)
  · intro k hk
    exact List.eq_nil_of_length_eq_zero (by rw [hor2 k hk]; omega)

theorem _filter_detections_false_eq {cfg : FDConfig} {boxes : List Box} {scores : List ℚ}
    {labels : List ℤ} (hn : cfg.nms = false) :
    _filter_detections cfg boxes scores labels = some
      (((List.range scores.length).filter
        (fun i => decide (cfg.score_threshold < scores.getD i 0))).map
        (fun i => (i, labels.getD i (-1)))) := by
  unfold _filter_detections
  rw [hn]
  rfl

/-! The claims. -/

/-- C10: the static-shape variant is total only under the unstated
precondition n_anchor + 1 >= 2 * max_detections: its pre-prune stage requests
top-k with k = max_detections * 2 from the dummy-extended score vector of
length n_anchor + 1, so every input with fewer anchors (including zero
anchors) makes filter_detections_tpu fail rather than return a sentinel-padded
output. -/
theorem C10_tpu_needs_two_md_anchors (cfg : FDConfig) (boxes : List Box) (C : ℕ)
    (cls : List (List ℚ)) (h : ((cls.length : ℤ)) + 1 < cfg.max_detections * 2) :
    filter_detections_tpu cfg boxes C cls = none :=
  filter_detections_tpu_fails (Or.inr h)

/-- C10 witness: one class, zero anchors, max_detections 1: the precondition
0 + 1 >= 2 fails and the static-shape call errors. -/
theorem C10_witness :
    ((([] : List (List ℚ)).length : ℤ)) + 1 <
      (⟨true, true, 5, 1, 2⟩ : FDConfig).max_detections * 2 ∧
    filter_detections_tpu ⟨true, true, 5, 1, 2⟩ [] 1 [] = none :=
  ⟨by decide, C10_tpu_needs_two_md_anchors ⟨true, true, 5, 1, 2⟩ [] 1 [] (by decide)⟩

/-- C8 counterexample: a shape mismatch along the anchor dimension is not
rejected: with two boxes but one classification row the dynamic call succeeds
and silently ignores the second box. -/
theorem C8_counterexample :
    filter_detections ⟨true, true, 5, 1, 2⟩ [⟨0, 0, 10, 10⟩, ⟨1, 1, 2, 2⟩] 1 [[90]] [] =
      some ⟨[⟨0, 0, 10, 10⟩], [90], [0], []⟩ ∧
    [(⟨0, 0, 10, 10⟩ : Box), ⟨1, 1, 2, 2⟩].length ≠ ([[(90 : ℚ)]]).length := by
  exact ⟨by with_unfolding_all decide, by decide⟩

/-- C8 amended: the configuration errors do fail (max_detections < 0 fails on
both paths; zero classes with class-specific filtering fails on the dynamic
path, and on the static path whenever max_detections > 0), but anchor-dimension
shape mismatches are not checked and can be silently truncated. -/
theorem C8_amended :
    (∀ (cfg : FDConfig) (boxes : List Box) (C : ℕ) (cls : List (List ℚ))
        (other : List OtherT), cfg.max_detections < 0 →
        filter_detections cfg boxes C cls other = none) ∧
    (∀ (cfg : FDConfig) (boxes : List Box) (cls : List (List ℚ)) (other : List OtherT),
        cfg.class_specific_filter = true →
        filter_detections cfg boxes 0 cls other = none) ∧
    (∀ (cfg : FDConfig) (boxes : List Box) (C : ℕ) (cls : List (List ℚ)),
        cfg.max_detections < 0 → filter_detections_tpu cfg boxes C cls = none) ∧
    (∀ (cfg : FDConfig) (boxes : List Box) (cls : List (List ℚ)),
        cfg.class_specific_filter = true → 0 < cfg.max_detections →
        filter_detections_tpu cfg boxes 0 cls = none) :=
  ⟨fun cfg boxes C cls other h => filter_detections_neg_md h,
   fun cfg boxes cls other h => filter_detections_zero_specific h,
   fun cfg boxes C cls h => filter_detections_tpu_fails (Or.inl h),
   fun cfg boxes cls h1 h2 => filter_detections_tpu_zero_specific h1 (Or.inr h2)⟩

/-- C8 witness: concrete instances of the four error cases of the amended
claim. -/
theorem C8_witness :
    filter_detections ⟨true, true, 5, -1, 2⟩ [⟨0, 0, 10, 10⟩] 1 [[90]] [] = none ∧
    filter_detections ⟨true, true, 5, 3, 2⟩ [⟨0, 0, 10, 10⟩] 0 [[]] [] = none ∧
    filter_detections_tpu ⟨true, true, 5, -1, 2⟩ [⟨0, 0, 10, 10⟩] 1 [[90]] = none ∧
    filter_detections_tpu ⟨true, true, 5, 3, 2⟩ [⟨0, 0, 10, 10⟩] 0 [[]] = none :=
  ⟨C8_amended.1 ⟨true, true, 5, -1, 2⟩ _ _ _ _ (by decide),
   C8_amended.2.1 ⟨true, true, 5, 3, 2⟩ _ _ _ rfl,
   C8_amended.2.2.1 ⟨true, true, 5, -1, 2⟩ _ _ _ (by decide),
   C8_amended.2.2.2 ⟨true, true, 5, 3, 2⟩ _ _ rfl (by decide)⟩

/-- C9 counterexample: zero anchors is not error-free: on the static-shape
path the empty input makes the pre-prune top-k request 2 of the 1 entry of the
dummy-extended score vector, so the call raises instead of returning a
sentinel-filled output. -/
theorem C9_counterexample :
    filter_detections_tpu ⟨true, true, 5, 1, 2⟩ [] 2 [] = none := by
  with_unfolding_all decide

/-- C9 amended: on the dynamic path the three degenerate inputs are indeed
error-free: zero anchors and all-below-threshold scores give a fully sentinel
output, max_detections = 0 gives zero rows; but on the static-shape path zero
anchors raises whenever max_detections > 0. -/
theorem C9_amended :
    (∀ (cfg : FDConfig) (C : ℕ), 0 ≤ cfg.max_detections → 0 < C →
      filter_detections cfg [] C [] [] =
        some ⟨List.replicate cfg.max_detections.toNat sentinelBox,
              List.replicate cfg.max_detections.toNat (-1),
              List.replicate cfg.max_detections.toNat (-1), []⟩) ∧
    (∀ (cfg : FDConfig) (boxes : List Box) (C : ℕ) (cls : List (List ℚ))
        (other : List OtherT), 0 ≤ cfg.max_detections → ClsWF C cls → 0 < C →
      cls.length ≤ boxes.length → (∀ o ∈ other, cls.length ≤ o.data.length) →
      (∀ r ∈ cls, ∀ s ∈ r, s ≤ cfg.score_threshold) →
      ∃ out, filter_detections cfg boxes C cls other = some out ∧
        out.boxes = List.replicate cfg.max_detections.toNat sentinelBox ∧
        out.scores = List.replicate cfg.max_detections.toNat (-1) ∧
        out.labels = List.replicate cfg.max_detections.toNat (-1)) ∧
    (∀ (cfg : FDConfig) (boxes : List Box) (C : ℕ) (cls : List (List ℚ))
        (other : List OtherT), cfg.max_detections = 0 → ClsWF C cls → 0 < C →
      cls.length ≤ boxes.length → (∀ o ∈ other, cls.length ≤ o.data.length) →
      ∃ out, filter_detections cfg boxes C cls other = some out ∧
        out.boxes = [] ∧ out.scores = [] ∧ out.labels = []) ∧
    (∀ (cfg : FDConfig) (C : ℕ), 0 < cfg.max_detections →
      filter_detections_tpu cfg [] C [] = none) := by
  refine ⟨?_, ?_, ?_, ?_⟩
  · intro cfg C hmd hC0
    exact filter_detections_empty hmd hC0
  · intro cfg boxes C cls other hmd hC hC0 hb ho hlow
    obtain ⟨out, hout, h1, h2, h3, _, _⟩ :=
      filter_detections_no_candidates hmd hC hC0 hb ho hlow
    exact ⟨out, hout, h1, h2, h3⟩
  · intro cfg boxes C cls other hmd hC hC0 hb ho
    obtain ⟨out, hout, h1, h2, h3, _, _⟩ := filter_detections_zero_md hmd hC hC0 hb ho
    exact ⟨out, hout, h1, h2, h3⟩
  · intro cfg C hmd
    refine filter_detections_tpu_fails (Or.inr ?_)
    simp only [List.length_nil, Nat.cast_zero]
    omega

/-- C9 witness: concrete instances of the four cases of the amended claim:
no anchors (full sentinel), all scores below the threshold (full sentinel),
max_detections 0 (zero rows), and the static-shape failure at zero anchors. -/
theorem C9_witness :
    filter_detections ⟨true, true, 5, 2, 2⟩ [] 3 [] [] =
      some ⟨[sentinelBox, sentinelBox], [-1, -1], [-1, -1], []⟩ ∧
    (∃ out, filter_detections ⟨false, true, 50, 2, 2⟩ [⟨0, 0, 10, 10⟩] 1 [[10]] [] =
      some out ∧ out.boxes = [sentinelBox, sentinelBox] ∧ out.scores = [-1, -1] ∧
      out.labels = [-1, -1]) ∧
    (∃ out, filter_detections ⟨true, false, 5, 0, 2⟩ [⟨0, 0, 10, 10⟩] 1 [[90]] [] =
      some out ∧ out.boxes = [] ∧ out.scores = [] ∧ out.labels = []) ∧
    filter_detections_tpu ⟨false, true, 5, 2, 2⟩ [] 1 [] = none := by
  refine ⟨?_, ?_, ?_, ?_⟩
  · exact C9_amended.1 ⟨true, true, 5, 2, 2⟩ 3 (by decide) (by decide)
  · exact C9_amended.2.1 ⟨false, true, 50, 2, 2⟩ [⟨0, 0, 10, 10⟩] 1 [[10]] []
      (by decide) (by decide) (by decide) (by decide)
      (fun o ho => absurd ho (List.not_mem_nil o)) (by decide)
  · exact C9_amended.2.2.1 ⟨true, false, 5, 0, 2⟩ [⟨0, 0, 10, 10⟩] 1 [[90]] []
      (by decide) (by decide) (by decide) (by decide)
      (fun o ho => absurd ho (List.not_mem_nil o))
  · exact C9_amended.2.2.2 ⟨false, true, 5, 2, 2⟩ 1 (by decide)

/-- C5 counterexample: the one-anchor two-class scenario (both scores above
threshold) only behaves as claimed on the dynamic path: there both labels
appear with max_detections = 2, but the static-shape variant errors on the
same input (it needs n_anchor + 1 >= 2 x max_detections, and 2 < 4), so the
claimed per-class duplicate does not appear in every final output. -/
theorem C5_counterexample :
    filter_detections ⟨true, true, 5, 2, 2⟩ [⟨0, 0, 10, 10⟩] 2 [[90, 85]] [] =
      some ⟨[⟨0, 0, 10, 10⟩, ⟨0, 0, 10, 10⟩], [90, 85], [0, 1], []⟩ ∧
    filter_detections_tpu ⟨true, true, 5, 2, 2⟩ [⟨0, 0, 10, 10⟩] 2 [[90, 85]] = none := by
  exact ⟨by with_unfolding_all decide, by with_unfolding_all decide⟩

/-- C5 amended: on the dynamic path class-specific filtering runs per class:
with NMS off every (anchor, class) pair whose class score passes the threshold
is a candidate of the merged set, so one anchor appears once per passing
class; and in the one-anchor two-class scenario the dynamic path emits both
labels and both rows survive with max_detections = 2.  (The static path needs
n_anchor + 1 >= 2 x max_detections for the same scenario.) -/
theorem C5_amended :
    (∀ (cfg : FDConfig) (boxes : List Box) (C : ℕ) (cls : List (List ℚ))
        (merged : List (ℕ × ℤ)) (c i : ℕ),
        cfg.class_specific_filter = true → cfg.nms = false →
        fdMerged cfg boxes C cls = some merged →
        c < C → i < cls.length → cfg.score_threshold < (cls.getD i []).getD c 0 →
        (i, ((c : ℤ))) ∈ merged) ∧
    filter_detections ⟨true, false, 5, 2, 2⟩ [⟨0, 0, 10, 10⟩] 2 [[90, 85]] [] =
      some ⟨[⟨0, 0, 10, 10⟩, ⟨0, 0, 10, 10⟩], [90, 85], [0, 1], []⟩ := by
  constructor
  · intro cfg boxes C cls merged c i hcs hn hm hc hi hthr
    unfold fdMerged at hm
    rw [hcs] at hm
    simp only [if_true, Option.bind_eq_bind] at hm
    rcases Option.bind_eq_some.mp hm with ⟨all, hall, hflat⟩
    have hout : merged = all.flatten := by
      by_cases he : all.isEmpty
      · rw [if_pos he] at hflat
        cases hflat
      · rw [if_neg he] at hflat
        simp only [Option.pure_def, Option.some.injEq] at hflat
        exact hflat.symm
    subst hout
    rcases forall2_mem_left (mapM_some_forall2 hall) c (List.mem_range.mpr hc)
      with ⟨l, hl, hFc⟩
    rw [_filter_detections_false_eq hn] at hFc
    have hlval := Option.some.inj hFc
    refine List.mem_flatten.mpr ⟨l, hl, ?_⟩
    rw [← hlval]
    refine List.mem_map.mpr ⟨i, ?_, ?_⟩
    · refine whereGreater_mem.mpr ⟨?_, ?_⟩
      · rw [List.length_map]
        exact hi
      · rw [getD_map_lt (fun r => r.getD c 0) hi [] 0]
        exact hthr
    · rw [replicate_getD_lt hi]
  · with_unfolding_all decide

/-- C5 witness: on the concrete one-anchor two-class input the merged
candidate set is [(0, 0), (0, 1)], and the amended claim places the duplicate
anchor with the second label in it. -/
theorem C5_witness :
    fdMerged ⟨true, false, 5, 2, 2⟩ [⟨0, 0, 10, 10⟩] 2 [[90, 85]] =
      some [(0, 0), (0, 1)] ∧
    ((0 : ℕ), ((1 : ℕ) : ℤ)) ∈ [((0 : ℕ), (0 : ℤ)), (0, 1)] :=
  ⟨by with_unfolding_all decide,
   C5_amended.1 ⟨true, false, 5, 2, 2⟩ [⟨0, 0, 10, 10⟩] 2 [[90, 85]]
     [(0, 0), (0, 1)] 1 0 rfl rfl (by with_unfolding_all decide) (by decide)
     (by decide) (by with_unfolding_all decide)⟩

/-- C7 counterexample: the batched path does not pass the side channels
through: FilterDetections.call with a nonempty side-channel input returns
exactly the output it returns with no side channels at all (boxes, scores and
labels only), so the batched output contains no tensor for other[k]. -/
theorem C7_counterexample :
    FilterDetections_call ⟨true, false, 5, 1, 2⟩ 1 [[⟨0, 0, 10, 10⟩]] [[[90]]]
        [[[[7]]]] =
      FilterDetections_call ⟨true, false, 5, 1, 2⟩ 1 [[⟨0, 0, 10, 10⟩]] [[[90]]] [] ∧
    FilterDetections_call ⟨true, false, 5, 1, 2⟩ 1 [[⟨0, 0, 10, 10⟩]] [[[90]]]
        [[[[7]]]] =
      some [⟨[⟨0, 0, 10, 10⟩], [(((90 : ℚ)) : EScore)], [0]⟩] := by
  exact ⟨rfl, by with_unfolding_all decide⟩

/-- C7 amended: on the per-image dynamic path every side channel is passed
through unchanged up to gathering the same selected anchors as the boxes and
sentinel padding to max_detections rows; the batched path drops the side
channels entirely: its output is independent of them and holds only boxes,
scores and labels. -/
theorem C7_amended :
    (∀ (cfg : FDConfig) (boxes : List Box) (C : ℕ) (cls : List (List ℚ))
        (other : List OtherT) (out : FDOut),
        filter_detections cfg boxes C cls other = some out →
        out.others.length = other.length ∧
        ∃ sel : List ℕ,
          out.boxes = sel.map (fun i => boxes.getD i sentinelBox) ++
            List.replicate (cfg.max_detections.toNat - sel.length) sentinelBox ∧
          (∀ k, k < other.length → out.others.getD k [] =
            sel.map (fun i => (other.getD k ⟨0, []⟩).data.getD i []) ++
              List.replicate (cfg.max_detections.toNat - sel.length)
                (List.replicate (other.getD k ⟨0, []⟩).w (-1)))) ∧
    (∀ (cfg : FDConfig) (C : ℕ) (boxes_b : List (List Box))
        (cls_b : List (List (List ℚ))) (o1 o2 : List (List (List (List ℚ)))),
        FilterDetections_call cfg C boxes_b cls_b o1 =
          FilterDetections_call cfg C boxes_b cls_b o2) := by
  constructor
  · intro cfg boxes C cls other out h
    obtain ⟨merged, tpos, hm, hmd0, hlen, hmem, hnd, hsc, hlab, hbox, holen, hoget, _, _⟩ :=
      filter_detections_spec h
    refine ⟨holen, tpos.map (fun t => (merged.getD t (0, 0)).1), ?_, ?_⟩
    · rw [hbox, List.map_map, List.length_map]
      rfl
    · intro k hk
      rw [hoget k hk, List.map_map, List.length_map]
      rfl
  · intro cfg C boxes_b cls_b o1 o2
    rfl

/-- C7 witness: on a concrete input with one side channel, the dynamic path
gathers and pads the channel at the same selected anchors as the boxes. -/
theorem C7_witness :
    filter_detections ⟨true, false, 5, 2, 2⟩ [⟨0, 0, 10, 10⟩] 1 [[90]] [⟨1, [[7]]⟩] =
      some ⟨[⟨0, 0, 10, 10⟩, sentinelBox], [90, -1], [0, -1], [[[7], [-1]]]⟩ ∧
    ((⟨[⟨0, 0, 10, 10⟩, sentinelBox], [90, -1], [0, -1],
        [[[7], [-1]]]⟩ : FDOut).others.length = ([⟨1, [[7]]⟩] : List OtherT).length ∧
      ∃ sel : List ℕ,
        (⟨[⟨0, 0, 10, 10⟩, sentinelBox], [90, -1], [0, -1],
          [[[7], [-1]]]⟩ : FDOut).boxes =
          sel.map (fun i => [(⟨0, 0, 10, 10⟩ : Box)].getD i sentinelBox) ++
            List.replicate (2 - sel.length) sentinelBox ∧
        (∀ k, k < ([⟨1, [[7]]⟩] : List OtherT).length →
          (⟨[⟨0, 0, 10, 10⟩, sentinelBox], [90, -1], [0, -1],
            [[[7], [-1]]]⟩ : FDOut).others.getD k [] =
            sel.map (fun i =>
              (([⟨1, [[7]]⟩] : List OtherT).getD k ⟨0, []⟩).data.getD i []) ++
              List.replicate (2 - sel.length)
                (List.replicate (([⟨1, [[7]]⟩] : List OtherT).getD k ⟨0, []⟩).w (-1)))) :=
  ⟨by with_unfolding_all decide,
   C7_amended.1 ⟨true, false, 5, 2, 2⟩ [⟨0, 0, 10, 10⟩] 1 [[90]] [⟨1, [[7]]⟩]
     ⟨[⟨0, 0, 10, 10⟩, sentinelBox], [90, -1], [0, -1], [[[7], [-1]]]⟩
     (by with_unfolding_all decide)⟩

/-- C3: the coarse pre-prune result is computed and then thrown away: the
second map_fn is applied to the original elems, not to the pre-pruned res.
On a 5-anchor class-agnostic input with max_detections 2, the pre-prune
(top-4 by raw score) removes the 5th anchor (score 1/10), yet the final
output still contains that anchor's box (20,20,30,30) with score 1/10 --
impossible if the NMS pass had operated on the pruned set. -/
theorem C3_second_pass_uses_unpruned_set :
    _pre_exclude ⟨false, true, 1/20, 2, 1/2⟩
      ([(((9 : ℚ)/10 : ℚ) : EScore), (((4 : ℚ)/5 : ℚ) : EScore),
        (((7 : ℚ)/10 : ℚ) : EScore), (((3 : ℚ)/5 : ℚ) : EScore),
        (((1 : ℚ)/10 : ℚ) : EScore), ⊥],
       [⟨0, 0, 10, 10⟩, ⟨0, 0, 10, 10⟩, ⟨0, 0, 10, 10⟩, ⟨0, 0, 10, 10⟩,
        ⟨20, 20, 30, 30⟩, zeroBox],
       [0, 0, 0, 0, 0, -1]) =
      some ([(((9 : ℚ)/10 : ℚ) : EScore), (((4 : ℚ)/5 : ℚ) : EScore),
        (((7 : ℚ)/10 : ℚ) : EScore), (((3 : ℚ)/5 : ℚ) : EScore)],
       [⟨0, 0, 10, 10⟩, ⟨0, 0, 10, 10⟩, ⟨0, 0, 10, 10⟩, ⟨0, 0, 10, 10⟩],
       [0, 0, 0, 0]) ∧
    filter_detections_tpu ⟨false, true, 1/20, 2, 1/2⟩
      [⟨0, 0, 10, 10⟩, ⟨0, 0, 10, 10⟩, ⟨0, 0, 10, 10⟩, ⟨0, 0, 10, 10⟩,
       ⟨20, 20, 30, 30⟩] 1
      [[9/10], [4/5], [7/10], [3/5], [1/10]] =
      some ⟨[⟨0, 0, 10, 10⟩, ⟨20, 20, 30, 30⟩],
        [(((9 : ℚ)/10 : ℚ) : EScore), (((1 : ℚ)/10 : ℚ) : EScore)], [0, 0]⟩ ∧
    (((1 : ℚ)/10 : ℚ) : EScore) ∉ [(((9 : ℚ)/10 : ℚ) : EScore),
      (((4 : ℚ)/5 : ℚ) : EScore), (((7 : ℚ)/10 : ℚ) : EScore),
      (((3 : ℚ)/5 : ℚ) : EScore)] := by
  exact ⟨by with_unfolding_all decide, by with_unfolding_all decide,
    by with_unfolding_all decide⟩

/-- C1 counterexample: rows derived from the static-shape ghost anchor are
visible in the output: with one below-threshold anchor the single output row
has label -1 but box (0,0,0,0) and score -inf, which differ from the all -1
sentinel row the claim requires. -/
theorem C1_counterexample :
    filter_detections_tpu ⟨true, false, 5, 1, 2⟩ [⟨0, 0, 10, 10⟩] 1 [[1]] =
      some ⟨[zeroBox], [⊥], [-1]⟩ ∧
    zeroBox ≠ sentinelBox ∧ ((⊥ : EScore)) ≠ (((-1 : ℚ)) : EScore) := by
  exact ⟨by with_unfolding_all decide, by decide, by with_unfolding_all decide⟩

/-- C1 amended: every per-image output has exactly max_detections rows in
every field.  On the dynamic path there is a valid count v: every row before v
is a genuine detection (nonnegative label, score strictly above the
threshold), and every row from v on holds the sentinel -1 in every field
(box, score, label and side channels).  On the static-shape path rows with
label -1 are ghost rows: box (0,0,0,0) and score -inf, not the -1 sentinel. -/
theorem C1_amended :
    (∀ (cfg : FDConfig) (boxes : List Box) (C : ℕ) (cls : List (List ℚ))
        (other : List OtherT) (out : FDOut), ClsWF C cls →
        filter_detections cfg boxes C cls other = some out →
        out.boxes.length = cfg.max_detections.toNat ∧
        out.scores.length = cfg.max_detections.toNat ∧
        out.labels.length = cfg.max_detections.toNat ∧
        out.others.length = other.length ∧
        (∀ k, k < other.length →
          (out.others.getD k []).length = cfg.max_detections.toNat) ∧
        ∃ v, v ≤ cfg.max_detections.toNat ∧
          (∀ i, i < v →
            0 ≤ out.labels.getD i 0 ∧ cfg.score_threshold < out.scores.getD i 0) ∧
          (∀ i, v ≤ i → i < cfg.max_detections.toNat →
            out.boxes.getD i sentinelBox = sentinelBox ∧
            out.scores.getD i 0 = -1 ∧ out.labels.getD i 0 = -1 ∧
            (∀ k, k < other.length → (out.others.getD k []).getD i [] =
              List.replicate (other.getD k ⟨0, []⟩).w (-1)))) ∧
    (∀ (cfg : FDConfig) (boxes : List Box) (C : ℕ) (cls : List (List ℚ))
        (out : TPUOut), boxes.length = cls.length →
        filter_detections_tpu cfg boxes C cls = some out →
        out.boxes.length = cfg.max_detections.toNat ∧
        out.scores.length = cfg.max_detections.toNat ∧
        out.labels.length = cfg.max_detections.toNat ∧
        ∀ r, r < cfg.max_detections.toNat → out.labels.getD r (-1) = -1 →
          out.scores.getD r ⊥ = ⊥ ∧ out.boxes.getD r zeroBox = zeroBox) := by
  constructor
  · intro cfg boxes C cls other out hC h
    obtain ⟨h1, h2, h3, h4, h5, v, hv, hsent, hvalid⟩ := filter_detections_row_spec hC h
    exact ⟨h1, h2, h3, h4, h5, v, hv, hvalid, hsent⟩
  · intro cfg boxes C cls out hWF h
    cases hcs : cfg.class_specific_filter with
    | true =>
      obtain ⟨h1, h2, h3, h4, _, _⟩ := tpu_specific_spec hcs hWF h
      exact ⟨h1, h2, h3, fun r hr hl => (h4 r hr).1 hl⟩
    | false =>
      obtain ⟨h1, h2, h3, h4, _, _⟩ := tpu_agnostic_spec hcs hWF h
      exact ⟨h1, h2, h3, fun r hr hl => (h4 r hr).1 hl⟩

/-- C1 witness: concrete instances of both halves of the amended claim: a
dynamic run with one valid detection and one sentinel row (side channel
included), and a static-shape run whose ghost row has score -inf and box
zeros. -/
theorem C1_witness :
    ClsWF 1 [[(90 : ℚ)]] ∧
    filter_detections ⟨true, false, 5, 2, 2⟩ [⟨0, 0, 10, 10⟩] 1 [[90]] [⟨1, [[7]]⟩] =
      some ⟨[⟨0, 0, 10, 10⟩, sentinelBox], [90, -1], [0, -1], [[[7], [-1]]]⟩ ∧
    ((⟨[⟨0, 0, 10, 10⟩, sentinelBox], [90, -1], [0, -1],
        [[[7], [-1]]]⟩ : FDOut).boxes.length = 2 ∧
      (⟨[⟨0, 0, 10, 10⟩, sentinelBox], [90, -1], [0, -1],
        [[[7], [-1]]]⟩ : FDOut).scores.length = 2 ∧
      (⟨[⟨0, 0, 10, 10⟩, sentinelBox], [90, -1], [0, -1],
        [[[7], [-1]]]⟩ : FDOut).labels.length = 2 ∧
      (⟨[⟨0, 0, 10, 10⟩, sentinelBox], [90, -1], [0, -1],
        [[[7], [-1]]]⟩ : FDOut).others.length = ([⟨1, [[7]]⟩] : List OtherT).length ∧
      (∀ k, k < ([⟨1, [[7]]⟩] : List OtherT).length →
        ((⟨[⟨0, 0, 10, 10⟩, sentinelBox], [90, -1], [0, -1],
          [[[7], [-1]]]⟩ : FDOut).others.getD k []).length = 2) ∧
      ∃ v, v ≤ 2 ∧
        (∀ i, i < v →
          0 ≤ (⟨[⟨0, 0, 10, 10⟩, sentinelBox], [90, -1], [0, -1],
            [[[7], [-1]]]⟩ : FDOut).labels.getD i 0 ∧
          (5 : ℚ) < (⟨[⟨0, 0, 10, 10⟩, sentinelBox], [90, -1], [0, -1],
            [[[7], [-1]]]⟩ : FDOut).scores.getD i 0) ∧
        (∀ i, v ≤ i → i < 2 →
          (⟨[⟨0, 0, 10, 10⟩, sentinelBox], [90, -1], [0, -1],
            [[[7], [-1]]]⟩ : FDOut).boxes.getD i sentinelBox = sentinelBox ∧
          (⟨[⟨0, 0, 10, 10⟩, sentinelBox], [90, -1], [0, -1],
            [[[7], [-1]]]⟩ : FDOut).scores.getD i 0 = -1 ∧
          (⟨[⟨0, 0, 10, 10⟩, sentinelBox], [90, -1], [0, -1],
            [[[7], [-1]]]⟩ : FDOut).labels.getD i 0 = -1 ∧
          (∀ k, k < ([⟨1, [[7]]⟩] : List OtherT).length →
            ((⟨[⟨0, 0, 10, 10⟩, sentinelBox], [90, -1], [0, -1],
              [[[7], [-1]]]⟩ : FDOut).others.getD k []).getD i [] =
              List.replicate (([⟨1, [[7]]⟩] : List OtherT).getD k ⟨0, []⟩).w (-1)))) :=
  ⟨by decide, by with_unfolding_all decide,
   C1_amended.1 ⟨true, false, 5, 2, 2⟩ [⟨0, 0, 10, 10⟩] 1 [[90]] [⟨1, [[7]]⟩]
     ⟨[⟨0, 0, 10, 10⟩, sentinelBox], [90, -1], [0, -1], [[[7], [-1]]]⟩
     (by decide) (by with_unfolding_all decide)⟩

/-- C2 counterexample: a static-shape output row with label -1 is a ghost row,
not a sentinel row: its box is (0,0,0,0) (not -1) and its score is -inf,
which also does not exceed the threshold, so neither branch of the claimed
disjunction holds as worded. -/
theorem C2_counterexample :
    filter_detections_tpu ⟨false, false, 5, 1, 2⟩ [⟨0, 0, 10, 10⟩] 1 [[1]] =
      some ⟨[zeroBox], [⊥], [-1]⟩ ∧
    zeroBox ≠ sentinelBox ∧
    ¬ (((5 : ℚ) : EScore) < (⊥ : EScore)) := by
  exact ⟨by with_unfolding_all decide, by decide, by with_unfolding_all decide⟩

/-- C2 amended: on the dynamic path every output row either is a sentinel row
(label -1, score -1, box -1 and every side-channel field -1) or has a score
strictly above score_threshold; on the static-shape path every row either is
a ghost row (label -1, score -inf, box zeros) or has a score strictly above
the threshold. -/
theorem C2_amended :
    (∀ (cfg : FDConfig) (boxes : List Box) (C : ℕ) (cls : List (List ℚ))
        (other : List OtherT) (out : FDOut), ClsWF C cls →
        filter_detections cfg boxes C cls other = some out →
        ∀ i, i < cfg.max_detections.toNat →
          (out.labels.getD i 0 = -1 ∧ out.scores.getD i 0 = -1 ∧
            out.boxes.getD i sentinelBox = sentinelBox ∧
            (∀ k, k < other.length → (out.others.getD k []).getD i [] =
              List.replicate (other.getD k ⟨0, []⟩).w (-1))) ∨
          cfg.score_threshold < out.scores.getD i 0) ∧
    (∀ (cfg : FDConfig) (boxes : List Box) (C : ℕ) (cls : List (List ℚ))
        (out : TPUOut), boxes.length = cls.length →
        filter_detections_tpu cfg boxes C cls = some out →
        ∀ r, r < cfg.max_detections.toNat →
          (out.labels.getD r (-1) = -1 ∧ out.scores.getD r ⊥ = ⊥ ∧
            out.boxes.getD r zeroBox = zeroBox) ∨
          (cfg.score_threshold : EScore) < out.scores.getD r ⊥) := by
  constructor
  · intro cfg boxes C cls other out hC h i hi
    obtain ⟨_, _, _, _, _, v, hv, hsent, hvalid⟩ := filter_detections_row_spec hC h
    rcases Nat.lt_or_ge i v with hlt | hge
    · exact Or.inr (hvalid i hlt).2
    · obtain ⟨hb, hs, hl, ho⟩ := hsent i hge hi
      exact Or.inl ⟨hl, hs, hb, ho⟩
  · intro cfg boxes C cls out hWF h r hr
    cases hcs : cfg.class_specific_filter with
    | true =>
      obtain ⟨_, _, _, h4, _, _⟩ := tpu_specific_spec hcs hWF h
      obtain ⟨hghost, hdisj⟩ := h4 r hr
      rcases hdisj with hl | hs
      · obtain ⟨hsc, hbx⟩ := hghost hl
        exact Or.inl ⟨hl, hsc, hbx⟩
      · exact Or.inr hs
    | false =>
      obtain ⟨_, _, _, h4, _, _⟩ := tpu_agnostic_spec hcs hWF h
      obtain ⟨hghost, hdisj⟩ := h4 r hr
      rcases hdisj with hl | hs
      · obtain ⟨hsc, hbx⟩ := hghost hl
        exact Or.inl ⟨hl, hsc, hbx⟩
      · exact Or.inr hs

/-- C2 witness: a concrete dynamic run with one retained row (score 90 above
threshold 5), one sentinel row and one side channel, instantiating the
amended row disjunction including the side-channel sentinel fields. -/
theorem C2_witness :
    ClsWF 1 [[(90 : ℚ)]] ∧
    filter_detections ⟨true, false, 5, 2, 2⟩ [⟨0, 0, 10, 10⟩] 1 [[90]] [⟨2, [[7, 8]]⟩] =
      some ⟨[⟨0, 0, 10, 10⟩, sentinelBox], [90, -1], [0, -1], [[[7, 8], [-1, -1]]]⟩ ∧
    (∀ i, i < 2 →
      ((⟨[⟨0, 0, 10, 10⟩, sentinelBox], [90, -1], [0, -1],
          [[[7, 8], [-1, -1]]]⟩ : FDOut).labels.getD i 0 = -1 ∧
        (⟨[⟨0, 0, 10, 10⟩, sentinelBox], [90, -1], [0, -1],
          [[[7, 8], [-1, -1]]]⟩ : FDOut).scores.getD i 0 = -1 ∧
        (⟨[⟨0, 0, 10, 10⟩, sentinelBox], [90, -1], [0, -1],
          [[[7, 8], [-1, -1]]]⟩ : FDOut).boxes.getD i sentinelBox = sentinelBox ∧
        (∀ k, k < ([⟨2, [[7, 8]]⟩] : List OtherT).length →
          ((⟨[⟨0, 0, 10, 10⟩, sentinelBox], [90, -1], [0, -1],
            [[[7, 8], [-1, -1]]]⟩ : FDOut).others.getD k []).getD i [] =
            List.replicate (([⟨2, [[7, 8]]⟩] : List OtherT).getD k ⟨0, []⟩).w (-1))) ∨
      (5 : ℚ) < (⟨[⟨0, 0, 10, 10⟩, sentinelBox], [90, -1], [0, -1],
        [[[7, 8], [-1, -1]]]⟩ : FDOut).scores.getD i 0) :=
  ⟨by decide, by with_unfolding_all decide,
   C2_amended.1 ⟨true, false, 5, 2, 2⟩ [⟨0, 0, 10, 10⟩] 1 [[90]] [⟨2, [[7, 8]]⟩]
     ⟨[⟨0, 0, 10, 10⟩, sentinelBox], [90, -1], [0, -1], [[[7, 8], [-1, -1]]]⟩
     (by decide) (by with_unfolding_all decide)⟩

/-- C4: NMS guarantee.  On the dynamic path, for any two distinct retained
rows (nonnegative labels): in class-agnostic mode their boxes are within
nms_threshold IoU, and in general an IoU above nms_threshold forces their
labels to differ.  On the static-shape path: with class-specific filtering two
distinct non-ghost rows with equal labels are within the threshold; with
class-agnostic filtering any two distinct non-ghost rows are. -/
theorem C4_nms_guarantee :
    (∀ (cfg : FDConfig) (boxes : List Box) (C : ℕ) (cls : List (List ℚ))
        (other : List OtherT) (out : FDOut), ClsWF C cls → cfg.nms = true →
        filter_detections cfg boxes C cls other = some out →
        ∀ i1 i2, i1 < cfg.max_detections.toNat → i2 < cfg.max_detections.toNat →
          i1 ≠ i2 → 0 ≤ out.labels.getD i1 0 → 0 ≤ out.labels.getD i2 0 →
          (cfg.class_specific_filter = false →
            iou (out.boxes.getD i1 sentinelBox) (out.boxes.getD i2 sentinelBox) ≤
              cfg.nms_threshold) ∧
          (cfg.nms_threshold <
              iou (out.boxes.getD i1 sentinelBox) (out.boxes.getD i2 sentinelBox) →
            out.labels.getD i1 0 ≠ out.labels.getD i2 0)) ∧
    (∀ (cfg : FDConfig) (boxes : List Box) (C : ℕ) (cls : List (List ℚ))
        (out : TPUOut), cfg.class_specific_filter = true → boxes.length = cls.length →
        cfg.nms = true → filter_detections_tpu cfg boxes C cls = some out →
        ∀ r1 r2, r1 < cfg.max_detections.toNat → r2 < cfg.max_detections.toNat →
          r1 ≠ r2 → out.labels.getD r1 (-1) ≠ -1 →
          out.labels.getD r1 (-1) = out.labels.getD r2 (-1) →
          iou (out.boxes.getD r1 zeroBox) (out.boxes.getD r2 zeroBox) ≤
            cfg.nms_threshold) ∧
    (∀ (cfg : FDConfig) (boxes : List Box) (C : ℕ) (cls : List (List ℚ))
        (out : TPUOut), cfg.class_specific_filter = false → boxes.length = cls.length →
        cfg.nms = true → filter_detections_tpu cfg boxes C cls = some out →
        ∀ r1 r2, r1 < cfg.max_detections.toNat → r2 < cfg.max_detections.toNat →
          r1 ≠ r2 → out.labels.getD r1 (-1) ≠ -1 → out.labels.getD r2 (-1) ≠ -1 →
          iou (out.boxes.getD r1 zeroBox) (out.boxes.getD r2 zeroBox) ≤
            cfg.nms_threshold) := by
  refine ⟨?_, ?_, ?_⟩
  · intro cfg boxes C cls other out hC hn h i1 i2 h1 h2 hne hl1 hl2
    obtain ⟨hA, hS⟩ := filter_detections_nms_spec hC hn h i1 i2 h1 h2 hne hl1 hl2
    refine ⟨hA, fun hgt heq => ?_⟩
    exact absurd (hS heq) (not_le.mpr hgt)
  · intro cfg boxes C cls out hcs hWF hn h
    exact (tpu_specific_spec hcs hWF h).2.2.2.2.2 hn
  · intro cfg boxes C cls out hcs hWF hn h
    exact (tpu_agnostic_spec hcs hWF h).2.2.2.2.2 hn

/-- C4 witness: a concrete dynamic NMS run with two retained boxes
(IoU 0 <= 1/2) instantiating the guarantee. -/
theorem C4_witness :
    ClsWF 1 [[(9 : ℚ)/10], [(4 : ℚ)/5], [(7 : ℚ)/10]] ∧
    (⟨true, true, 1/2, 2, 1/2⟩ : FDConfig).nms = true ∧
    filter_detections ⟨true, true, 1/2, 2, 1/2⟩
      [⟨0, 0, 10, 10⟩, ⟨0, 0, 9, 9⟩, ⟨20, 20, 30, 30⟩] 1
      [[9/10], [4/5], [7/10]] [] =
      some ⟨[⟨0, 0, 10, 10⟩, ⟨20, 20, 30, 30⟩], [9/10, 7/10], [0, 0], []⟩ ∧
    (∀ i1 i2, i1 < 2 → i2 < 2 → i1 ≠ i2 →
      0 ≤ (⟨[⟨0, 0, 10, 10⟩, ⟨20, 20, 30, 30⟩], [9/10, 7/10], [0, 0],
        []⟩ : FDOut).labels.getD i1 0 →
      0 ≤ (⟨[⟨0, 0, 10, 10⟩, ⟨20, 20, 30, 30⟩], [9/10, 7/10], [0, 0],
        []⟩ : FDOut).labels.getD i2 0 →
      ((⟨true, true, 1/2, 2, 1/2⟩ : FDConfig).class_specific_filter = false →
        iou ((⟨[⟨0, 0, 10, 10⟩, ⟨20, 20, 30, 30⟩], [9/10, 7/10], [0, 0],
          []⟩ : FDOut).boxes.getD i1 sentinelBox)
          ((⟨[⟨0, 0, 10, 10⟩, ⟨20, 20, 30, 30⟩], [9/10, 7/10], [0, 0],
            []⟩ : FDOut).boxes.getD i2 sentinelBox) ≤ 1/2) ∧
      ((1 : ℚ)/2 <
          iou ((⟨[⟨0, 0, 10, 10⟩, ⟨20, 20, 30, 30⟩], [9/10, 7/10], [0, 0],
            []⟩ : FDOut).boxes.getD i1 sentinelBox)
            ((⟨[⟨0, 0, 10, 10⟩, ⟨20, 20, 30, 30⟩], [9/10, 7/10], [0, 0],
              []⟩ : FDOut).boxes.getD i2 sentinelBox) →
        (⟨[⟨0, 0, 10, 10⟩, ⟨20, 20, 30, 30⟩], [9/10, 7/10], [0, 0],
          []⟩ : FDOut).labels.getD i1 0 ≠
          (⟨[⟨0, 0, 10, 10⟩, ⟨20, 20, 30, 30⟩], [9/10, 7/10], [0, 0],
            []⟩ : FDOut).labels.getD i2 0)) :=
  ⟨by with_unfolding_all decide, rfl, by with_unfolding_all decide,
   C4_nms_guarantee.1 ⟨true, true, 1/2, 2, 1/2⟩
     [⟨0, 0, 10, 10⟩, ⟨0, 0, 9, 9⟩, ⟨20, 20, 30, 30⟩] 1 [[9/10], [4/5], [7/10]] []
     ⟨[⟨0, 0, 10, 10⟩, ⟨20, 20, 30, 30⟩], [9/10, 7/10], [0, 0], []⟩
     (by with_unfolding_all decide) rfl (by with_unfolding_all decide)⟩

/-- C6: ordering and selection of the dynamic final top-k.  A successful run
selects positions tpos into the merged candidate set with
|tpos| = min(max_detections, #candidates); the emitted scores are the gathered
scores at those positions followed by sentinel padding; the selected positions
are ordered by score descending with ties broken by ascending candidate
position, and they dominate every unselected candidate in the same order
(modelled from the spec for the tf.nn.top_k tie-breaking rule).  On the
static-shape path the output scores are descending as well. -/
theorem C6_topk_order_and_selection :
    (∀ (cfg : FDConfig) (boxes : List Box) (C : ℕ) (cls : List (List ℚ))
      (other : List OtherT) (out : FDOut),
      filter_detections cfg boxes C cls other = some out →
      ∃ (merged : List (ℕ × ℤ)) (tpos : List ℕ),
        fdMerged cfg boxes C cls = some merged ∧
        tpos.length = min cfg.max_detections.toNat merged.length ∧
        (∀ t ∈ tpos, t < merged.length) ∧
        tpos.Nodup ∧
        out.scores = tpos.map (fun t => gatherScore cls (merged.getD t (0, 0))) ++
          List.replicate (cfg.max_detections.toNat - tpos.length) (-1) ∧
        tpos.Pairwise (fun t1 t2 =>
          gatherScore cls (merged.getD t2 (0, 0)) <
              gatherScore cls (merged.getD t1 (0, 0)) ∨
          (gatherScore cls (merged.getD t2 (0, 0)) =
              gatherScore cls (merged.getD t1 (0, 0)) ∧ t1 < t2)) ∧
        (∀ j, j < merged.length → j ∉ tpos → ∀ t ∈ tpos,
          gatherScore cls (merged.getD j (0, 0)) <
              gatherScore cls (merged.getD t (0, 0)) ∨
          (gatherScore cls (merged.getD j (0, 0)) =
              gatherScore cls (merged.getD t (0, 0)) ∧ t < j))) ∧
    (∀ (cfg : FDConfig) (boxes : List Box) (C : ℕ) (cls : List (List ℚ))
      (out : TPUOut), boxes.length = cls.length →
      filter_detections_tpu cfg boxes C cls = some out →
      out.scores.Pairwise (fun a b => b ≤ a)) := by
  constructor
  · intro cfg boxes C cls other out h
    obtain ⟨merged, tpos, hm, _, hlen, hmem, hnd, hsc, _, _, _, _, htie, hdom⟩ :=
      filter_detections_spec h
    exact ⟨merged, tpos, hm, hlen, hmem, hnd, hsc, htie, hdom⟩
  · intro cfg boxes C cls out hWF h
    cases hcs : cfg.class_specific_filter with
    | true => exact (tpu_specific_spec hcs hWF h).2.2.2.2.1
    | false => exact (tpu_agnostic_spec hcs hWF h).2.2.2.2.1

/-- C6 witness: concrete run with three candidates and max_detections 2: the
two best scores 9/10 > 7/10 are kept in descending order (candidate 2 with
score 4/5 was suppressed by NMS before the top-k). -/
theorem C6_witness :
    filter_detections ⟨true, true, 1/2, 2, 1/2⟩
      [⟨0, 0, 10, 10⟩, ⟨0, 0, 9, 9⟩, ⟨20, 20, 30, 30⟩] 1
      [[9/10], [4/5], [7/10]] [] =
      some ⟨[⟨0, 0, 10, 10⟩, ⟨20, 20, 30, 30⟩], [9/10, 7/10], [0, 0], []⟩ ∧
    (∃ (merged : List (ℕ × ℤ)) (tpos : List ℕ),
      fdMerged ⟨true, true, 1/2, 2, 1/2⟩
        [⟨0, 0, 10, 10⟩, ⟨0, 0, 9, 9⟩, ⟨20, 20, 30, 30⟩] 1
        [[9/10], [4/5], [7/10]] = some merged ∧
      tpos.length = min 2 merged.length ∧
      (∀ t ∈ tpos, t < merged.length) ∧
      tpos.Nodup ∧
      (⟨[⟨0, 0, 10, 10⟩, ⟨20, 20, 30, 30⟩], [9/10, 7/10], [0, 0], []⟩ : FDOut).scores =
        tpos.map (fun t => gatherScore [[9/10], [4/5], [7/10]] (merged.getD t (0, 0))) ++
          List.replicate (2 - tpos.length) (-1) ∧
      tpos.Pairwise (fun t1 t2 =>
        gatherScore [[9/10], [4/5], [7/10]] (merged.getD t2 (0, 0)) <
            gatherScore [[9/10], [4/5], [7/10]] (merged.getD t1 (0, 0)) ∨
        (gatherScore [[9/10], [4/5], [7/10]] (merged.getD t2 (0, 0)) =
            gatherScore [[9/10], [4/5], [7/10]] (merged.getD t1 (0, 0)) ∧ t1 < t2)) ∧
      (∀ j, j < merged.length → j ∉ tpos → ∀ t ∈ tpos,
        gatherScore [[9/10], [4/5], [7/10]] (merged.getD j (0, 0)) <
            gatherScore [[9/10], [4/5], [7/10]] (merged.getD t (0, 0)) ∨
        (gatherScore [[9/10], [4/5], [7/10]] (merged.getD j (0, 0)) =
            gatherScore [[9/10], [4/5], [7/10]] (merged.getD t (0, 0)) ∧ t < j))) :=
  ⟨by with_unfolding_all decide,
   C6_topk_order_and_selection.1 ⟨true, true, 1/2, 2, 1/2⟩
     [⟨0, 0, 10, 10⟩, ⟨0, 0, 9, 9⟩, ⟨20, 20, 30, 30⟩] 1 [[9/10], [4/5], [7/10]] []
     ⟨[⟨0, 0, 10, 10⟩, ⟨20, 20, 30, 30⟩], [9/10, 7/10], [0, 0], []⟩
     (by with_unfolding_all decide)⟩
